import Mathlib

/-!
# Monte Carlo simulation for average shortest paths (`week3/Dijkstras_algorithm.cpp`)

A shallow embedding of the C++ class `Graph` and of its member functions
`Graph`, `addEdge`, `dijkstra`, `averageDistance` and `monteCarloSimulation`,
followed by theorems about them.

Modelling conventions.

* A `double` is the rational number it denotes. Every operation of the source on
  doubles (`+`, `-`, `*`, `/`) is the exact operation followed by a rounding
  function `fl : ℚ → ℚ`, the first argument of every definition that computes with
  doubles. The general theorems hold for every `fl` that satisfies the laws
  `Rounding` (monotone, idempotent, every number `m·2^k` with `|m| < 2^53` and
  `-1074 ≤ k ≤ 971` is a fixed point); the exact arithmetic `fl = id` is one such
  function and `roundDouble`, the rounding of IEEE 754 binary64 (to nearest, ties
  to even, gradual underflow), is another (`roundDouble_rounding`). The concrete
  runs are evaluated with `roundDouble`.
* A result beyond the largest finite double is `±2^1100`, which stands for `±∞`:
  far enough out that an infinite operand plus or minus a finite double, times a
  positive quotient `rand()/RAND_MAX`, or divided by a positive `int` rounds to
  the same infinity. NaN is not modelled; the weights and the parameters that the
  caller passes are finite doubles. Conversions from `int` to `double` are exact,
  and every operation is rounded to `double` on its own (no excess precision, no
  fused multiply-add).

* `int` vertex numbers, sizes and the vertex count `V` are natural numbers; the
  only signed counter that is decremented, `adjacent_vertices`, is an integer.
* `vector` is `List`; `v[i]` is `List.getD v i _` and `v[i] = x` is `List.set`.
  An index outside the vector is undefined behaviour in C++; the model reads the
  default and leaves the vector unchanged, and the theorems keep indices in range.
* `priority_queue<ii, vector<ii>, greater<ii>>` is the sorted list of its
  elements: `top` is the head, `pop` the tail, `push` an ordered insertion.
* `while (!Q.empty())` is a recursion on a fuel argument; running out of fuel
  gives `none`.
* `rand()` is a stream of integers together with the position of the next draw.
* a `double` division whose divisor is zero (no finite result) gives `none`.
-/

namespace Week3

/-! ## Double arithmetic -/

/-- The power `2^k` of two, for an integer `k`. -/
def pow2 (k : ℤ) : ℚ :=
  if 0 ≤ k then ((2 ^ k.toNat : ℕ) : ℚ) else 1 / ((2 ^ (-k).toNat : ℕ) : ℚ)

/-- The number `⌊log₂ n⌋` of a positive `n ≤ fuel`, by repeated halving. -/
def log2Aux : ℕ → ℕ → ℕ
  | 0, _ => 0
  | fuel + 1, n => if n < 2 then 0 else log2Aux fuel (n / 2) + 1

/-- The binary exponent of a positive rational `q`: the integer `e` with
`2^e ≤ q < 2^(e+1)`. -/
def ilog2 (q : ℚ) : ℤ :=
  let e0 : ℤ := (log2Aux q.num.natAbs q.num.natAbs : ℤ) - (log2Aux q.den q.den : ℤ)
  if pow2 e0 ≤ q then e0 else e0 - 1

/-- The integer nearest to `x`; of the two nearest ones the even one when `x` lies half-way. -/
def rne (x : ℚ) : ℤ :=
  if x - ⌊x⌋ < 1 / 2 then ⌊x⌋
  else if 1 / 2 < x - ⌊x⌋ then ⌊x⌋ + 1
  else if ⌊x⌋ % 2 = 0 then ⌊x⌋ else ⌊x⌋ + 1

/-- The spacing of the doubles around a positive `q`: a significand of 53 bits, and `2^-1074`
in the subnormal range. -/
def ulp (q : ℚ) : ℚ := pow2 (max (ilog2 q - 52) (-1074))

/-- The double nearest to a non-negative `q`; `2^1100`, which stands for `+∞`, when the nearest
multiple of the spacing is `2^1024` or more. -/
def roundAbs (q : ℚ) : ℚ :=
  if q = 0 then 0
  else if pow2 1024 ≤ (rne (q / ulp q) : ℚ) * ulp q then pow2 1100
  else (rne (q / ulp q) : ℚ) * ulp q

/-- The rounding of IEEE 754 binary64 in the default mode (to nearest, ties to even): sign and
magnitude are rounded separately. -/
def roundDouble (q : ℚ) : ℚ := if q < 0 then -roundAbs (-q) else roundAbs q

/-- The laws of a rounding function that the proofs use: it is monotone, it is idempotent, and
every number `m·2^k` with `|m| < 2^53` and `-1074 ≤ k ≤ 971` (every finite double) is a fixed
point. -/
structure Rounding (fl : ℚ → ℚ) : Prop where
  mono : ∀ a b, a ≤ b → fl a ≤ fl b
  idem : ∀ x, fl (fl x) = fl x
  dyadic : ∀ (m k : ℤ), |m| < 2 ^ 53 → -1074 ≤ k → k ≤ 971 →
    fl ((m : ℚ) * (2 : ℚ) ^ k) = (m : ℚ) * (2 : ℚ) ^ k

/-! ## Data model -/

/-- The pair type `typedef pair<double,int> ii`: a weight (or distance) and a vertex. -/
abbrev ii := ℚ × ℕ

/-- The constant `INT_MAX` of `<climits>` (32-bit `int`). -/
def INT_MAX : ℕ := 2147483647

/-- The constant `RAND_MAX` of `<cstdlib>` (the value of glibc). -/
def RAND_MAX : ℕ := 2147483647

/-- The order of `greater<ii>`'s heap: pairs are compared lexicographically. -/
def iiLE (a b : ii) : Prop := a.1 < b.1 ∨ (a.1 = b.1 ∧ a.2 ≤ b.2)

instance iiLE_decidable : DecidableRel iiLE := fun a b => by
  unfold iiLE; infer_instance

/-- The data members of `class Graph`. -/
structure Graph where
  Q : List ii
  distance : List ℚ
  edge : List (List ii)
  V : ℕ
  adjacent_vertices : ℤ
  MAX_DISTANCE : ℚ
  sum : ℚ
deriving DecidableEq

/-- The read `distance[i]`. -/
def Graph.dist (g : Graph) (i : ℕ) : ℚ := g.distance.getD i 0

/-- The read `edge[u]`. -/
def Graph.adj (g : Graph) (u : ℕ) : List ii := g.edge.getD u []

/-- The constructor `Graph(int vertices)`: `V+1` distances at `MAX_DISTANCE`, `V+1` empty
adjacency lists. (`sum` and `adjacent_vertices` are not initialised by the constructor and
are never read before `averageDistance` assigns them.) -/
def Graph.ctor (vertices : ℕ) : Graph :=
  { Q := []
    distance := List.replicate (vertices + 1) (INT_MAX : ℚ)
    edge := List.replicate (vertices + 1) []
    V := vertices
    adjacent_vertices := 0
    MAX_DISTANCE := (INT_MAX : ℚ)
    sum := 0 }

/-- The member `addEdge(u, v, w)`: `edge[u].push_back(ii(w,v)); edge[v].push_back(ii(w,u))`. -/
def addEdge (g : Graph) (u v : ℕ) (w : ℚ) : Graph :=
  let g1 := { g with edge := g.edge.set u (g.adj u ++ [(w, v)]) }
  { g1 with edge := g1.edge.set v (g1.adj v ++ [(w, u)]) }

/-- The call `Q.push(e)`. -/
def push (q : List ii) (e : ii) : List ii := List.orderedInsert iiLE e q

/-- One iteration of the `for` loop of `dijkstra` over `edge[v]`, at the entry `e = edge[v][i]`;
the sum `distance[v]+d2` is a `double` addition. -/
def relax (fl : ℚ → ℚ) (v : ℕ) (g : Graph) (e : ii) : Graph :=
  let v2 := e.2
  let d2 := e.1
  if g.dist v2 > fl (g.dist v + d2) then
    let g1 := { g with distance := g.distance.set v2 (fl (g.dist v + d2)) }
    { g1 with Q := push g1.Q (g1.dist v2, v2) }
  else g

/-- The body of the `while` loop of `dijkstra` after `top` has been popped. -/
def loopBody (fl : ℚ → ℚ) (g : Graph) (top : ii) : Graph :=
  let d := top.1
  let v := top.2
  if d ≤ g.dist v then (g.adj v).foldl (relax fl v) g else g

/-- The loop `while(!Q.empty())` of `dijkstra`, with fuel. -/
def whileLoop (fl : ℚ → ℚ) : ℕ → Graph → Option Graph
  | 0, _ => none
  | n + 1, g =>
    match g.Q with
    | [] => some g
    | top :: rest => whileLoop fl n (loopBody fl { g with Q := rest } top)

/-- One iteration of the `for` loop of `averageDistance`; `sum+=distance[i]` is a `double`
addition. -/
def avgStep (fl : ℚ → ℚ) (g : Graph) (i : ℕ) : Graph :=
  if g.dist i = g.MAX_DISTANCE then { g with adjacent_vertices := g.adjacent_vertices - 1 }
  else { g with sum := fl (g.sum + g.dist i) }

/-- The loop `for(int i=2;i<=V;++i)` of `averageDistance`, after `sum=0; adjacent_vertices=V`. -/
def avgLoop (fl : ℚ → ℚ) (g : Graph) : Graph :=
  (List.range' 2 (g.V - 1)).foldl (avgStep fl)
    { g with sum := 0, adjacent_vertices := (g.V : ℤ) }

/-- The member `averageDistance()`: the updated object and the `double` quotient
`sum/adjacent_vertices`. -/
def averageDistance (fl : ℚ → ℚ) (g : Graph) : Graph × Option ℚ :=
  let g1 := avgLoop fl g
  (g1, if g1.adjacent_vertices = 0 then none
    else some (fl (g1.sum / (g1.adjacent_vertices : ℚ))))

/-- The state in which `dijkstra(source)` enters its `while` loop. -/
def dijkstraInit (source : ℕ) (g : Graph) : Graph :=
  let g1 := { g with distance := g.distance.set source 0 }
  { g1 with Q := push g1.Q (0, source) }

/-- The member `dijkstra(source)`. -/
def dijkstra (fl : ℚ → ℚ) (fuel : ℕ) (source : ℕ) (g : Graph) : Option (Graph × Option ℚ) :=
  (whileLoop fl fuel (dijkstraInit source g)).map (averageDistance fl)

/-- A graph built by a sequence of `addEdge(u, v, w)` calls on a fresh `Graph(V)`. -/
def build (V : ℕ) (es : List (ℕ × ℕ × ℚ)) : Graph :=
  es.foldl (fun g e => addEdge g e.1 e.2.1 e.2.2) (Graph.ctor V)

/-- The `addEdge` calls name vertices of `1..V`. -/
def ValidEdges (V : ℕ) (es : List (ℕ × ℕ × ℚ)) : Prop :=
  ∀ e ∈ es, (1 ≤ e.1 ∧ e.1 ≤ V) ∧ (1 ≤ e.2.1 ∧ e.2.1 ≤ V)

/-- Every edge weight is non-negative. -/
def NonNeg (es : List (ℕ × ℕ × ℚ)) : Prop := ∀ e ∈ es, 0 ≤ e.2.2

/-- A number of loop iterations that suffices for `dijkstra` on `g`: one more than the
number of adjacency entries plus one. -/
def fuelBound (g : Graph) : ℕ := (g.edge.map List.length).sum + 2

/-! ## Paths -/

/-- The relation `Path fl E s v c l`: following adjacency entries of `E` from `s` leads to `v`,
`l` lists the vertices met, last first, and `c` is the sum of the weights along the way, added
edge by edge from `s` on with the rounding `fl` (as `dijkstra` adds them). With `fl = id` the
number `c` is the exact sum of the weights. -/
inductive Path (fl : ℚ → ℚ) (E : List (List ii)) (s : ℕ) : ℕ → ℚ → List ℕ → Prop
  | nil : Path fl E s s 0 [s]
  | snoc {u v : ℕ} {c w : ℚ} {l : List ℕ} :
      Path fl E s u c l → (w, v) ∈ E.getD u [] → Path fl E s v (fl (c + w)) (v :: l)

/-- Vertex `v` is connected to `s` by some path. -/
def Reachable (E : List (List ii)) (s v : ℕ) : Prop := ∃ c l, Path id E s v c l

/-- The weights of the paths from `s` to `v`, added with the rounding `fl`. -/
def pathWeights (fl : ℚ → ℚ) (E : List (List ii)) (s v : ℕ) : Set ℚ :=
  {c | ∃ l, Path fl E s v c l}

/-- No adjacency entry of a vertex reachable from `s` has a negative weight. -/
def NonNegFrom (E : List (List ii)) (s : ℕ) : Prop :=
  ∀ u, Reachable E s u → ∀ e ∈ E.getD u [], 0 ≤ e.1

/-- The sum of the numbers of `l` added to `a` one by one, in the order of the list, with the
rounding `fl` (as the loop of `averageDistance` adds the distances). -/
def sumFrom (fl : ℚ → ℚ) (a : ℚ) (l : List ℚ) : ℚ := l.foldl (fun b x => fl (b + x)) a

/-- The sum of `k` copies of `W`, added one by one with the rounding `fl`. -/
def accumulate (fl : ℚ → ℚ) (W : ℚ) : ℕ → ℚ
  | 0 => 0
  | k + 1 => fl (accumulate fl W k + W)

/-! ## Random graph generation -/

/-- The state of the C random source: the values `rand()` returns, call after call, and the
number of calls made so far. -/
structure Rng where
  stream : ℕ → ℕ
  pos : ℕ

/-- The call `rand()`: the next value and the advanced source. -/
def rand (r : Rng) : ℕ × Rng := (r.stream r.pos, { r with pos := r.pos + 1 })

/-- The value that the next call of `rand()` returns. -/
def nextDraw (r : Rng) : ℕ := r.stream r.pos

/-- The body of the inner `for` loop of `monteCarloSimulation` at the pair `(i, j)`: the quotient
`static_cast<double>(rand())/RAND_MAX`, the difference, the product and the sum are `double`
operations. -/
def mcBody (fl : ℚ → ℚ) (density weightLO weightHI : ℚ) (i : ℕ) (st : Graph × Rng) (j : ℕ) :
    Graph × Rng :=
  let d1 := rand st.2
  let probability : ℚ := fl ((d1.1 : ℚ) / (RAND_MAX : ℚ))
  if probability ≤ density then
    let d2 := rand d1.2
    let weight : ℚ :=
      fl (weightLO + fl (fl (weightHI - weightLO) * fl ((d2.1 : ℚ) / (RAND_MAX : ℚ))))
    (addEdge st.1 i j weight, d2.2)
  else (st.1, d1.2)

/-- The member `monteCarloSimulation(density, weightLO, weightHI)`:
`for(int i=1;i<=50;++i) for(int j=i+1;j<=50;++j)`. -/
def monteCarloSimulation (fl : ℚ → ℚ) (density weightLO weightHI : ℚ) (st : Graph × Rng) :
    Graph × Rng :=
  (List.range' 1 50).foldl
    (fun st1 i => (List.range' (i + 1) (50 - i)).foldl (mcBody fl density weightLO weightHI i) st1)
    st

/-- The pairs `(i, j)` with `1 ≤ i < j ≤ n`, listed in lexicographic order (the candidate edges
of the generator's contract for `n` vertices). -/
def specPairs (n : ℕ) : List (ℕ × ℕ) :=
  (List.range' 1 n).flatMap (fun i => (List.range' (i + 1) (n - i)).map (fun j => (i, j)))

/-- The generator's contract for `n` vertices: every pair of `specPairs n` is considered once,
in order, each with the loop body of the code. -/
def specGenerate (fl : ℚ → ℚ) (n : ℕ) (density weightLO weightHI : ℚ) (st : Graph × Rng) :
    Graph × Rng :=
  (specPairs n).foldl (fun st1 p => mcBody fl density weightLO weightHI p.1 st1 p.2) st

/-- The strict lexicographic order on pairs of vertices. -/
def pairLT (p q : ℕ × ℕ) : Prop := p.1 < q.1 ∨ (p.1 = q.1 ∧ p.2 < q.2)

/-! ## The order of the priority queue -/

instance iiLE_total : IsTotal ii iiLE := ⟨fun a b => by
  unfold iiLE
  rcases lt_trichotomy a.1 b.1 with h | h | h
  · exact Or.inl (Or.inl h)
  · rcases le_total a.2 b.2 with h2 | h2
    · exact Or.inl (Or.inr ⟨h, h2⟩)
    · exact Or.inr (Or.inr ⟨h.symm, h2⟩)
  · exact Or.inr (Or.inl h)⟩

instance iiLE_trans : IsTrans ii iiLE := ⟨fun a b c hab hbc => by
  unfold iiLE at *
  rcases hab with h | ⟨h, h2⟩
  · rcases hbc with k | ⟨k, _⟩
    · exact Or.inl (lt_trans h k)
    · exact Or.inl (k ▸ h)
  · rcases hbc with k | ⟨k, k2⟩
    · exact Or.inl (h ▸ k)
    · exact Or.inr ⟨h.trans k, le_trans h2 k2⟩⟩

/-! ## Invariants, proof-side notions and concrete inputs -/

/-- What `dijkstra` never changes: the adjacency lists, `V` and `MAX_DISTANCE`. -/
def SameGraph (g g2 : Graph) : Prop :=
  g2.edge = g.edge ∧ g2.V = g.V ∧ g2.MAX_DISTANCE = g.MAX_DISTANCE

/-- The facts about the state of `dijkstra(s)` that hold whatever the sign of the weights: the
table keeps its size and stays below the sentinel, its entries are doubles, queue entries are in
range, never below the recorded distance and below the sentinel, and every distance that left
the sentinel is the weight of a path from `s`. -/
structure GInv (fl : ℚ → ℚ) (s : ℕ) (g : Graph) : Prop where
  dlen : g.distance.length = g.edge.length
  nb : ∀ u, ∀ e ∈ g.adj u, e.2 < g.edge.length
  qv : ∀ e ∈ g.Q, e.2 < g.edge.length
  ub : ∀ x, g.dist x ≤ (INT_MAX : ℚ)
  rep : ∀ x, fl (g.dist x) = g.dist x
  t1 : ∀ e ∈ g.Q, g.dist e.2 ≤ e.1
  t1s : ∀ e ∈ g.Q, e.1 < (INT_MAX : ℚ)
  w : ∀ x, x < g.edge.length → g.dist x ≠ (INT_MAX : ℚ) → ∃ l, Path fl g.edge s x (g.dist x) l

/-- Every adjacency entry leaving `u` is relaxed: `distance[v] ≤ distance[u] + w`, the sum
being the `double` sum that the guard of the relaxation step computes. -/
def Relaxed (fl : ℚ → ℚ) (g : Graph) (u : ℕ) : Prop :=
  ∀ e ∈ g.adj u, g.dist e.2 ≤ fl (g.dist u + e.1)

/-- The invariant of the `while` loop of `dijkstra(s)` on a graph in which no vertex reachable
from `s` has an adjacency entry of negative weight. `U` is the set of vertices whose adjacency
list has not been scanned yet. -/
structure NInv (fl : ℚ → ℚ) (s : ℕ) (U : Finset ℕ) (g : Graph) : Prop where
  ginv : GInv fl s g
  nn : NonNegFrom g.edge s
  pos : ∀ x, 0 ≤ g.dist x
  src : g.dist s = 0
  sorted : g.Q.Sorted iiLE
  nodup : g.Q.Nodup
  t2 : ∀ u, u < g.edge.length → u ∉ U → ∀ e ∈ g.Q, g.dist u ≤ e.1
  t3 : ∀ e ∈ g.Q, e.2 ∈ U ∨ g.dist e.2 < e.1
  j : ∀ u, (∀ e ∈ g.adj u, 0 ≤ e.1) → (g.dist u, u) ∈ g.Q ∨ Relaxed fl g u

/-- The invariant of the `for` loop over `edge[v]`, entered with `distance[v] = c`. -/
structure PInv (fl : ℚ → ℚ) (s v : ℕ) (c : ℚ) (U : Finset ℕ) (g : Graph) : Prop where
  ginv : GInv fl s g
  nn : NonNegFrom g.edge s
  rv : Reachable g.edge s v
  pos : ∀ x, 0 ≤ g.dist x
  src : g.dist s = 0
  sorted : g.Q.Sorted iiLE
  nodup : g.Q.Nodup
  dv : g.dist v = c
  m : ∀ e ∈ g.Q, c ≤ e.1
  t2 : ∀ u, u < g.edge.length → u ∉ U → g.dist u ≤ c
  t3 : ∀ e ∈ g.Q, e.2 ∈ U ∨ g.dist e.2 < e.1
  j : ∀ u, u ≠ v → (∀ e ∈ g.adj u, 0 ≤ e.1) → (g.dist u, u) ∈ g.Q ∨ Relaxed fl g u

/-- The number of loop iterations still to come is at most this number. -/
def measure (U : Finset ℕ) (g : Graph) : ℕ := g.Q.length + ∑ u in U, (g.adj u).length

/-- The state of a graph on which `dijkstra` has not run yet: an empty queue, every distance at
the sentinel, and adjacency entries between vertices of `1..V`. -/
structure Ready (g : Graph) : Prop where
  q : g.Q = []
  d : g.distance = List.replicate (g.V + 1) (INT_MAX : ℚ)
  elen : g.edge.length = g.V + 1
  max : g.MAX_DISTANCE = (INT_MAX : ℚ)
  nb : ∀ u, ∀ e ∈ g.adj u, (1 ≤ u ∧ u ≤ g.V) ∧ (1 ≤ e.2 ∧ e.2 ≤ g.V)

instance ValidEdges_decidable (V : ℕ) (es : List (ℕ × ℕ × ℚ)) : Decidable (ValidEdges V es) := by
  unfold ValidEdges; infer_instance

instance NonNeg_decidable (es : List (ℕ × ℕ × ℚ)) : Decidable (NonNeg es) := by
  unfold NonNeg; infer_instance

/-- Three vertices: edges 1–2 of weight 1, 2–3 of weight 2 and 1–3 of weight 5. -/
def triangle : List (ℕ × ℕ × ℚ) := [(1, 2, 1), (2, 3, 2), (1, 3, 5)]

/-- One edge 1–2 whose weight is `INT_MAX + 1`. -/
def heavy : List (ℕ × ℕ × ℚ) := [(1, 2, 2147483648)]

/-- The complete graph on 5 vertices with every weight equal to 1. -/
def K5 : List (ℕ × ℕ × ℚ) :=
  [(1, 2, 1), (1, 3, 1), (1, 4, 1), (1, 5, 1), (2, 3, 1), (2, 4, 1), (2, 5, 1), (3, 4, 1),
    (3, 5, 1), (4, 5, 1)]

/-- Four vertices, of which vertex 4 has no edge: edges 1–2 of weight 1 and 2–3 of weight 2. -/
def chain : List (ℕ × ℕ × ℚ) := [(1, 2, 1), (2, 3, 2)]

/-- The canonical configuration has 50 vertices and weights in [1.0, 10.0]: here with the edges
1–2 of weight 1 and 2–3 of weight 10. -/
def canonical : List (ℕ × ℕ × ℚ) := [(1, 2, 1), (2, 3, 10)]

/-- The state of the `while` loop of `dijkstra` after `k` iterations (the final state when the
loop has ended earlier). -/
def whileSteps (fl : ℚ → ℚ) : ℕ → Graph → Graph
  | 0, g => g
  | k + 1, g =>
    match g.Q with
    | [] => g
    | top :: rest => whileSteps fl k (loopBody fl { g with Q := rest } top)

/-- The vertex whose adjacency list the next iteration of the `while` loop scans: the vertex of
`Q.top()` when it passes the check `d<=distance[v]`. -/
def scans (g : Graph) : Option ℕ :=
  match g.Q with
  | [] => none
  | top :: _ => if top.1 ≤ g.dist top.2 then some top.2 else none

/-- Edge symmetry: `edge[u]` holds the entry `(w, v)` as many times as `edge[v]` holds `(w, u)`. -/
def Symmetric (g : Graph) : Prop :=
  ∀ (u v : ℕ) (w : ℚ), (g.adj u).count (w, v) = (g.adj v).count (w, u)

/-- The number of adjacency entries of the graph (two for every call of `addEdge`). -/
def entries (g : Graph) : ℕ := (g.edge.map List.length).sum

/-- A random source whose every call of `rand()` returns 0, before its first call. -/
def zeroDraws : Rng := { stream := fun _ => 0, pos := 0 }

/-- A random source whose every call of `rand()` returns 1, before its first call. -/
def oneDraws : Rng := { stream := fun _ => 1, pos := 0 }

/-- A random source whose every call of `rand()` returns `RAND_MAX`, before its first call. -/
def maxDraws : Rng := { stream := fun _ => RAND_MAX, pos := 0 }

/-- Three vertices in a row: the edge 1–2 of weight `INT_MAX − 2^-22` and the edge 2–3 of weight
`3·2^-24`, two doubles whose exact sum `INT_MAX − 2^-24` is below `INT_MAX` and rounds to
`INT_MAX`. -/
def nearSentinel : List (ℕ × ℕ × ℚ) := [(1, 2, 2147483647 - 1 / 4194304), (2, 3, 3 / 16777216)]

/-- Three vertices in a row: the edge 1–2 of weight `INT_MAX − 1` and the edge 2–3 of weight
`1 − 2^-24`, two doubles whose exact sum `INT_MAX − 2^-24` rounds to `INT_MAX`. -/
def belowSentinel : List (ℕ × ℕ × ℚ) := [(1, 2, 2147483646), (2, 3, 1 - 1 / 16777216)]

/-- The double nearest to 429496729.4; five times this number is `INT_MAX − 2^-23`. -/
def chainWeight : ℚ := 3602879700218675 / 8388608

/-- Six vertices in a row, every edge of weight `chainWeight`. -/
def longChain : List (ℕ × ℕ × ℚ) :=
  [(1, 2, chainWeight), (2, 3, chainWeight), (3, 4, chainWeight), (4, 5, chainWeight),
    (5, 6, chainWeight)]

/-! ## Rounding to double -/

theorem pow2_eq (k : ℤ) : pow2 k = (2 : ℚ) ^ k := by
  unfold pow2
  split_ifs with h
  · obtain ⟨n, rfl⟩ := Int.eq_ofNat_of_zero_le h
    simp
  · push_neg at h
    obtain ⟨n, hn⟩ := Int.eq_ofNat_of_zero_le (by omega : 0 ≤ -k)
    have : k = -(n : ℤ) := by omega
    subst this
    simp

theorem pow2_pos (k : ℤ) : 0 < pow2 k := by
  rw [pow2_eq]; positivity

theorem pow2_add (a b : ℤ) : pow2 (a + b) = pow2 a * pow2 b := by
  simp only [pow2_eq]; exact zpow_add₀ (by norm_num) a b

theorem pow2_le {a b : ℤ} (h : a ≤ b) : pow2 a ≤ pow2 b := by
  simp only [pow2_eq]; exact zpow_le_zpow_right₀ (by norm_num) h

theorem pow2_lt {a b : ℤ} (h : a < b) : pow2 a < pow2 b := by
  simp only [pow2_eq]; exact zpow_lt_zpow_right₀ (by norm_num) h

theorem pow2_lt_iff {a b : ℤ} : pow2 a < pow2 b ↔ a < b := by
  constructor
  · intro h
    by_contra hc
    push_neg at hc
    exact absurd (pow2_le hc) (not_le.mpr h)
  · exact pow2_lt

theorem pow2_nat (n : ℕ) : pow2 (n : ℤ) = ((2 ^ n : ℕ) : ℚ) := by
  rw [pow2_eq]; simp

theorem log2Aux_spec : ∀ (fuel n : ℕ), n ≤ fuel → n ≠ 0 →
    2 ^ log2Aux fuel n ≤ n ∧ n < 2 ^ (log2Aux fuel n + 1)
  | 0, n, h, h0 => by omega
  | fuel + 1, n, h, h0 => by
    unfold log2Aux
    split_ifs with h2
    · constructor
      · simp; omega
      · simp; omega
    · have hn : n / 2 ≤ fuel := by omega
      have hn0 : n / 2 ≠ 0 := by omega
      obtain ⟨h3, h4⟩ := log2Aux_spec fuel (n / 2) hn hn0
      constructor
      · rw [pow_succ]; omega
      · rw [pow_succ]; omega

theorem ilog2_spec (q : ℚ) (hq : 0 < q) : pow2 (ilog2 q) ≤ q ∧ q < pow2 (ilog2 q + 1) := by
  have hnum : 0 < q.num := Rat.num_pos.mpr hq
  have hden : 0 < q.den := q.den_pos
  obtain ⟨a1, a2⟩ := log2Aux_spec q.num.natAbs q.num.natAbs le_rfl (by omega)
  obtain ⟨b1, b2⟩ := log2Aux_spec q.den q.den le_rfl (by omega)
  set a := log2Aux q.num.natAbs q.num.natAbs with ha
  set b := log2Aux q.den q.den with hb
  have hqe : q = (q.num.natAbs : ℚ) / (q.den : ℚ) := by
    have h2 : (q.num.natAbs : ℚ) = (q.num : ℚ) := by
      rw [Nat.cast_natAbs, abs_of_pos hnum]
    rw [h2]; exact (Rat.num_div_den q).symm
  have hdq : (0 : ℚ) < (q.den : ℚ) := by exact_mod_cast hden
  have A1 : ((2 : ℚ) ^ a) ≤ (q.num.natAbs : ℚ) := by exact_mod_cast a1
  have A2 : (q.num.natAbs : ℚ) < (2 : ℚ) ^ (a + 1) := by exact_mod_cast a2
  have B1 : ((2 : ℚ) ^ b) ≤ (q.den : ℚ) := by exact_mod_cast b1
  have B2 : (q.den : ℚ) < (2 : ℚ) ^ (b + 1) := by exact_mod_cast b2
  have hpa : (0 : ℚ) < (2 : ℚ) ^ a := by positivity
  have hpb : (0 : ℚ) < (2 : ℚ) ^ b := by positivity
  have e0 : pow2 ((a : ℤ) - (b : ℤ)) = (2 : ℚ) ^ a / (2 : ℚ) ^ b := by
    rw [pow2_eq, zpow_sub₀ (by norm_num)]; simp
  have e1 : pow2 ((a : ℤ) - (b : ℤ) + 1) = (2 : ℚ) ^ (a + 1) / (2 : ℚ) ^ b := by
    rw [pow2_add, e0, pow_succ]
    have : pow2 1 = 2 := by rw [pow2_eq]; norm_num
    rw [this]; ring
  have e2 : pow2 ((a : ℤ) - (b : ℤ) - 1) = (2 : ℚ) ^ a / (2 : ℚ) ^ (b + 1) := by
    have h : pow2 ((a : ℤ) - (b : ℤ) - 1 + 1) = pow2 ((a : ℤ) - (b : ℤ) - 1) * pow2 1 :=
      pow2_add _ _
    have h1 : pow2 1 = 2 := by rw [pow2_eq]; norm_num
    rw [sub_add_cancel, e0, h1] at h
    rw [pow_succ]
    field_simp
    field_simp at h
    linarith
  have up : q < pow2 ((a : ℤ) - (b : ℤ) + 1) := by
    rw [e1, hqe, div_lt_div_iff₀ hdq hpb]
    calc (q.num.natAbs : ℚ) * 2 ^ b < 2 ^ (a + 1) * 2 ^ b := by
          apply mul_lt_mul_of_pos_right A2 hpb
      _ ≤ 2 ^ (a + 1) * (q.den : ℚ) := by
          apply mul_le_mul_of_nonneg_left B1 (by positivity)
  have lo : pow2 ((a : ℤ) - (b : ℤ) - 1) ≤ q := by
    rw [e2, hqe, div_le_div_iff₀ (by positivity) hdq]
    calc (2 : ℚ) ^ a * (q.den : ℚ) ≤ (q.num.natAbs : ℚ) * (q.den : ℚ) := by
          apply mul_le_mul_of_nonneg_right A1 hdq.le
      _ ≤ (q.num.natAbs : ℚ) * 2 ^ (b + 1) := by
          apply mul_le_mul_of_nonneg_left B2.le (by positivity)
  unfold ilog2
  simp only [← ha, ← hb]
  split_ifs with h
  · exact ⟨h, up⟩
  · push_neg at h
    refine ⟨lo, ?_⟩
    rw [sub_add_cancel]; exact h

theorem ilog2_mono (a b : ℚ) (ha : 0 < a) (hab : a ≤ b) : ilog2 a ≤ ilog2 b := by
  have h1 := (ilog2_spec a ha).1
  have h2 := (ilog2_spec b (lt_of_lt_of_le ha hab)).2
  have : pow2 (ilog2 a) < pow2 (ilog2 b + 1) := lt_of_le_of_lt (h1.trans hab) h2
  have := pow2_lt_iff.mp this
  omega

theorem rne_int (n : ℤ) : rne (n : ℚ) = n := by
  unfold rne
  simp

theorem rne_cases (x : ℚ) : rne x = ⌊x⌋ ∨ rne x = ⌊x⌋ + 1 := by
  unfold rne
  split_ifs <;> simp

theorem rne_mono (x y : ℚ) (h : x ≤ y) : rne x ≤ rne y := by
  have hf : ⌊x⌋ ≤ ⌊y⌋ := Int.floor_le_floor h
  rcases lt_or_eq_of_le hf with hlt | heq
  · have h1 : rne x ≤ ⌊x⌋ + 1 := by rcases rne_cases x with h | h <;> omega
    have h2 : ⌊y⌋ ≤ rne y := by rcases rne_cases y with h | h <;> omega
    omega
  · unfold rne
    rw [← heq]
    have hxy : x - ⌊x⌋ ≤ y - ⌊x⌋ := by linarith
    split_ifs <;> first | omega | (exfalso; linarith)

theorem rne_nonneg (x : ℚ) (h : 0 ≤ x) : 0 ≤ rne x := by
  have := rne_mono 0 x h
  rwa [show ((0 : ℚ)) = ((0 : ℤ) : ℚ) by simp, rne_int] at this

theorem pow2_53 : pow2 53 = (((2 : ℤ) ^ 53 : ℤ) : ℚ) := by
  rw [pow2_eq]; norm_num

theorem pow2_one : pow2 1 = 2 := by
  rw [pow2_eq]; norm_num

theorem ulp_pos (q : ℚ) : 0 < ulp q := pow2_pos _

theorem pow2_grid (t k : ℤ) (h : k ≤ t) : ∃ N : ℤ, pow2 t = (N : ℚ) * pow2 k := by
  refine ⟨2 ^ (t - k).toNat, ?_⟩
  have h1 : t = ((t - k).toNat : ℤ) + k := by
    rw [Int.toNat_of_nonneg (by omega)]; ring
  conv_lhs => rw [h1, pow2_add, pow2_nat]
  push_cast
  rfl

theorem rne_grid_le (q u : ℚ) (t k : ℤ) (hu : u = pow2 k) (hk : k ≤ t) (hq : q ≤ pow2 t) :
    (rne (q / u) : ℚ) * u ≤ pow2 t := by
  obtain ⟨N, hN⟩ := pow2_grid t k hk
  have hu0 : 0 < u := hu ▸ pow2_pos k
  have h1 : q / u ≤ (N : ℚ) := by
    rw [div_le_iff₀ hu0, hu, ← hN]; exact hq
  have h2 := rne_mono _ _ h1
  rw [rne_int] at h2
  rw [hN, ← hu]
  exact mul_le_mul_of_nonneg_right (by exact_mod_cast h2) hu0.le

theorem rne_grid_ge (q u : ℚ) (t k : ℤ) (hu : u = pow2 k) (hk : k ≤ t) (hq : pow2 t ≤ q) :
    pow2 t ≤ (rne (q / u) : ℚ) * u := by
  obtain ⟨N, hN⟩ := pow2_grid t k hk
  have hu0 : 0 < u := hu ▸ pow2_pos k
  have h1 : (N : ℚ) ≤ q / u := by
    rw [le_div_iff₀ hu0, hu, ← hN]; exact hq
  have h2 := rne_mono _ _ h1
  rw [rne_int] at h2
  rw [hN, ← hu]
  exact mul_le_mul_of_nonneg_right (by exact_mod_cast h2) hu0.le

theorem rne_ulp_mono (a b : ℚ) (ha : 0 < a) (hab : a ≤ b) :
    (rne (a / ulp a) : ℚ) * ulp a ≤ (rne (b / ulp b) : ℚ) * ulp b := by
  have hb : 0 < b := lt_of_lt_of_le ha hab
  have he := ilog2_mono a b ha hab
  by_cases hu : max (ilog2 a - 52) (-1074) = max (ilog2 b - 52) (-1074)
  · have hu2 : ulp a = ulp b := by unfold ulp; rw [hu]
    rw [hu2]
    have h1 : a / ulp b ≤ b / ulp b := div_le_div_of_nonneg_right hab (ulp_pos b).le
    have h2 := rne_mono _ _ h1
    exact mul_le_mul_of_nonneg_right (by exact_mod_cast h2) (ulp_pos b).le
  · have hlt : max (ilog2 a - 52) (-1074) < max (ilog2 b - 52) (-1074) := by omega
    have hea : ilog2 a + 1 ≤ ilog2 b := by omega
    have h1 : a ≤ pow2 (ilog2 b) :=
      ((ilog2_spec a ha).2.le).trans (pow2_le hea)
    have h2 : pow2 (ilog2 b) ≤ b := (ilog2_spec b hb).1
    exact (rne_grid_le a (ulp a) (ilog2 b) _ rfl (by omega) h1).trans
      (rne_grid_ge b (ulp b) (ilog2 b) _ rfl (by omega) h2)

theorem rne_ulp_nonneg (q : ℚ) (hq : 0 ≤ q) : 0 ≤ (rne (q / ulp q) : ℚ) * ulp q := by
  have h := rne_nonneg (q / ulp q) (div_nonneg hq (ulp_pos q).le)
  exact mul_nonneg (by exact_mod_cast h) (ulp_pos q).le

theorem roundAbs_nonneg (q : ℚ) (hq : 0 ≤ q) : 0 ≤ roundAbs q := by
  unfold roundAbs
  split_ifs
  · exact le_rfl
  · exact (pow2_pos _).le
  · exact rne_ulp_nonneg q hq

theorem roundAbs_mono (a b : ℚ) (ha : 0 ≤ a) (hab : a ≤ b) : roundAbs a ≤ roundAbs b := by
  rcases eq_or_lt_of_le ha with h0 | h0
  · rw [← h0]
    have : roundAbs 0 = 0 := by unfold roundAbs; simp
    rw [this]; exact roundAbs_nonneg b (ha.trans hab)
  · have hb : 0 < b := lt_of_lt_of_le h0 hab
    have hm := rne_ulp_mono a b h0 hab
    have h64 : pow2 1024 ≤ pow2 1100 := pow2_le (by norm_num)
    unfold roundAbs
    rw [if_neg h0.ne.symm, if_neg hb.ne.symm]
    split_ifs with h1 h2 h2
    · exact le_rfl
    · exact absurd (h1.trans hm) h2
    · push_neg at h1; exact h1.le.trans h64
    · exact hm

theorem roundAbs_dyadic (m k : ℤ) (hm0 : 0 ≤ m) (hm : m < 2 ^ 53) (hk1 : -1074 ≤ k)
    (hk2 : k ≤ 971) : roundAbs ((m : ℚ) * pow2 k) = (m : ℚ) * pow2 k := by
  rcases eq_or_lt_of_le hm0 with h0 | h0
  · rw [← h0]; unfold roundAbs; simp
  · have hq : 0 < (m : ℚ) * pow2 k := mul_pos (by exact_mod_cast h0) (pow2_pos k)
    have hlt : (m : ℚ) * pow2 k < pow2 (k + 53) := by
      rw [add_comm, pow2_add]
      apply mul_lt_mul_of_pos_right _ (pow2_pos k)
      rw [pow2_53]
      exact_mod_cast hm
    have he : ilog2 ((m : ℚ) * pow2 k) < k + 53 :=
      pow2_lt_iff.mp (lt_of_le_of_lt (ilog2_spec _ hq).1 hlt)
    obtain ⟨N, hN⟩ := pow2_grid k (max (ilog2 ((m : ℚ) * pow2 k) - 52) (-1074)) (by omega)
    have hu : ulp ((m : ℚ) * pow2 k) = pow2 (max (ilog2 ((m : ℚ) * pow2 k) - 52) (-1074)) := rfl
    have hdiv : (m : ℚ) * pow2 k / ulp ((m : ℚ) * pow2 k) = ((m * N : ℤ) : ℚ) := by
      rw [hu, div_eq_iff (pow2_pos _).ne.symm]
      push_cast
      rw [mul_assoc, ← hN]
    have hR : (rne ((m : ℚ) * pow2 k / ulp ((m : ℚ) * pow2 k)) : ℚ) * ulp ((m : ℚ) * pow2 k)
        = (m : ℚ) * pow2 k := by
      rw [hdiv, rne_int, hu]
      push_cast
      rw [mul_assoc, ← hN]
    unfold roundAbs
    rw [if_neg hq.ne.symm, hR]
    have : ¬ pow2 1024 ≤ (m : ℚ) * pow2 k := by
      push_neg
      exact hlt.trans_le (pow2_le (by omega))
    rw [if_neg this]

theorem roundAbs_huge : roundAbs (pow2 1100) = pow2 1100 := by decide!

theorem roundAbs_idem (q : ℚ) (hq : 0 ≤ q) : roundAbs (roundAbs q) = roundAbs q := by
  rcases eq_or_lt_of_le hq with h0 | h0
  · rw [← h0]
    have : roundAbs 0 = 0 := by unfold roundAbs; simp
    rw [this, this]
  · have hne : q ≠ 0 := h0.ne.symm
    by_cases hs : pow2 1024 ≤ (rne (q / ulp q) : ℚ) * ulp q
    · have : roundAbs q = pow2 1100 := by unfold roundAbs; rw [if_neg hne, if_pos hs]

      rw [this, roundAbs_huge]
    · have hy : roundAbs q = (rne (q / ulp q) : ℚ) * ulp q := by
        unfold roundAbs; rw [if_neg hne, if_neg hs]
      rw [hy]
      push_neg at hs
      have hu : ulp q = pow2 (max (ilog2 q - 52) (-1074)) := rfl
      have hn0 : 0 ≤ rne (q / ulp q) := rne_nonneg _ (div_nonneg hq (ulp_pos q).le)
      -- the exponent of the unit is at most 971
      have hk : max (ilog2 q - 52) (-1074) ≤ 971 := by
        by_contra hc
        push_neg at hc
        have h1 : pow2 (ilog2 q) ≤ (rne (q / ulp q) : ℚ) * ulp q :=
          rne_grid_ge q (ulp q) (ilog2 q) _ hu (by omega) (ilog2_spec q h0).1
        have h2 : pow2 1024 ≤ pow2 (ilog2 q) := pow2_le (by omega)
        exact absurd (h2.trans h1) (not_le.mpr hs)
      -- the significand is at most 2^53
      have hup : (rne (q / ulp q) : ℚ) * ulp q ≤ pow2 (max (ilog2 q - 52) (-1074) + 53) :=
        rne_grid_le q (ulp q) _ _ hu (by omega)
          ((ilog2_spec q h0).2.le.trans (pow2_le (by omega)))
      have hn : rne (q / ulp q) ≤ 2 ^ 53 := by
        rw [add_comm, pow2_add, ← hu] at hup
        have h3 := le_of_mul_le_mul_right hup (ulp_pos q)
        rw [pow2_53] at h3
        exact_mod_cast h3
      rcases lt_or_eq_of_le hn with hlt | heq
      · rw [hu]
        exact roundAbs_dyadic _ _ hn0 hlt (by omega) hk
      · have h53 : (rne (q / ulp q) : ℚ) * ulp q
            = ((2 ^ 52 : ℤ) : ℚ) * pow2 (max (ilog2 q - 52) (-1074) + 1) := by
          rw [heq, hu, pow2_add, pow2_one]; push_cast; ring
        rw [h53]
        have hk2 : max (ilog2 q - 52) (-1074) + 1 ≤ 971 := by
          by_contra hc
          push_neg at hc
          have h4 : pow2 1024 ≤ pow2 (max (ilog2 q - 52) (-1074) + 53) := pow2_le (by omega)
          have h5 : (rne (q / ulp q) : ℚ) * ulp q = pow2 (max (ilog2 q - 52) (-1074) + 53) := by
            rw [heq, hu, add_comm, pow2_add, pow2_53]
          rw [h5] at hs
          exact absurd h4 (not_le.mpr hs)
        exact roundAbs_dyadic _ _ (by norm_num) (by norm_num) (by omega) hk2

theorem roundDouble_rounding : Rounding roundDouble where
  mono := by
    intro a b hab
    unfold roundDouble
    split_ifs with h1 h2 h2
    · exact neg_le_neg (roundAbs_mono (-b) (-a) (by linarith) (by linarith))
    · exact (neg_nonpos.mpr (roundAbs_nonneg (-a) (by linarith))).trans
        (roundAbs_nonneg b (by linarith))
    · exfalso; linarith
    · exact roundAbs_mono a b (by linarith) hab
  idem := by
    intro x
    have r0 : roundAbs 0 = 0 := by unfold roundAbs; simp
    unfold roundDouble
    by_cases h1 : x < 0
    · rw [if_pos h1]
      have hn := roundAbs_nonneg (-x) (by linarith)
      rcases eq_or_lt_of_le hn with h0 | h0
      · rw [← h0]; simp [r0]
      · rw [if_pos (by linarith), neg_neg, roundAbs_idem (-x) (by linarith)]
    · rw [if_neg h1]
      push_neg at h1
      have hn := roundAbs_nonneg x h1
      rw [if_neg (by linarith), roundAbs_idem x h1]
  dyadic := by
    intro m k hm hk1 hk2
    rw [← pow2_eq]
    have hab := abs_lt.mp hm
    unfold roundDouble
    by_cases h1 : m < 0
    · have hq : (m : ℚ) * pow2 k < 0 :=
        mul_neg_of_neg_of_pos (by exact_mod_cast h1) (pow2_pos k)
      rw [if_pos hq]
      have : -((m : ℚ) * pow2 k) = ((-m : ℤ) : ℚ) * pow2 k := by push_cast; ring
      rw [this, roundAbs_dyadic (-m) k (by omega) (by omega) hk1 hk2]
      push_cast; ring
    · push_neg at h1
      have hq : ¬ (m : ℚ) * pow2 k < 0 := by
        push_neg
        exact mul_nonneg (by exact_mod_cast h1) (pow2_pos k).le
      rw [if_neg hq]
      exact roundAbs_dyadic m k h1 hab.2 hk1 hk2

theorem Rounding.zero {fl : ℚ → ℚ} (hfl : Rounding fl) : fl 0 = 0 := by
  have := hfl.dyadic 0 0 (by norm_num) (by norm_num) (by norm_num)
  simpa using this

theorem Rounding.int {fl : ℚ → ℚ} (hfl : Rounding fl) (n : ℤ) (hn : |n| < 2 ^ 53) :
    fl (n : ℚ) = (n : ℚ) := by
  have := hfl.dyadic n 0 hn (by norm_num) (by norm_num)
  simpa using this

theorem Rounding.sentinel {fl : ℚ → ℚ} (hfl : Rounding fl) : fl (INT_MAX : ℚ) = (INT_MAX : ℚ) := by
  have := hfl.int 2147483647 (by norm_num)
  unfold INT_MAX
  exact_mod_cast this

/-- Adding a non-negative number to a double does not give a smaller double. -/
theorem Rounding.le_add {fl : ℚ → ℚ} (hfl : Rounding fl) {a w : ℚ} (ha : fl a = a)
    (hw : 0 ≤ w) : a ≤ fl (a + w) := by
  have := hfl.mono a (a + w) (by linarith)
  rwa [ha] at this

theorem Rounding.nonneg {fl : ℚ → ℚ} (hfl : Rounding fl) {a : ℚ} (ha : 0 ≤ a) : 0 ≤ fl a := by
  have := hfl.mono 0 a ha
  rwa [hfl.zero] at this

theorem rounding_id : Rounding id where
  mono := fun _ _ h => h
  idem := fun _ => rfl
  dyadic := fun _ _ _ _ _ => rfl

/-! ## Vectors -/

theorem getD_set_self {α : Type} (l : List α) (i : ℕ) (a d : α) (h : i < l.length) :
    (l.set i a).getD i d = a := by
  simp [h]

theorem getD_set_ne {α : Type} (l : List α) {i j : ℕ} (a d : α) (h : i ≠ j) :
    (l.set i a).getD j d = l.getD j d := by
  simp [List.getElem?_set_ne h]

theorem mem_getD_set {α : Type} (l : List (List α)) (i j : ℕ) (a : List α) (e : α)
    (h : e ∈ (l.set i a).getD j []) : (e ∈ a ∧ i = j) ∨ e ∈ l.getD j [] := by
  by_cases hij : i = j
  · subst hij
    by_cases hi : i < l.length
    · rw [getD_set_self l i a [] hi] at h
      exact Or.inl ⟨h, rfl⟩
    · rw [List.set_eq_of_length_le (not_lt.mp hi)] at h
      exact Or.inr h
  · rw [getD_set_ne l a [] hij] at h
    exact Or.inr h

/-! ## How one relaxation changes the state -/

theorem mem_push {q : List ii} {e x : ii} : x ∈ push q e ↔ x = e ∨ x ∈ q := by
  unfold push
  exact List.mem_orderedInsert iiLE

theorem relax_def {fl : ℚ → ℚ} (v : ℕ) (g : Graph) (e : ii) :
    relax fl v g e =
      if g.dist e.2 > fl (g.dist v + e.1) then
        { g with
          distance := g.distance.set e.2 (fl (g.dist v + e.1))
          Q := push g.Q ((g.distance.set e.2 (fl (g.dist v + e.1))).getD e.2 0, e.2) }
      else g := rfl

theorem loopBody_def {fl : ℚ → ℚ} (g : Graph) (top : ii) :
    loopBody fl g top =
      if top.1 ≤ g.dist top.2 then (g.adj top.2).foldl (relax fl top.2) g else g :=
  rfl

theorem relax_skip {fl : ℚ → ℚ}
    (v : ℕ) (g : Graph) (e : ii) (h : ¬ g.dist e.2 > fl (g.dist v + e.1)) :
    relax fl v g e = g := by
  rw [relax_def, if_neg h]

theorem relax_Q {fl : ℚ → ℚ} (v : ℕ) (g : Graph) (e : ii) (h : g.dist e.2 > fl (g.dist v + e.1))
    (hlt : e.2 < g.distance.length) :
    (relax fl v g e).Q = push g.Q (fl (g.dist v + e.1), e.2) := by
  rw [relax_def, if_pos h, getD_set_self _ _ _ _ hlt]

theorem relax_dist {fl : ℚ → ℚ} (v : ℕ) (g : Graph) (e : ii) (h : g.dist e.2 > fl (g.dist v + e.1))
    (hlt : e.2 < g.distance.length) (x : ℕ) :
    (relax fl v g e).dist x = if x = e.2 then fl (g.dist v + e.1) else g.dist x := by
  rw [relax_def, if_pos h]
  unfold Graph.dist
  by_cases hx : x = e.2
  · subst hx
    rw [if_pos rfl]
    exact getD_set_self _ _ _ _ hlt
  · rw [if_neg hx]
    exact getD_set_ne _ _ _ (Ne.symm hx)

theorem relax_edge {fl : ℚ → ℚ} (v : ℕ) (g : Graph) (e : ii) : (relax fl v g e).edge = g.edge := by
  rw [relax_def]
  split_ifs <;> rfl

theorem relax_V {fl : ℚ → ℚ} (v : ℕ) (g : Graph) (e : ii) : (relax fl v g e).V = g.V := by
  rw [relax_def]
  split_ifs <;> rfl

theorem relax_MAX {fl : ℚ → ℚ} (v : ℕ) (g : Graph) (e : ii) :
    (relax fl v g e).MAX_DISTANCE = g.MAX_DISTANCE := by
  rw [relax_def]
  split_ifs <;> rfl

theorem relax_length {fl : ℚ → ℚ} (v : ℕ) (g : Graph) (e : ii) :
    (relax fl v g e).distance.length = g.distance.length := by
  rw [relax_def]
  split_ifs <;> simp

theorem relax_adj {fl : ℚ → ℚ}
    (v : ℕ) (g : Graph) (e : ii) (u : ℕ) : (relax fl v g e).adj u = g.adj u := by
  unfold Graph.adj
  rw [relax_edge]

theorem foldl_relax_edge {fl : ℚ → ℚ} (v : ℕ) (l : List ii) (g : Graph) :
    (l.foldl (relax fl v) g).edge = g.edge := by
  induction l generalizing g with
  | nil => rfl
  | cons e l ih => rw [List.foldl_cons, ih, relax_edge]

theorem foldl_relax_V {fl : ℚ → ℚ}
    (v : ℕ) (l : List ii) (g : Graph) : (l.foldl (relax fl v) g).V = g.V := by
  induction l generalizing g with
  | nil => rfl
  | cons e l ih => rw [List.foldl_cons, ih, relax_V]

theorem foldl_relax_MAX {fl : ℚ → ℚ} (v : ℕ) (l : List ii) (g : Graph) :
    (l.foldl (relax fl v) g).MAX_DISTANCE = g.MAX_DISTANCE := by
  induction l generalizing g with
  | nil => rfl
  | cons e l ih => rw [List.foldl_cons, ih, relax_MAX]

theorem loopBody_edge {fl : ℚ → ℚ} (g : Graph) (top : ii) : (loopBody fl g top).edge = g.edge := by
  rw [loopBody_def]
  split_ifs
  · exact foldl_relax_edge _ _ _
  · rfl

theorem loopBody_V {fl : ℚ → ℚ} (g : Graph) (top : ii) : (loopBody fl g top).V = g.V := by
  rw [loopBody_def]
  split_ifs
  · exact foldl_relax_V _ _ _
  · rfl

theorem loopBody_MAX {fl : ℚ → ℚ}
    (g : Graph) (top : ii) : (loopBody fl g top).MAX_DISTANCE = g.MAX_DISTANCE := by
  rw [loopBody_def]
  split_ifs
  · exact foldl_relax_MAX _ _ _
  · rfl

theorem whileLoop_same {fl : ℚ → ℚ} (n : ℕ) (g g2 : Graph) (h : whileLoop fl n g = some g2) :
    SameGraph g g2 ∧ g2.Q = [] := by
  induction n generalizing g with
  | zero => simp [whileLoop] at h
  | succ n ih =>
    unfold whileLoop at h
    cases hq : g.Q with
    | nil =>
      rw [hq] at h
      simp only [Option.some.injEq] at h
      subst h
      exact ⟨⟨rfl, rfl, rfl⟩, hq⟩
    | cons top rest =>
      rw [hq] at h
      simp only at h
      obtain ⟨⟨h1, h2, h3⟩, h4⟩ := ih _ h
      rw [loopBody_edge] at h1
      rw [loopBody_V] at h2
      rw [loopBody_MAX] at h3
      exact ⟨⟨h1, h2, h3⟩, h4⟩

/-! ## Invariant of the loop that holds for arbitrary weights -/

theorem relax_GInv {fl : ℚ → ℚ} (hfl : Rounding fl) (s v : ℕ) (g : Graph) (e : ii)
    (hg : GInv fl s g) (hv : v < g.edge.length)
    (hdv : g.dist v < (INT_MAX : ℚ)) (he : e ∈ g.adj v) :
    GInv fl s (relax fl v g e) ∧ (relax fl v g e).dist v < (INT_MAX : ℚ) := by
  by_cases h : g.dist e.2 > fl (g.dist v + e.1)
  · have hlt : e.2 < g.distance.length := by rw [hg.dlen]; exact hg.nb v e he
    have hQ := relax_Q v g e h hlt
    have hD := relax_dist v g e h hlt
    have hE := @relax_edge fl v g e
    have hnew : fl (g.dist v + e.1) < (INT_MAX : ℚ) := lt_of_lt_of_le h (hg.ub e.2)
    have hmono : ∀ x, (relax fl v g e).dist x ≤ g.dist x := by
      intro x
      rw [hD x]
      split_ifs with hx
      · rw [hx]; exact le_of_lt h
      · exact le_refl _
    refine ⟨⟨?_, ?_, ?_, ?_, ?_, ?_, ?_, ?_⟩, lt_of_le_of_lt (hmono v) hdv⟩
    · rw [relax_length, hE]; exact hg.dlen
    · intro u x hx
      rw [relax_adj] at hx
      rw [hE]
      exact hg.nb u x hx
    · intro x hx
      rw [hQ, mem_push] at hx
      rw [hE]
      rcases hx with rfl | hx
      · exact hg.nb v e he
      · exact hg.qv x hx
    · intro x
      exact le_trans (hmono x) (hg.ub x)
    · intro x
      rw [hD x]
      split_ifs
      · exact hfl.idem _
      · exact hg.rep x
    · intro x hx
      rw [hQ, mem_push] at hx
      rcases hx with rfl | hx
      · rw [hD]; simp
      · exact le_trans (hmono _) (hg.t1 x hx)
    · intro x hx
      rw [hQ, mem_push] at hx
      rcases hx with rfl | hx
      · exact hnew
      · exact hg.t1s x hx
    · intro x hx hne
      rw [hE] at hx ⊢
      rw [hD x] at hne ⊢
      by_cases hxe : x = e.2
      · rw [if_pos hxe]
        obtain ⟨l, hl⟩ := hg.w v hv (ne_of_lt hdv)
        have hp : Path fl g.edge s e.2 (fl (g.dist v + e.1)) (e.2 :: l) := Path.snoc hl he
        rw [hxe]
        exact ⟨_, hp⟩
      · rw [if_neg hxe] at hne ⊢
        exact hg.w x hx hne
  · rw [relax_skip v g e h]
    exact ⟨hg, hdv⟩

theorem foldl_relax_GInv {fl : ℚ → ℚ} (hfl : Rounding fl) (s v : ℕ) (l : List ii) (g : Graph)
    (hg : GInv fl s g)
    (hv : v < g.edge.length) (hdv : g.dist v < (INT_MAX : ℚ)) (hl : ∀ e ∈ l, e ∈ g.adj v) :
    GInv fl s (l.foldl (relax fl v) g) := by
  induction l generalizing g with
  | nil => exact hg
  | cons e l ih =>
    rw [List.foldl_cons]
    obtain ⟨h1, h2⟩ := relax_GInv hfl s v g e hg hv hdv (hl e (List.mem_cons_self _ _))
    apply ih _ h1 (by rw [relax_edge]; exact hv) h2
    intro x hx
    rw [relax_adj]
    exact hl x (List.mem_cons_of_mem _ hx)

theorem pop_GInv {fl : ℚ → ℚ} (s : ℕ) (g : Graph) (top : ii) (rest : List ii) (hg : GInv fl s g)
    (hq : g.Q = top :: rest) : GInv fl s { g with Q := rest } := by
  have hsub : ∀ e ∈ rest, e ∈ g.Q := fun e he => by rw [hq]; exact List.mem_cons_of_mem _ he
  exact ⟨hg.dlen, hg.nb, fun e he => hg.qv e (hsub e he), hg.ub, hg.rep,
    fun e he => hg.t1 e (hsub e he), fun e he => hg.t1s e (hsub e he), hg.w⟩

theorem loopBody_GInv {fl : ℚ → ℚ} (hfl : Rounding fl) (s : ℕ) (g : Graph) (top : ii)
    (rest : List ii) (hg : GInv fl s g)
    (hq : g.Q = top :: rest) : GInv fl s (loopBody fl { g with Q := rest } top) := by
  have hpop := pop_GInv s g top rest hg hq
  have htop : top ∈ g.Q := by rw [hq]; exact List.mem_cons_self _ _
  rw [loopBody_def]
  split_ifs with h
  · apply foldl_relax_GInv hfl s top.2 _ _ hpop (hg.qv top htop)
    · exact lt_of_le_of_lt (hg.t1 top htop) (hg.t1s top htop)
    · intro e he; exact he
  · exact hpop

theorem whileLoop_GInv {fl : ℚ → ℚ} (hfl : Rounding fl) (s n : ℕ) (g g2 : Graph)
    (hg : GInv fl s g) (h : whileLoop fl n g = some g2) : GInv fl s g2 := by
  induction n generalizing g with
  | zero => simp [whileLoop] at h
  | succ n ih =>
    unfold whileLoop at h
    cases hq : g.Q with
    | nil =>
      rw [hq] at h
      simp only [Option.some.injEq] at h
      subst h
      exact hg
    | cons top rest =>
      rw [hq] at h
      exact ih _ (loopBody_GInv hfl s g top rest hg hq) h


/-! ## Invariant of the loop for non-negative weights -/

theorem Path.change {fl : ℚ → ℚ} (fl2 : ℚ → ℚ) {E : List (List ii)} {s v : ℕ} {c : ℚ}
    {l : List ℕ} (hp : Path fl E s v c l) : ∃ c2, Path fl2 E s v c2 l := by
  induction hp with
  | nil => exact ⟨0, Path.nil⟩
  | snoc _ he ih =>
    obtain ⟨c2, h2⟩ := ih
    exact ⟨_, Path.snoc h2 he⟩

theorem Path.reachable {fl : ℚ → ℚ} {E : List (List ii)} {s v : ℕ} {c : ℚ} {l : List ℕ}
    (hp : Path fl E s v c l) : Reachable E s v := by
  obtain ⟨c2, h⟩ := hp.change id
  exact ⟨c2, l, h⟩

theorem Reachable.path (fl : ℚ → ℚ) {E : List (List ii)} {s v : ℕ} (h : Reachable E s v) :
    ∃ c l, Path fl E s v c l := by
  obtain ⟨c, l, hp⟩ := h
  obtain ⟨c2, h2⟩ := hp.change fl
  exact ⟨c2, l, h2⟩

theorem relax_PInv {fl : ℚ → ℚ} (hfl : Rounding fl) (s v : ℕ) (c : ℚ) (U : Finset ℕ)
    (g : Graph) (e : ii) (hp : PInv fl s v c U g) (hv : v < g.edge.length) (he : e ∈ g.adj v) :
    PInv fl s v c U (relax fl v g e) ∧ (relax fl v g e).Q.length ≤ g.Q.length + 1 ∧
      (∀ x, (relax fl v g e).dist x ≤ g.dist x) ∧
      (relax fl v g e).dist e.2 ≤ fl (c + e.1) := by
  have hw : 0 ≤ e.1 := hp.nn v hp.rv e he
  have hge : g.dist v ≤ fl (g.dist v + e.1) := hfl.le_add (hp.ginv.rep v) hw
  by_cases h : g.dist e.2 > fl (g.dist v + e.1)
  · have hin : e.2 < g.edge.length := hp.ginv.nb v e he
    have hlt : e.2 < g.distance.length := by rw [hp.ginv.dlen]; exact hin
    have hQ := relax_Q v g e h hlt
    have hD := relax_dist v g e h hlt
    have hE := @relax_edge fl v g e
    have hG := (relax_GInv hfl s v g e hp.ginv hv
      (lt_of_le_of_lt hge (lt_of_lt_of_le h (hp.ginv.ub e.2))) he).1
    have hc : 0 ≤ c := by rw [← hp.dv]; exact hp.pos v
    have hdv := hp.dv
    have hev : e.2 ≠ v := by
      intro hev
      rw [hev] at h
      linarith
    have heU : e.2 ∈ U := by
      by_contra hn
      have := hp.t2 e.2 hin hn
      linarith
    have hmono : ∀ x, (relax fl v g e).dist x ≤ g.dist x := by
      intro x
      rw [hD x]
      split_ifs with hx
      · rw [hx]; exact le_of_lt h
      · exact le_refl _
    have hadj : ∀ u, (relax fl v g e).adj u = g.adj u := relax_adj v g e
    refine ⟨⟨hG, ?_, ?_, ?_, ?_, ?_, ?_, ?_, ?_, ?_, ?_, ?_⟩, ?_, hmono, ?_⟩
    · rw [hE]; exact hp.nn
    · rw [hE]; exact hp.rv
    · intro x
      rw [hD x]
      split_ifs
      · linarith
      · exact hp.pos x
    · rw [hD s]
      split_ifs with hs
      · have := hp.src
        rw [hs] at this
        linarith
      · exact hp.src
    · rw [hQ]
      exact List.Sorted.orderedInsert _ _ hp.sorted
    · rw [hQ]
      unfold push
      rw [(List.perm_orderedInsert iiLE _ _).nodup_iff, List.nodup_cons]
      refine ⟨?_, hp.nodup⟩
      intro hmem
      have := hp.ginv.t1 _ hmem
      simp only at this
      linarith
    · rw [hD v, if_neg (Ne.symm hev)]
      exact hdv
    · intro x hx
      rw [hQ, mem_push] at hx
      rcases hx with rfl | hx
      · simp only
        linarith
      · exact hp.m x hx
    · intro u hu hnU
      rw [hE] at hu
      exact le_trans (hmono u) (hp.t2 u hu hnU)
    · intro x hx
      rw [hQ, mem_push] at hx
      rcases hx with rfl | hx
      · exact Or.inl heU
      · by_cases hxe : x.2 = e.2
        · rw [hxe]
          exact Or.inl heU
        · rcases hp.t3 x hx with h3 | h3
          · exact Or.inl h3
          · right
            rw [hD x.2, if_neg hxe]
            exact h3
    · intro u huv hnu
      rw [hadj] at hnu
      by_cases hue : u = e.2
      · left
        rw [hQ, mem_push, hD u, if_pos hue, hue]
        exact Or.inl rfl
      · rcases hp.j u huv hnu with hj | hj
        · left
          rw [hQ, mem_push, hD u, if_neg hue]
          exact Or.inr hj
        · right
          intro x hx
          rw [hadj] at hx
          rw [hD u, if_neg hue]
          exact le_trans (hmono x.2) (hj x hx)
    · rw [hQ]
      unfold push
      rw [List.orderedInsert_length]
    · rw [hD e.2, if_pos rfl, hdv]
  · rw [relax_skip v g e h]
    refine ⟨hp, Nat.le_succ _, fun x => le_refl _, ?_⟩
    rw [← hp.dv]
    exact not_lt.mp h

theorem foldl_relax_PInv {fl : ℚ → ℚ} (hfl : Rounding fl) (s v : ℕ) (c : ℚ) (U : Finset ℕ)
    (l : List ii) (g : Graph)
    (hp : PInv fl s v c U g) (hv : v < g.edge.length) (hl : ∀ e ∈ l, e ∈ g.adj v) :
    PInv fl s v c U (l.foldl (relax fl v) g) ∧
      (l.foldl (relax fl v) g).Q.length ≤ g.Q.length + l.length ∧
      (∀ x, (l.foldl (relax fl v) g).dist x ≤ g.dist x) ∧
      ∀ e ∈ l, (l.foldl (relax fl v) g).dist e.2 ≤ fl (c + e.1) := by
  induction l generalizing g with
  | nil => exact ⟨hp, le_refl _, fun x => le_refl _, fun e he => absurd he (List.not_mem_nil e)⟩
  | cons a l ih =>
    rw [List.foldl_cons]
    obtain ⟨h1, h2, h3, h4⟩ := relax_PInv hfl s v c U g a hp hv (hl a (List.mem_cons_self _ _))
    have hl2 : ∀ e ∈ l, e ∈ (relax fl v g a).adj v := by
      intro x hx
      rw [relax_adj]
      exact hl x (List.mem_cons_of_mem _ hx)
    obtain ⟨k1, k2, k3, k4⟩ := ih (relax fl v g a) h1 (by rw [relax_edge]; exact hv) hl2
    refine ⟨k1, ?_, fun x => le_trans (k3 x) (h3 x), ?_⟩
    · rw [List.length_cons]
      omega
    · intro x hx
      rcases List.mem_cons.mp hx with rfl | hx
      · exact le_trans (k3 _) h4
      · exact k4 x hx

theorem loopBody_adj {fl : ℚ → ℚ}
    (g : Graph) (top : ii) (u : ℕ) : (loopBody fl g top).adj u = g.adj u := by
  unfold Graph.adj
  rw [loopBody_edge]

theorem loopBody_NInv {fl : ℚ → ℚ} (hfl : Rounding fl) (s : ℕ) (U : Finset ℕ) (g : Graph)
    (top : ii) (rest : List ii) (hg : NInv fl s U g) (hq : g.Q = top :: rest) :
    ∃ U2, NInv fl s U2 (loopBody fl { g with Q := rest } top) ∧
      measure U2 (loopBody fl { g with Q := rest } top) < measure U g := by
  have htop : top ∈ g.Q := by rw [hq]; exact List.mem_cons_self _ _
  have hsub : ∀ e ∈ rest, e ∈ g.Q := fun e he => by rw [hq]; exact List.mem_cons_of_mem _ he
  have hsorted : (top :: rest).Sorted iiLE := hq ▸ hg.sorted
  have hnodup : (top :: rest).Nodup := hq ▸ hg.nodup
  have hpop := pop_GInv s g top rest hg.ginv hq
  have hlen : g.Q.length = rest.length + 1 := by rw [hq, List.length_cons]
  by_cases h0 : top.1 ≤ ({ g with Q := rest } : Graph).dist top.2
  · -- the popped entry is current: its vertex is scanned
    have h : top.1 ≤ g.dist top.2 := h0
    have hc : g.dist top.2 = top.1 := le_antisymm (hg.ginv.t1 top htop) h
    have hvU : top.2 ∈ U := by
      rcases hg.t3 top htop with h3 | h3
      · exact h3
      · linarith
    have hv : top.2 < g.edge.length := hg.ginv.qv top htop
    have hrv : Reachable g.edge s top.2 := by
      have hne : g.dist top.2 ≠ (INT_MAX : ℚ) := by
        rw [hc]; exact ne_of_lt (hg.ginv.t1s top htop)
      obtain ⟨l, hl⟩ := hg.ginv.w top.2 hv hne
      exact hl.reachable
    have hP : PInv fl s top.2 top.1 (U.erase top.2) { g with Q := rest } := by
      refine ⟨hpop, hg.nn, hrv, hg.pos, hg.src, hsorted.of_cons, hnodup.of_cons, hc,
        ?_, ?_, ?_, ?_⟩
      · intro e he
        have hr : iiLE top e := List.rel_of_sorted_cons hsorted e he
        unfold iiLE at hr
        rcases hr with hr | ⟨hr, _⟩
        · exact le_of_lt hr
        · exact le_of_eq hr
      · intro u hu hnU
        by_cases huv : u = top.2
        · rw [huv]; exact le_of_eq hc
        · have : u ∉ U := fun hin => hnU (Finset.mem_erase.mpr ⟨huv, hin⟩)
          exact hg.t2 u hu this top htop
      · intro e he
        by_cases hev : e.2 = top.2
        · right
          have hle : g.dist e.2 ≤ e.1 := hg.ginv.t1 e (hsub e he)
          have hne : e.1 ≠ top.1 := by
            intro heq
            have : e = top := Prod.ext heq hev
            rw [this] at he
            exact (List.nodup_cons.mp hnodup).1 he
          rw [hev, hc] at hle
          rw [show ({ g with Q := rest } : Graph).dist e.2 = g.dist e.2 from rfl, hev, hc]
          exact lt_of_le_of_ne hle (Ne.symm hne)
        · rcases hg.t3 e (hsub e he) with h3 | h3
          · exact Or.inl (Finset.mem_erase.mpr ⟨hev, h3⟩)
          · exact Or.inr h3
      · intro u huv hnu
        rcases hg.j u hnu with hj | hj
        · left
          rw [hq] at hj
          rcases List.mem_cons.mp hj with hj | hj
          · exact absurd (congrArg Prod.snd hj) huv
          · exact hj
        · exact Or.inr hj
    obtain ⟨k1, k2, _, k4⟩ := foldl_relax_PInv hfl s top.2 top.1 (U.erase top.2)
      (({ g with Q := rest } : Graph).adj top.2) { g with Q := rest } hP hv (fun e he => he)
    refine ⟨U.erase top.2, ?_, ?_⟩
    · rw [loopBody_def, if_pos h0]
      refine ⟨k1.ginv, k1.nn, k1.pos, k1.src, k1.sorted, k1.nodup, ?_, k1.t3, ?_⟩
      · intro u hu hnU e he
        exact le_trans (k1.t2 u hu hnU) (k1.m e he)
      · intro u hnu
        by_cases huv : u = top.2
        · right
          intro e he
          unfold Graph.adj at he
          rw [foldl_relax_edge, huv] at he
          rw [huv, k1.dv]
          exact k4 e he
        · exact k1.j u huv hnu
    · unfold measure
      have hsum : (g.adj top.2).length + ∑ u in U.erase top.2, (g.adj u).length
          = ∑ u in U, (g.adj u).length :=
        Finset.add_sum_erase U (fun u => (g.adj u).length) hvU
      have hadj : ∀ u, (loopBody fl { g with Q := rest } top).adj u = g.adj u := fun u => by
        rw [loopBody_adj]; rfl
      simp only [hadj]
      rw [loopBody_def, if_pos h0]
      have k2b : (List.foldl (relax fl top.2) { g with Q := rest }
          (({ g with Q := rest } : Graph).adj top.2)).Q.length
            ≤ rest.length + (g.adj top.2).length := k2
      omega
  · -- the popped entry is stale: it is discarded
    have h : ¬ top.1 ≤ g.dist top.2 := h0
    refine ⟨U, ?_, ?_⟩
    · rw [loopBody_def, if_neg h0]
      refine ⟨hpop, hg.nn, hg.pos, hg.src, hsorted.of_cons, hnodup.of_cons, ?_, ?_, ?_⟩
      · intro u hu hnU e he
        exact hg.t2 u hu hnU e (hsub e he)
      · intro e he
        exact hg.t3 e (hsub e he)
      · intro u hnu
        rcases hg.j u hnu with hj | hj
        · left
          rw [hq] at hj
          rcases List.mem_cons.mp hj with hj | hj
          · exfalso
            apply h
            rw [← hj]
          · exact hj
        · exact Or.inr hj
    · unfold measure
      have hadj : ∀ u, (loopBody fl { g with Q := rest } top).adj u = g.adj u := fun u => by
        rw [loopBody_adj]; rfl
      simp only [hadj]
      rw [loopBody_def, if_neg h0]
      simp only [hlen]
      omega

theorem whileLoop_NInv {fl : ℚ → ℚ} (hfl : Rounding fl) (s : ℕ) (k : ℕ) :
    ∀ (U : Finset ℕ) (g : Graph), NInv fl s U g →
    measure U g ≤ k → ∀ n, k + 1 ≤ n → ∃ g2 U2, whileLoop fl n g = some g2 ∧ NInv fl s U2 g2 := by
  induction k with
  | zero =>
    intro U g hg hm n hn
    obtain ⟨m, rfl⟩ : ∃ m, n = m + 1 := ⟨n - 1, by omega⟩
    have hq : g.Q = [] := by
      unfold measure at hm
      exact List.length_eq_zero.mp (by omega)
    refine ⟨g, U, ?_, hg⟩
    unfold whileLoop
    rw [hq]
  | succ k ih =>
    intro U g hg hm n hn
    obtain ⟨m, rfl⟩ : ∃ m, n = m + 1 := ⟨n - 1, by omega⟩
    cases hq : g.Q with
    | nil =>
      refine ⟨g, U, ?_, hg⟩
      unfold whileLoop
      rw [hq]
    | cons top rest =>
      obtain ⟨U2, h1, h2⟩ := loopBody_NInv hfl s U g top rest hg hq

      obtain ⟨g2, U3, h3, h4⟩ := ih U2 _ h1 (by omega) m (by omega)
      refine ⟨g2, U3, ?_, h4⟩
      unfold whileLoop
      rw [hq]
      exact h3

/-! ## Paths and the fixed point of relaxation -/

theorem dist_le_path {fl : ℚ → ℚ} (hfl : Rounding fl) (s : ℕ) (g : Graph) (hs : g.dist s ≤ 0)
    (hj : ∀ u, Reachable g.edge s u → Relaxed fl g u)
    (v : ℕ) (c : ℚ) (l : List ℕ) (hp : Path fl g.edge s v c l) : g.dist v ≤ c := by
  induction hp with
  | nil => exact hs
  | snoc hp0 he ih =>
    have h1 := hj _ hp0.reachable _ he
    simp only at h1
    exact h1.trans (hfl.mono _ _ (by linarith))

theorem NInv.relaxed {fl : ℚ → ℚ} {s : ℕ} {U : Finset ℕ} {g : Graph} (hg : NInv fl s U g)
    (hq : g.Q = []) (u : ℕ) (hnu : ∀ e ∈ g.adj u, 0 ≤ e.1) : Relaxed fl g u := by
  rcases hg.j u hnu with hj | hj
  · rw [hq] at hj
    exact absurd hj (List.not_mem_nil _)
  · exact hj

/-! ## Graphs built by `addEdge` -/

theorem addEdge_edge (g : Graph) (u v : ℕ) (w : ℚ) :
    (addEdge g u v w).edge =
      (g.edge.set u (g.edge.getD u [] ++ [(w, v)])).set v
        ((g.edge.set u (g.edge.getD u [] ++ [(w, v)])).getD v [] ++ [(w, u)]) := rfl

theorem addEdge_adj_mem (g : Graph) (u v : ℕ) (w : ℚ) (x : ℕ) (e : ii)
    (h : e ∈ (addEdge g u v w).adj x) :
    e ∈ g.adj x ∨ (e = (w, v) ∧ x = u) ∨ (e = (w, u) ∧ x = v) := by
  unfold Graph.adj at h ⊢
  rw [addEdge_edge] at h
  rcases mem_getD_set _ _ _ _ _ h with ⟨h1, h2⟩ | h1
  · rcases List.mem_append.mp h1 with h3 | h3
    · rcases mem_getD_set _ _ _ _ _ h3 with ⟨h4, h5⟩ | h4
      · rcases List.mem_append.mp h4 with h6 | h6
        · rw [h5, h2] at h6
          exact Or.inl h6
        · exact Or.inr (Or.inl ⟨List.mem_singleton.mp h6, by rw [← h2, ← h5]⟩)
      · rw [h2] at h4
        exact Or.inl h4
    · exact Or.inr (Or.inr ⟨List.mem_singleton.mp h3, h2.symm⟩)
  · rcases mem_getD_set _ _ _ _ _ h1 with ⟨h4, h5⟩ | h4
    · rcases List.mem_append.mp h4 with h6 | h6
      · rw [h5] at h6
        exact Or.inl h6
      · exact Or.inr (Or.inl ⟨List.mem_singleton.mp h6, h5.symm⟩)
    · exact Or.inl h4

theorem addEdge_length (g : Graph) (u v : ℕ) (w : ℚ) :
    (addEdge g u v w).edge.length = g.edge.length := by
  rw [addEdge_edge]
  simp

theorem foldl_addEdge_fields (es : List (ℕ × ℕ × ℚ)) (g : Graph) :
    (es.foldl (fun g e => addEdge g e.1 e.2.1 e.2.2) g).Q = g.Q ∧
    (es.foldl (fun g e => addEdge g e.1 e.2.1 e.2.2) g).distance = g.distance ∧
    (es.foldl (fun g e => addEdge g e.1 e.2.1 e.2.2) g).V = g.V ∧
    (es.foldl (fun g e => addEdge g e.1 e.2.1 e.2.2) g).MAX_DISTANCE = g.MAX_DISTANCE ∧
    (es.foldl (fun g e => addEdge g e.1 e.2.1 e.2.2) g).edge.length = g.edge.length := by
  induction es generalizing g with
  | nil => exact ⟨rfl, rfl, rfl, rfl, rfl⟩
  | cons t es ih =>
    rw [List.foldl_cons]
    obtain ⟨h1, h2, h3, h4, h5⟩ := ih (addEdge g t.1 t.2.1 t.2.2)
    exact ⟨h1, h2, h3, h4, by rw [h5, addEdge_length]⟩

theorem foldl_addEdge_mem (es : List (ℕ × ℕ × ℚ)) (g : Graph) (x : ℕ) (e : ii)
    (h : e ∈ (es.foldl (fun g e => addEdge g e.1 e.2.1 e.2.2) g).adj x) :
    e ∈ g.adj x ∨ ∃ t ∈ es, e.1 = t.2.2 ∧ ((x = t.1 ∧ e.2 = t.2.1) ∨ (x = t.2.1 ∧ e.2 = t.1)) := by
  induction es generalizing g with
  | nil => exact Or.inl h
  | cons t es ih =>
    rw [List.foldl_cons] at h
    rcases ih _ h with h1 | ⟨t2, ht2, h2⟩
    · rcases addEdge_adj_mem _ _ _ _ _ _ h1 with h3 | ⟨h3, h4⟩ | ⟨h3, h4⟩
      · exact Or.inl h3
      · exact Or.inr ⟨t, List.mem_cons_self _ _, by rw [h3], Or.inl ⟨h4, by rw [h3]⟩⟩
      · exact Or.inr ⟨t, List.mem_cons_self _ _, by rw [h3], Or.inr ⟨h4, by rw [h3]⟩⟩
    · exact Or.inr ⟨t2, List.mem_cons_of_mem _ ht2, h2⟩

theorem ctor_adj (V u : ℕ) : (Graph.ctor V).adj u = [] := by
  unfold Graph.adj Graph.ctor
  simp only [List.getD_eq_getElem?_getD, List.getElem?_replicate]
  split_ifs <;> rfl

theorem build_adj_mem (V : ℕ) (es : List (ℕ × ℕ × ℚ)) (x : ℕ) (e : ii)
    (h : e ∈ (build V es).adj x) :
    ∃ t ∈ es, e.1 = t.2.2 ∧ ((x = t.1 ∧ e.2 = t.2.1) ∨ (x = t.2.1 ∧ e.2 = t.1)) := by
  rcases foldl_addEdge_mem es (Graph.ctor V) x e h with h1 | h1
  · rw [ctor_adj] at h1
    exact absurd h1 (List.not_mem_nil _)
  · exact h1

theorem build_V (V : ℕ) (es : List (ℕ × ℕ × ℚ)) : (build V es).V = V :=
  (foldl_addEdge_fields es (Graph.ctor V)).2.2.1

theorem build_Ready (V : ℕ) (es : List (ℕ × ℕ × ℚ)) (hv : ValidEdges V es) :
    Ready (build V es) := by
  obtain ⟨h1, h2, h3, h4, h5⟩ := foldl_addEdge_fields es (Graph.ctor V)
  refine ⟨h1, ?_, ?_, h4, ?_⟩
  · rw [build_V]; exact h2
  · rw [build_V]; unfold build; rw [h5]; simp [Graph.ctor]
  · intro u e he
    rw [build_V]
    obtain ⟨t, ht, _, h6 | h6⟩ := build_adj_mem V es u e he
    · rw [h6.1, h6.2]; exact hv t ht
    · rw [h6.1, h6.2]; exact ⟨(hv t ht).2, (hv t ht).1⟩

theorem build_nonneg (V : ℕ) (es : List (ℕ × ℕ × ℚ)) (hn : NonNeg es) :
    ∀ u, ∀ e ∈ (build V es).adj u, 0 ≤ e.1 := by
  intro u e he
  obtain ⟨t, ht, h1, _⟩ := build_adj_mem V es u e he
  rw [h1]
  exact hn t ht

theorem build_nonnegFrom (V : ℕ) (es : List (ℕ × ℕ × ℚ)) (hn : NonNeg es) (s : ℕ) :
    NonNegFrom (build V es).edge s :=
  fun u _ e he => build_nonneg V es hn u e he

/-! ## The state in which the loop is entered -/

theorem init_edge (s : ℕ) (g : Graph) : (dijkstraInit s g).edge = g.edge := rfl

theorem init_adj (s : ℕ) (g : Graph) (u : ℕ) : (dijkstraInit s g).adj u = g.adj u := rfl

theorem init_Q (s : ℕ) (g : Graph) (hr : Ready g) : (dijkstraInit s g).Q = [(0, s)] := by
  show push g.Q (0, s) = [(0, s)]
  rw [hr.q]
  rfl

theorem init_dist (s : ℕ) (g : Graph) (hr : Ready g) (hs : s ≤ g.V) (x : ℕ) :
    (dijkstraInit s g).dist x =
      if x = s then 0 else if x ≤ g.V then (INT_MAX : ℚ) else 0 := by
  show (g.distance.set s 0).getD x 0 = _
  rw [hr.d]
  by_cases hx : x = s
  · rw [if_pos hx, hx]
    apply getD_set_self
    rw [List.length_replicate]
    omega
  · rw [if_neg hx, getD_set_ne _ _ _ (Ne.symm hx)]
    simp only [List.getD_eq_getElem?_getD, List.getElem?_replicate]
    by_cases hxV : x ≤ g.V
    · rw [if_pos (by omega), if_pos hxV]; rfl
    · rw [if_neg (by omega), if_neg hxV]; rfl

theorem INT_MAX_pos : (0 : ℚ) < (INT_MAX : ℚ) := by
  unfold INT_MAX
  norm_num

theorem init_GInv {fl : ℚ → ℚ} (hfl : Rounding fl) (s : ℕ) (g : Graph) (hr : Ready g)
    (hs : s ≤ g.V) : GInv fl s (dijkstraInit s g) := by
  have hD := init_dist s g hr hs
  have hQ := init_Q s g hr
  refine ⟨?_, ?_, ?_, ?_, ?_, ?_, ?_, ?_⟩
  · show (g.distance.set s 0).length = g.edge.length
    rw [List.length_set, hr.d, List.length_replicate, hr.elen]
  · intro u e he
    rw [init_edge, hr.elen]
    have := (hr.nb u e he).2.2
    omega
  · intro e he
    rw [hQ, List.mem_singleton] at he
    rw [init_edge, hr.elen, he]
    show s < g.V + 1
    omega
  · intro x
    rw [hD x]
    split_ifs
    · exact le_of_lt INT_MAX_pos
    · exact le_refl _
    · exact le_of_lt INT_MAX_pos
  · intro x
    rw [hD x]
    split_ifs
    · exact hfl.zero
    · exact hfl.sentinel
    · exact hfl.zero
  · intro e he
    rw [hQ, List.mem_singleton] at he
    rw [he, hD]
    simp
  · intro e he
    rw [hQ, List.mem_singleton] at he
    rw [he]
    exact INT_MAX_pos
  · intro x hx hne
    rw [init_edge, hr.elen] at hx
    rw [hD x] at hne ⊢
    by_cases hxs : x = s
    · rw [if_pos hxs, hxs]
      exact ⟨[s], Path.nil⟩
    · rw [if_neg hxs, if_pos (by omega)] at hne
      exact absurd rfl hne

theorem sum_range_getD (l : List (List ii)) :
    ∑ u in Finset.range l.length, (l.getD u []).length = (l.map List.length).sum := by
  induction l with
  | nil => rfl
  | cons a l ih =>
    rw [List.length_cons, Finset.sum_range_succ', List.map_cons, List.sum_cons, ← ih]
    simp [add_comm]

theorem init_NInv {fl : ℚ → ℚ} (hfl : Rounding fl) (s : ℕ) (g : Graph) (hr : Ready g)
    (hs : s ≤ g.V) (hnn : NonNegFrom g.edge s) :
    NInv fl s (Finset.range (g.V + 1)) (dijkstraInit s g) ∧
      measure (Finset.range (g.V + 1)) (dijkstraInit s g) + 1 = fuelBound g := by
  have hD := init_dist s g hr hs
  have hQ := init_Q s g hr
  refine ⟨⟨init_GInv hfl s g hr hs, hnn, ?_, ?_, ?_, ?_, ?_, ?_, ?_⟩, ?_⟩
  · intro x
    rw [hD x]
    split_ifs
    · exact le_refl _
    · exact le_of_lt INT_MAX_pos
    · exact le_refl _
  · rw [hD s, if_pos rfl]
  · rw [hQ]; exact List.sorted_singleton _
  · rw [hQ]; exact List.nodup_singleton _
  · intro u hu hnU
    rw [init_edge, hr.elen] at hu
    exact absurd (Finset.mem_range.mpr hu) hnU
  · intro e he
    rw [hQ, List.mem_singleton] at he
    left
    rw [he]
    exact Finset.mem_range.mpr (by show s < g.V + 1; omega)
  · intro u hnu
    by_cases hus : u = s
    · left
      rw [hQ, hD u, if_pos hus, hus]
      exact List.mem_singleton.mpr rfl
    · right
      intro e he
      have h2 := hnu e he
      rw [init_adj] at he
      have h1 := hr.nb u e he
      rw [hD u, if_neg hus, if_pos h1.1.2]
      have h3 : (dijkstraInit s g).dist e.2 ≤ (INT_MAX : ℚ) := (init_GInv hfl s g hr hs).ub e.2
      exact h3.trans (hfl.le_add hfl.sentinel h2)
  · unfold measure fuelBound
    rw [hQ, ← hr.elen, ← sum_range_getD]
    simp only [Graph.adj, init_edge, List.length_singleton]
    omega

/-- The loop of `dijkstra(s)` on a fresh graph in which no vertex reachable from `s` has an
adjacency entry of negative weight ends within `fuelBound` iterations, in a state that satisfies
the invariant with an empty queue. -/
theorem dijkstra_run {fl : ℚ → ℚ} (hfl : Rounding fl) (s : ℕ) (g : Graph) (hr : Ready g)
    (hs : s ≤ g.V) (hnn : NonNegFrom g.edge s) (n : ℕ) (hn : fuelBound g ≤ n) :
    ∃ g2 U, whileLoop fl n (dijkstraInit s g) = some g2 ∧ NInv fl s U g2 ∧ g2.Q = [] ∧
      SameGraph g g2 := by
  obtain ⟨h1, h2⟩ := init_NInv hfl s g hr hs hnn
  obtain ⟨g2, U, h3, h4⟩ := whileLoop_NInv hfl s _ _ _ h1 (le_refl _) n (by omega)
  obtain ⟨h5, h6⟩ := whileLoop_same n _ g2 h3
  exact ⟨g2, U, h3, h4, h6, h5⟩

/-! ## The average -/

theorem avgStep_frame {fl : ℚ → ℚ} (g : Graph) (i : ℕ) :
    (avgStep fl g i).distance = g.distance ∧ (avgStep fl g i).edge = g.edge ∧
      (avgStep fl g i).V = g.V ∧ (avgStep fl g i).MAX_DISTANCE = g.MAX_DISTANCE ∧
      (avgStep fl g i).Q = g.Q := by
  unfold avgStep
  split_ifs <;> exact ⟨rfl, rfl, rfl, rfl, rfl⟩

theorem avgStep_dist {fl : ℚ → ℚ} (g : Graph) (i x : ℕ) : (avgStep fl g i).dist x = g.dist x := by
  unfold Graph.dist
  rw [(avgStep_frame g i).1]

theorem foldl_avgStep {fl : ℚ → ℚ} (l : List ℕ) (g : Graph) :
    (l.foldl (avgStep fl) g).distance = g.distance ∧ (l.foldl (avgStep fl) g).edge = g.edge ∧
      (l.foldl (avgStep fl) g).V = g.V ∧ (l.foldl (avgStep fl) g).MAX_DISTANCE = g.MAX_DISTANCE ∧
      (l.foldl (avgStep fl) g).Q = g.Q ∧
      (l.foldl (avgStep fl) g).adjacent_vertices =
        g.adjacent_vertices - (l.countP (fun i => decide (g.dist i = g.MAX_DISTANCE)) : ℕ) ∧
      (l.foldl (avgStep fl) g).sum =
        sumFrom fl g.sum ((l.filter (fun i => decide (g.dist i ≠ g.MAX_DISTANCE))).map g.dist) := by
  induction l generalizing g with
  | nil => simp [sumFrom]
  | cons a l ih =>
    rw [List.foldl_cons]
    obtain ⟨h1, h2, h3, h4, h5, h6, h7⟩ := ih (avgStep fl g a)
    obtain ⟨k1, k2, k3, k4, k5⟩ := @avgStep_frame fl g a
    have hd : (avgStep fl g a).dist = g.dist := funext (avgStep_dist g a)
    rw [hd, k4] at h6 h7
    refine ⟨h1.trans k1, h2.trans k2, h3.trans k3, h4.trans k4, h5.trans k5, ?_, ?_⟩
    · rw [h6]
      by_cases ha : g.dist a = g.MAX_DISTANCE
      · rw [List.countP_cons_of_pos _ _ (by simpa using ha)]
        have : (avgStep fl g a).adjacent_vertices = g.adjacent_vertices - 1 := by
          unfold avgStep; rw [if_pos ha]
        rw [this]
        push_cast
        ring
      · rw [List.countP_cons_of_neg _ _ (by simpa using ha)]
        have : (avgStep fl g a).adjacent_vertices = g.adjacent_vertices := by
          unfold avgStep; rw [if_neg ha]
        rw [this]
    · rw [h7]
      by_cases ha : g.dist a = g.MAX_DISTANCE
      · rw [List.filter_cons_of_neg (by simpa using ha)]
        have : (avgStep fl g a).sum = g.sum := by
          unfold avgStep; rw [if_pos ha]
        rw [this]
      · rw [List.filter_cons_of_pos (by simpa using ha)]
        have : (avgStep fl g a).sum = fl (g.sum + g.dist a) := by
          unfold avgStep; rw [if_neg ha]
        rw [this, List.map_cons]
        rfl

theorem avgLoop_spec {fl : ℚ → ℚ} (g : Graph) :
    (avgLoop fl g).distance = g.distance ∧ (avgLoop fl g).edge = g.edge ∧
      (avgLoop fl g).V = g.V ∧ (avgLoop fl g).MAX_DISTANCE = g.MAX_DISTANCE ∧
      (avgLoop fl g).Q = g.Q ∧
      (avgLoop fl g).adjacent_vertices = (g.V : ℤ) -
        ((List.range' 2 (g.V - 1)).countP (fun i => decide (g.dist i = g.MAX_DISTANCE)) : ℕ) ∧
      (avgLoop fl g).sum =
        sumFrom fl 0 (((List.range' 2 (g.V - 1)).filter
          (fun i => decide (g.dist i ≠ g.MAX_DISTANCE))).map g.dist) := by
  obtain ⟨h1, h2, h3, h4, h5, h6, h7⟩ := @foldl_avgStep fl (List.range' 2 (g.V - 1))
    { g with sum := 0, adjacent_vertices := (g.V : ℤ) }
  exact ⟨h1, h2, h3, h4, h5, h6, h7⟩

theorem averageDistance_dist {fl : ℚ → ℚ}
    (g : Graph) (x : ℕ) : (averageDistance fl g).1.dist x = g.dist x := by
  show (avgLoop fl g).dist x = g.dist x
  unfold Graph.dist
  rw [(avgLoop_spec g).1]

theorem averageDistance_MAX {fl : ℚ → ℚ} (g : Graph) :
    (averageDistance fl g).1.MAX_DISTANCE = g.MAX_DISTANCE :=
  (avgLoop_spec g).2.2.2.1

theorem averageDistance_Q {fl : ℚ → ℚ} (g : Graph) : (averageDistance fl g).1.Q = g.Q :=
  (avgLoop_spec g).2.2.2.2.1

theorem averageDistance_edge {fl : ℚ → ℚ} (g : Graph) : (averageDistance fl g).1.edge = g.edge :=
  (avgLoop_spec g).2.1

/-- When every vertex of `2..V` is at the sentinel, the divisor is `1`, the sum is `0` and the
quotient returned is `0`. -/
theorem averageDistance_all_max {fl : ℚ → ℚ} (hfl : Rounding fl) (g : Graph) (hV : 1 ≤ g.V)
    (h : ∀ i, 2 ≤ i → i ≤ g.V → g.dist i = g.MAX_DISTANCE) :
    (averageDistance fl g).2 = some 0 := by
  obtain ⟨_, _, _, _, _, h6, h7⟩ := @avgLoop_spec fl g
  have hall : ∀ i ∈ List.range' 2 (g.V - 1), g.dist i = g.MAX_DISTANCE := by
    intro i hi
    rw [List.mem_range'_1] at hi
    exact h i hi.1 (by omega)
  have hc : (List.range' 2 (g.V - 1)).countP (fun i => decide (g.dist i = g.MAX_DISTANCE))
      = g.V - 1 := by
    rw [List.countP_eq_length.mpr (fun i hi => by simpa using hall i hi), List.length_range']
  have hf : (List.range' 2 (g.V - 1)).filter (fun i => decide (g.dist i ≠ g.MAX_DISTANCE))
      = [] := by
    rw [List.filter_eq_nil_iff]
    intro i hi
    simpa using hall i hi
  rw [hc] at h6
  rw [hf] at h7
  have h6b : (avgLoop fl g).adjacent_vertices = 1 := by
    rw [h6]
    omega
  have h7b : (avgLoop fl g).sum = 0 := by
    rw [h7]
    rfl
  show (if (avgLoop fl g).adjacent_vertices = 0 then none
    else some (fl ((avgLoop fl g).sum / ((avgLoop fl g).adjacent_vertices : ℚ)))) = some 0
  rw [h6b, h7b]
  simp [hfl.zero]

/-! ## Paths without repeated vertices -/

theorem Path.rep {fl : ℚ → ℚ} (hfl : Rounding fl) {E : List (List ii)} {s u : ℕ} {c : ℚ}
    {l : List ℕ} (hp : Path fl E s u c l) : fl c = c := by
  cases hp with
  | nil => exact hfl.zero
  | snoc _ _ => exact hfl.idem _

theorem Path.sub {fl : ℚ → ℚ} (hfl : Rounding fl) {E : List (List ii)} {s u : ℕ} {c : ℚ}
    {l : List ℕ} (hnn : ∀ u, ∀ e ∈ E.getD u [], 0 ≤ e.1) (hp : Path fl E s u c l) :
    0 ≤ c ∧ ∀ x ∈ l, ∃ c2 l2, Path fl E s x c2 l2 ∧ l2.Sublist l ∧ c2 ≤ c := by
  induction hp with
  | nil =>
    refine ⟨le_refl _, ?_⟩
    intro x hx
    rw [List.mem_singleton] at hx
    subst hx
    exact ⟨0, [x], Path.nil, List.Sublist.refl _, le_refl _⟩
  | @snoc u v c w l hp he ih =>
    have hw : 0 ≤ w := hnn u _ he
    have hge : c ≤ fl (c + w) := hfl.le_add (hp.rep hfl) hw
    refine ⟨by linarith [ih.1], ?_⟩
    intro x hx
    by_cases hxv : x = v
    · subst hxv
      exact ⟨fl (c + w), x :: l, Path.snoc hp he, List.Sublist.refl _, le_refl _⟩
    · have hxl : x ∈ l := (List.mem_cons.mp hx).resolve_left hxv
      obtain ⟨c2, l2, h1, h2, h3⟩ := ih.2 x hxl
      exact ⟨c2, l2, h1, List.Sublist.cons _ h2, by linarith⟩

theorem Path.simple {fl : ℚ → ℚ} (hfl : Rounding fl) {E : List (List ii)} {s v : ℕ} {c : ℚ}
    {l : List ℕ} (hnn : ∀ u, ∀ e ∈ E.getD u [], 0 ≤ e.1) (hp : Path fl E s v c l) :
    ∃ c2 l2, Path fl E s v c2 l2 ∧ l2.Nodup ∧ c2 ≤ c := by
  induction hp with
  | nil => exact ⟨0, [s], Path.nil, List.nodup_singleton _, le_refl _⟩
  | @snoc u v c w l hp he ih =>
    have hw : 0 ≤ w := hnn u _ he
    have hge : c ≤ fl (c + w) := hfl.le_add (hp.rep hfl) hw
    obtain ⟨c1, l1, h1, h2, h3⟩ := ih
    by_cases hv : v ∈ l1
    · obtain ⟨c2, l2, k1, k2, k3⟩ := (Path.sub hfl hnn h1).2 v hv
      exact ⟨c2, l2, k1, h2.sublist k2, by linarith⟩
    · exact ⟨fl (c1 + w), v :: l1, Path.snoc h1 he, List.nodup_cons.mpr ⟨hv, h2⟩,
        hfl.mono _ _ (by linarith)⟩

theorem Path.in_range {fl : ℚ → ℚ} {E : List (List ii)} {V s v : ℕ} {c : ℚ} {l : List ℕ}
    (hs : 1 ≤ s ∧ s ≤ V) (hnb : ∀ u, ∀ e ∈ E.getD u [], 1 ≤ e.2 ∧ e.2 ≤ V)
    (hp : Path fl E s v c l) : ∀ x ∈ l, 1 ≤ x ∧ x ≤ V := by
  induction hp with
  | nil =>
    intro x hx
    rw [List.mem_singleton] at hx
    rw [hx]
    exact hs
  | @snoc u v c w l _ he ih =>
    intro x hx
    rcases List.mem_cons.mp hx with rfl | hx
    · exact hnb u _ he
    · exact ih x hx

theorem Path.end_mem {fl : ℚ → ℚ} {E : List (List ii)} {s v : ℕ} {c : ℚ} {l : List ℕ}
    (hp : Path fl E s v c l) : v ∈ l := by
  cases hp with
  | nil => exact List.mem_singleton.mpr rfl
  | snoc _ _ => exact List.mem_cons_self _ _

theorem accumulate_rep {fl : ℚ → ℚ} (hfl : Rounding fl) (W : ℚ) (k : ℕ) :
    fl (accumulate fl W k) = accumulate fl W k := by
  cases k with
  | zero => exact hfl.zero
  | succ k => exact hfl.idem _

theorem accumulate_mono {fl : ℚ → ℚ} (hfl : Rounding fl) (W : ℚ) (hW : 0 ≤ W) (k m : ℕ)
    (h : k ≤ m) : accumulate fl W k ≤ accumulate fl W m := by
  induction m with
  | zero =>
    have : k = 0 := by omega
    rw [this]
  | succ m ih =>
    rcases Nat.lt_or_ge k (m + 1) with h1 | h1
    · exact (ih (by omega)).trans (hfl.le_add (accumulate_rep hfl W m) hW)
    · have : k = m + 1 := by omega
      rw [this]

theorem Path.weight_le {fl : ℚ → ℚ} (hfl : Rounding fl) {E : List (List ii)} {s v : ℕ}
    {c W : ℚ} {l : List ℕ}
    (hW : ∀ u, ∀ e ∈ E.getD u [], e.1 ≤ W) (hp : Path fl E s v c l) :
    1 ≤ l.length ∧ c ≤ accumulate fl W (l.length - 1) := by
  induction hp with
  | nil => exact ⟨by simp, le_refl _⟩
  | @snoc u v c w l _ he ih =>
    have hw : w ≤ W := hW u _ he
    obtain ⟨k1, k2⟩ := ih
    refine ⟨by simp, ?_⟩
    have hlen : (v :: l).length - 1 = (l.length - 1) + 1 := by
      rw [List.length_cons]; omega
    rw [hlen]
    show fl (c + w) ≤ fl (accumulate fl W (l.length - 1) + W)
    exact hfl.mono _ _ (by linarith)

theorem length_le_of_nodup_range (V : ℕ) (l : List ℕ) (hn : l.Nodup)
    (hr : ∀ x ∈ l, 1 ≤ x ∧ x ≤ V) : l.length ≤ V := by
  have h1 : l.toFinset ⊆ Finset.Icc 1 V := by
    intro x hx
    rw [List.mem_toFinset] at hx
    exact Finset.mem_Icc.mpr (hr x hx)
  have h2 := Finset.card_le_card h1
  rw [List.toFinset_card_of_nodup hn, Nat.card_Icc] at h2
  omega

/-- In a graph on the vertices `1..V` whose weights lie in `[0, W]`, when `V-1` copies of `W`
added in `double` stay below `INT_MAX`, every reachable vertex is reached by a path whose
weight, added in `double`, is below the sentinel. -/
theorem reachable_below_sentinel {fl : ℚ → ℚ} (hfl : Rounding fl) (E : List (List ii))
    (V s v : ℕ) (W : ℚ)
    (hs : 1 ≤ s ∧ s ≤ V) (hnb : ∀ u, ∀ e ∈ E.getD u [], 1 ≤ e.2 ∧ e.2 ≤ V)
    (hw : ∀ u, ∀ e ∈ E.getD u [], 0 ≤ e.1 ∧ e.1 ≤ W)
    (hb : accumulate fl W (V - 1) < (INT_MAX : ℚ)) (hr : Reachable E s v) :
    ∃ c l, Path fl E s v c l ∧ c < (INT_MAX : ℚ) := by
  obtain ⟨c, l, hp⟩ := hr.path fl
  obtain ⟨c2, l2, h1, h2, _⟩ := Path.simple hfl (fun u e he => (hw u e he).1) hp
  have hlen : l2.length ≤ V := length_le_of_nodup_range V l2 h2 (Path.in_range hs hnb h1)
  obtain ⟨k1, k2⟩ := Path.weight_le hfl (fun u e he => (hw u e he).2) h1
  refine ⟨c2, l2, h1, ?_⟩
  cases h1 with
  | nil => exact INT_MAX_pos
  | @snoc u v c3 w l3 h3 he =>
    have hW : 0 ≤ W := (hw u _ he).1.trans (hw u _ he).2
    exact lt_of_le_of_lt (k2.trans (accumulate_mono hfl W hW _ _ (by omega))) hb

/-! ## What `dijkstra` computes -/

theorem dijkstra_eq {fl : ℚ → ℚ}
    (n s : ℕ) (g g2 : Graph) (h : whileLoop fl n (dijkstraInit s g) = some g2) :
    dijkstra fl n s g = some (averageDistance fl g2) := by
  unfold dijkstra
  rw [h]
  rfl

/-- The distance table at the end of the loop of `dijkstra(s)`, when no vertex reachable from `s`
has an adjacency entry of negative weight: the loop ends, the source is at `0`, no entry exceeds
the sentinel, every adjacency entry of a vertex without negative entries is relaxed, no path is
lighter than the recorded distance, and a distance off the sentinel is the weight of a path. -/
theorem dijkstra_loop_result {fl : ℚ → ℚ} (hfl : Rounding fl) (s : ℕ) (g : Graph)
    (hr : Ready g) (hs : s ≤ g.V) (hnn : NonNegFrom g.edge s) (n : ℕ) (hn : fuelBound g ≤ n) :
    ∃ g2, whileLoop fl n (dijkstraInit s g) = some g2 ∧ g2.Q = [] ∧ SameGraph g g2 ∧
      g2.dist s = 0 ∧ (∀ v, g2.dist v ≤ (INT_MAX : ℚ)) ∧
      (∀ u, (∀ e ∈ g.adj u, 0 ≤ e.1) → Relaxed fl g2 u) ∧
      (∀ v c l, Path fl g.edge s v c l → g2.dist v ≤ c) ∧
      (∀ v, v ≤ g.V → g2.dist v ≠ (INT_MAX : ℚ) → ∃ l, Path fl g.edge s v (g2.dist v) l) := by
  obtain ⟨g2, U, h1, h2, h3, h4⟩ := dijkstra_run hfl s g hr hs hnn n hn
  have hadj : ∀ u, g2.adj u = g.adj u := fun u => by unfold Graph.adj; rw [h4.1]
  have hrel : ∀ u, (∀ e ∈ g.adj u, 0 ≤ e.1) → Relaxed fl g2 u := by
    intro u hnu
    exact h2.relaxed h3 u (by rw [hadj]; exact hnu)
  refine ⟨g2, h1, h3, h4, h2.src, h2.ginv.ub, hrel, ?_, ?_⟩
  · intro v c l hp
    rw [← h4.1] at hp
    refine dist_le_path hfl s g2 (le_of_eq h2.src) ?_ v c l hp
    intro u hu
    exact h2.relaxed h3 u (h2.nn u hu)
  · intro v hv hne
    have := h2.ginv.w v (by rw [h4.1, hr.elen]; omega) hne
    rw [h4.1] at this
    exact this

/-- C1 (amended). For every graph built with addEdge on a fresh Graph(V) whose edge weights are
all non-negative, and every source s in 1..V, dijkstra(s) returns, and every vertex v reached
from s by a path whose weight is below MAX_DISTANCE (INT_MAX) has distance[v] equal to the
minimum, over all paths from s to v, of the sum of the edge weights along the path; the weight
of a path is the sum as dijkstra adds it, in double and edge by edge from s on. The minimum is
attained by a path that repeats no vertex. -/
theorem dijkstra_shortest_path (fl : ℚ → ℚ) (hfl : Rounding fl) (V : ℕ)
    (es : List (ℕ × ℕ × ℚ)) (s v n : ℕ) (c : ℚ) (l : List ℕ)
    (hv : ValidEdges V es) (hnn : NonNeg es) (hs : 1 ≤ s ∧ s ≤ V)
    (hn : fuelBound (build V es) ≤ n) (hp : Path fl (build V es).edge s v c l)
    (hc : c < (INT_MAX : ℚ)) :
    ∃ r, dijkstra fl n s (build V es) = some r ∧
      IsLeast (pathWeights fl (build V es).edge s v) (r.1.dist v) ∧
      ∃ l2, Path fl (build V es).edge s v (r.1.dist v) l2 ∧ l2.Nodup := by
  have hr := build_Ready V es hv
  obtain ⟨g2, h1, _, _, _, _, _, h7, h8⟩ := dijkstra_loop_result hfl s (build V es) hr
    (by rw [build_V]; exact hs.2) (build_nonnegFrom V es hnn s) n hn
  refine ⟨averageDistance fl g2, dijkstra_eq n s _ g2 h1, ?_⟩
  rw [averageDistance_dist]
  have hvV : v ≤ (build V es).V := by
    rw [build_V]
    exact (Path.in_range hs (fun u e he => (hr.nb u e he).2 |> (build_V V es ▸ ·)) hp v
      (Path.end_mem hp)).2
  have hne : g2.dist v ≠ (INT_MAX : ℚ) := ne_of_lt (lt_of_le_of_lt (h7 v c l hp) hc)
  obtain ⟨l1, hl1⟩ := h8 v hvV hne
  refine ⟨⟨⟨l1, hl1⟩, ?_⟩, ?_⟩
  · intro c2 hc2
    obtain ⟨l2, hl2⟩ := hc2
    exact h7 v c2 l2 hl2
  · obtain ⟨c3, l3, k1, k2, k3⟩ := Path.simple hfl (build_nonneg V es hnn) hl1
    have heq : c3 = g2.dist v := le_antisymm k3 (h7 v c3 l3 k1)
    rw [heq] at k1
    exact ⟨l3, k1, k2⟩

/-- C5. For every graph with non-negative weights built on a fresh Graph(V) and every source s
in 1..V, dijkstra(s) returns and the recorded distance of the source is exactly 0. -/
theorem dijkstra_source_distance (fl : ℚ → ℚ) (hfl : Rounding fl) (V : ℕ)
    (es : List (ℕ × ℕ × ℚ)) (s n : ℕ)
    (hv : ValidEdges V es) (hnn : NonNeg es) (hs : 1 ≤ s ∧ s ≤ V)
    (hn : fuelBound (build V es) ≤ n) :
    ∃ r, dijkstra fl n s (build V es) = some r ∧ r.1.dist s = 0 := by
  obtain ⟨g2, h1, _, _, h5, _⟩ := dijkstra_loop_result hfl s (build V es) (build_Ready V es hv)
    (by rw [build_V]; exact hs.2) (build_nonnegFrom V es hnn s) n hn
  refine ⟨averageDistance fl g2, dijkstra_eq n s _ g2 h1, ?_⟩
  rw [averageDistance_dist]
  exact h5

/-- C6. For every graph built on a fresh Graph(V) and every source s in 1..V, whenever
dijkstra(s) terminates every vertex that no path connects to s still has distance equal to the
sentinel MAX_DISTANCE, which is INT_MAX; and when the weights are non-negative dijkstra(s)
does terminate. -/
theorem dijkstra_unreachable_sentinel (fl : ℚ → ℚ) (hfl : Rounding fl) (V : ℕ)
    (es : List (ℕ × ℕ × ℚ)) (s : ℕ)
    (hv : ValidEdges V es) (hs : 1 ≤ s ∧ s ≤ V) :
    (∀ n r, dijkstra fl n s (build V es) = some r → r.1.MAX_DISTANCE = (INT_MAX : ℚ) ∧
      ∀ v, v ≤ V → ¬ Reachable (build V es).edge s v → r.1.dist v = r.1.MAX_DISTANCE) ∧
    (NonNeg es → ∀ n, fuelBound (build V es) ≤ n →
      ∃ r, dijkstra fl n s (build V es) = some r) := by
  have hr := build_Ready V es hv
  have hsV : s ≤ (build V es).V := by rw [build_V]; exact hs.2
  constructor
  · intro n r h
    unfold dijkstra at h
    cases hw : whileLoop fl n (dijkstraInit s (build V es)) with
    | none => rw [hw] at h; simp at h
    | some g2 =>
      rw [hw] at h
      simp only [Option.map_some', Option.some.injEq] at h
      subst h
      have hG := whileLoop_GInv hfl s n _ g2 (init_GInv hfl s _ hr hsV) hw
      obtain ⟨⟨h1, _, h3⟩, _⟩ := whileLoop_same n _ g2 hw
      have hmax : (averageDistance fl g2).1.MAX_DISTANCE = (INT_MAX : ℚ) := by
        rw [averageDistance_MAX, h3]
        exact hr.max
      refine ⟨hmax, ?_⟩
      intro v hvV hnr
      rw [averageDistance_dist, hmax]
      by_contra hne
      obtain ⟨l, hl⟩ := hG.w v (by rw [h1, init_edge, hr.elen, build_V]; omega) hne
      rw [h1, init_edge] at hl
      exact hnr hl.reachable
  · intro hnn n hn
    obtain ⟨g2, h1, _⟩ := dijkstra_loop_result hfl s (build V es) hr hsV
      (build_nonnegFrom V es hnn s) n hn
    exact ⟨averageDistance fl g2, dijkstra_eq n s _ g2 h1⟩

/-- C7 (amended). The sentinel exceeds any feasible path sum: for every graph with V vertices
whose weights lie in [0, W], when the sum of V−1 copies of W, added one by one in double, is
below INT_MAX, and for every source s in 1..V, dijkstra(s) returns and a vertex has distance
different from MAX_DISTANCE if and only if it is reachable from s. -/
theorem dijkstra_sentinel_iff_unreachable (fl : ℚ → ℚ) (hfl : Rounding fl) (V : ℕ)
    (es : List (ℕ × ℕ × ℚ)) (s n : ℕ) (W : ℚ)
    (hv : ValidEdges V es) (hw : ∀ e ∈ es, 0 ≤ e.2.2 ∧ e.2.2 ≤ W)
    (hb : accumulate fl W (V - 1) < (INT_MAX : ℚ)) (hs : 1 ≤ s ∧ s ≤ V)
    (hn : fuelBound (build V es) ≤ n) :
    ∃ r, dijkstra fl n s (build V es) = some r ∧
      ∀ v, v ≤ V → (r.1.dist v ≠ r.1.MAX_DISTANCE ↔ Reachable (build V es).edge s v) := by
  have hr := build_Ready V es hv
  have hnn : NonNeg es := fun e he => (hw e he).1
  obtain ⟨g2, h1, _, h3, _, _, _, h7, h8⟩ := dijkstra_loop_result hfl s (build V es) hr
    (by rw [build_V]; exact hs.2) (build_nonnegFrom V es hnn s) n hn
  refine ⟨averageDistance fl g2, dijkstra_eq n s _ g2 h1, ?_⟩
  intro v hvV
  rw [averageDistance_dist, averageDistance_MAX, h3.2.2, hr.max]
  constructor
  · intro hne
    obtain ⟨l, hl⟩ := h8 v (by rw [build_V]; exact hvV) hne
    exact hl.reachable
  · intro hreach
    have hnb : ∀ u, ∀ e ∈ (build V es).edge.getD u [], 1 ≤ e.2 ∧ e.2 ≤ V := by
      intro u e he
      have := (hr.nb u e he).2
      rw [build_V] at this
      exact this
    have hwE : ∀ u, ∀ e ∈ (build V es).edge.getD u [], 0 ≤ e.1 ∧ e.1 ≤ W := by
      intro u e he
      obtain ⟨t, ht, k1, _⟩ := build_adj_mem V es u e he
      rw [k1]
      exact hw t ht
    obtain ⟨c, l, hp, hc⟩ := reachable_below_sentinel hfl _ V s v W hs hnb hwE hb hreach
    exact ne_of_lt (lt_of_le_of_lt (h7 v c l hp) hc)

/-- C8. For every graph built on a fresh Graph(V) with non-negative edge weights and every source
s in 1..V, the main loop of dijkstra(s) terminates: within fuelBound iterations (pops) the
priority queue is empty. -/
theorem dijkstra_loop_terminates (fl : ℚ → ℚ) (hfl : Rounding fl) (V : ℕ)
    (es : List (ℕ × ℕ × ℚ)) (s n : ℕ)
    (hv : ValidEdges V es) (hnn : NonNeg es) (hs : 1 ≤ s ∧ s ≤ V)
    (hn : fuelBound (build V es) ≤ n) :
    ∃ g2, whileLoop fl n (dijkstraInit s (build V es)) = some g2 ∧ g2.Q = [] := by
  obtain ⟨g2, h1, h2, _⟩ := dijkstra_loop_result hfl s (build V es) (build_Ready V es hv)
    (by rw [build_V]; exact hs.2) (build_nonnegFrom V es hnn s) n hn
  exact ⟨g2, h1, h2⟩

/-- The member `averageDistance` returns a number when `V ≥ 1`: its divisor is at least 1. -/
theorem averageDistance_some {fl : ℚ → ℚ} (g : Graph) (hV : 1 ≤ g.V) :
    1 ≤ (averageDistance fl g).1.adjacent_vertices ∧
      (averageDistance fl g).2 = some (fl ((averageDistance fl g).1.sum /
        ((averageDistance fl g).1.adjacent_vertices : ℚ))) := by
  obtain ⟨_, _, _, _, _, h6, _⟩ := @avgLoop_spec fl g
  have hle : (List.range' 2 (g.V - 1)).countP (fun i => decide (g.dist i = g.MAX_DISTANCE))
      ≤ g.V - 1 := by
    have : (List.range' 2 (g.V - 1)).countP (fun i => decide (g.dist i = g.MAX_DISTANCE))
        ≤ (List.range' 2 (g.V - 1)).length := List.countP_le_length _
    rwa [List.length_range'] at this
  have hpos : 1 ≤ (avgLoop fl g).adjacent_vertices := by
    rw [h6]
    omega
  refine ⟨hpos, ?_⟩
  show (if (avgLoop fl g).adjacent_vertices = 0 then none
    else some (fl ((avgLoop fl g).sum / ((avgLoop fl g).adjacent_vertices : ℚ)))) = _
  rw [if_neg (by omega)]
  rfl

theorem dijkstra_shortest_path_witness :
    (ValidEdges 3 triangle ∧ NonNeg triangle) ∧
      ∃ r, dijkstra roundDouble 8 1 (build 3 triangle) = some r ∧
        IsLeast (pathWeights roundDouble (build 3 triangle).edge 1 3) (r.1.dist 3) ∧
        ∃ l2, Path roundDouble (build 3 triangle).edge 1 3 (r.1.dist 3) l2 ∧ l2.Nodup :=
  ⟨⟨by decide, by decide!⟩,
    dijkstra_shortest_path roundDouble roundDouble_rounding 3 triangle 1 3 8
      (roundDouble (roundDouble (0 + 1) + 2)) [3, 2, 1] (by decide) (by decide!)
      ⟨by decide, by decide⟩ (by decide!)
      (Path.snoc (Path.snoc Path.nil (by decide!)) (by decide!)) (by decide!)⟩

theorem heavy_paths (v : ℕ) (c : ℚ) (l : List ℕ) (hp : Path id (build 2 heavy).edge 1 v c l) :
    (v = 1 ∧ 0 ≤ c) ∨ (v = 2 ∧ 2147483648 ≤ c) := by
  have hE : (build 2 heavy).edge = [[], [(2147483648, 2)], [(2147483648, 1)]] := by decide!
  rw [hE] at hp
  induction hp with
  | nil => exact Or.inl ⟨rfl, le_refl _⟩
  | @snoc u v c w l _ he ih =>
    rcases ih with ⟨rfl, h0⟩ | ⟨rfl, h0⟩
    · simp at he
      obtain ⟨rfl, rfl⟩ := he
      right
      exact ⟨rfl, by simp only [id]; linarith⟩
    · simp at he
      obtain ⟨rfl, rfl⟩ := he
      left
      exact ⟨rfl, by simp only [id]; linarith⟩

/-- C1 (counterexample). On the graph with the single edge 1–2 of weight INT_MAX + 1 (a
non-negative weight), vertex 2 is reachable from 1, dijkstra(1) returns, and distance[2] is not
the minimum of the path weights from 1 to 2: it is still the sentinel INT_MAX. And on the graph
with the edges 1–2 of weight INT_MAX − 2^-22 and 2–3 of weight 3·2^-24 (two doubles), the path
1–2–3 weighs INT_MAX − 2^-24, below the sentinel, yet distance[3] is the sentinel INT_MAX: the
double sum of the two weights is INT_MAX, so the relaxation test fails. -/
theorem dijkstra_shortest_path_counterexample :
    (ValidEdges 2 heavy ∧ NonNeg heavy ∧ Reachable (build 2 heavy).edge 1 2 ∧
      ∃ r, dijkstra roundDouble (fuelBound (build 2 heavy)) 1 (build 2 heavy) = some r ∧
        r.1.dist 2 = 2147483647 ∧
        ¬ IsLeast (pathWeights id (build 2 heavy).edge 1 2) (r.1.dist 2)) ∧
    (ValidEdges 3 nearSentinel ∧ NonNeg nearSentinel ∧
      (∀ e ∈ nearSentinel, roundDouble e.2.2 = e.2.2) ∧
      Path id (build 3 nearSentinel).edge 1 3
        (id (id (0 + (2147483647 - 1 / 4194304)) + 3 / 16777216)) [3, 2, 1] ∧
      id (id (0 + (2147483647 - 1 / 4194304 : ℚ)) + 3 / 16777216) < 2147483647 ∧
      ∃ r, dijkstra roundDouble (fuelBound (build 3 nearSentinel)) 1 (build 3 nearSentinel)
          = some r ∧
        r.1.dist 3 = 2147483647 ∧
        ¬ IsLeast (pathWeights id (build 3 nearSentinel).edge 1 3) (r.1.dist 3)) := by
  constructor
  · refine ⟨by decide, by decide!,
      ⟨id (0 + 2147483648), [2, 1], Path.snoc Path.nil (by decide!)⟩, ?_⟩
    have h : ∃ r, dijkstra roundDouble (fuelBound (build 2 heavy)) 1 (build 2 heavy) = some r ∧
        r.1.dist 2 = 2147483647 := by decide!
    obtain ⟨r, h1, h2⟩ := h
    refine ⟨r, h1, h2, ?_⟩
    rw [h2]
    intro hl
    obtain ⟨l, hp⟩ := hl.1
    rcases heavy_paths 2 _ l hp with ⟨h3, _⟩ | ⟨_, h3⟩
    · omega
    · norm_num at h3
  · have hp : Path id (build 3 nearSentinel).edge 1 3
        (id (id (0 + (2147483647 - 1 / 4194304)) + 3 / 16777216)) [3, 2, 1] :=
      Path.snoc (Path.snoc Path.nil (by decide!)) (by decide!)
    have hlt : id (id (0 + (2147483647 - 1 / 4194304 : ℚ)) + 3 / 16777216) < 2147483647 := by
      simp only [id]; norm_num
    refine ⟨by decide, by decide!, by decide!, hp, hlt, ?_⟩
    have h : ∃ r, dijkstra roundDouble (fuelBound (build 3 nearSentinel)) 1
        (build 3 nearSentinel) = some r ∧ r.1.dist 3 = 2147483647 := by decide!
    obtain ⟨r, h1, h2⟩ := h
    refine ⟨r, h1, h2, ?_⟩
    rw [h2]
    intro hl
    have := hl.2 ⟨_, hp⟩
    linarith

theorem dijkstra_source_distance_witness :
    (ValidEdges 3 triangle ∧ NonNeg triangle) ∧
      ∃ r, dijkstra roundDouble 8 2 (build 3 triangle) = some r ∧ r.1.dist 2 = 0 :=
  ⟨⟨by decide, by decide!⟩,
    dijkstra_source_distance roundDouble roundDouble_rounding 3 triangle 2 8 (by decide)
      (by decide!) ⟨by decide, by decide⟩ (by decide!)⟩

theorem dijkstra_unreachable_sentinel_witness :
    ValidEdges 4 chain ∧
      ((∀ n r, dijkstra roundDouble n 1 (build 4 chain) = some r →
        r.1.MAX_DISTANCE = (INT_MAX : ℚ) ∧
        ∀ v, v ≤ 4 → ¬ Reachable (build 4 chain).edge 1 v → r.1.dist v = r.1.MAX_DISTANCE) ∧
      (NonNeg chain → ∀ n, fuelBound (build 4 chain) ≤ n →
        ∃ r, dijkstra roundDouble n 1 (build 4 chain) = some r)) :=
  ⟨by decide, dijkstra_unreachable_sentinel roundDouble roundDouble_rounding 4 chain 1
    (by decide) ⟨by decide, by decide⟩⟩

theorem dijkstra_sentinel_iff_unreachable_witness :
    (ValidEdges 50 canonical ∧ (∀ e ∈ canonical, (0 : ℚ) ≤ e.2.2 ∧ e.2.2 ≤ 10) ∧
        accumulate roundDouble 10 (50 - 1) < (INT_MAX : ℚ)) ∧
      ∃ r, dijkstra roundDouble 6 1 (build 50 canonical) = some r ∧
        ∀ v, v ≤ 50 → (r.1.dist v ≠ r.1.MAX_DISTANCE ↔ Reachable (build 50 canonical).edge 1 v) :=
  ⟨⟨by decide, by decide!, by decide!⟩,
    dijkstra_sentinel_iff_unreachable roundDouble roundDouble_rounding 50 canonical 1 6 10
      (by decide) (by decide!) (by decide!) ⟨by decide, by decide⟩ (by decide!)⟩

/-- C7 (counterexample). On the chain 1–2–3–4–5–6 whose five edges all weigh W, the double
nearest to 429496729.4, the weights lie in [0, W] and (V−1)·W = INT_MAX − 2^-23 is below INT_MAX,
vertex 6 is reachable from 1, and yet dijkstra(1) leaves distance[6] at MAX_DISTANCE: the double
sum distance[5] + W is INT_MAX, so the relaxation test fails. -/
theorem dijkstra_sentinel_iff_unreachable_counterexample :
    chainWeight = roundDouble (4294967294 / 10) ∧ ValidEdges 6 longChain ∧
      (∀ e ∈ longChain, 0 ≤ e.2.2 ∧ e.2.2 ≤ chainWeight) ∧
      (((6 : ℕ) : ℚ) - 1) * chainWeight < (INT_MAX : ℚ) ∧
      Reachable (build 6 longChain).edge 1 6 ∧
      ∃ r, dijkstra roundDouble (fuelBound (build 6 longChain)) 1 (build 6 longChain) = some r ∧
        r.1.dist 5 ≠ r.1.MAX_DISTANCE ∧ r.1.dist 6 = r.1.MAX_DISTANCE := by
  refine ⟨by decide!, by decide, by decide!, by decide!, ?_, by decide!⟩
  exact ⟨id (id (id (id (id (0 + chainWeight) + chainWeight) + chainWeight) + chainWeight) +
      chainWeight), [6, 5, 4, 3, 2, 1],
    Path.snoc (Path.snoc (Path.snoc (Path.snoc (Path.snoc Path.nil (by decide!)) (by decide!))
      (by decide!)) (by decide!)) (by decide!)⟩

theorem dijkstra_loop_terminates_witness :
    (ValidEdges 3 triangle ∧ NonNeg triangle) ∧
      ∃ g2, whileLoop roundDouble 8 (dijkstraInit 1 (build 3 triangle)) = some g2 ∧ g2.Q = [] :=
  ⟨⟨by decide, by decide!⟩,
    dijkstra_loop_terminates roundDouble roundDouble_rounding 3 triangle 1 8 (by decide)
      (by decide!) ⟨by decide, by decide⟩ (by decide!)⟩

theorem no_edge_path {fl : ℚ → ℚ} (E : List (List ii)) (s : ℕ) (hE : E.getD s [] = [])
    (v : ℕ) (c : ℚ) (l : List ℕ) (hp : Path fl E s v c l) : v = s := by
  induction hp with
  | nil => rfl
  | snoc _ he ih =>
    rw [ih, hE] at he
    exact absurd he (List.not_mem_nil _)

/-- C2 (the code at the failing input). On the complete 5-vertex graph with every weight 1,
dijkstra(1) records distance 1 for each of the vertices 2..5 and returns the double nearest to
4/5 (0.8): the sum 4 is divided by 5, the four reachable vertices and the source. -/
theorem dijkstra_K5_average :
    (dijkstra roundDouble (fuelBound (build 5 K5)) 1 (build 5 K5)).map
        (fun r => (r.1.distance, r.1.sum, r.1.adjacent_vertices, r.2))
      = some ([2147483647, 0, 1, 1, 1, 1], 4, 5, some (roundDouble (4 / 5))) := by
  decide!

/-- C3 (the code at the failing input). On the 2-vertex graph with the edge 1–2 of weight 3,
dijkstra(2) records distance 3 for vertex 1 and 0 for the source 2, adds only the source's
distance[2] = 0 into the sum and returns 0: vertex 1, which is not the source and is off the
sentinel, is left out. -/
theorem dijkstra_source_two_sum :
    (dijkstra roundDouble (fuelBound (build 2 [(1, 2, 3)])) 2 (build 2 [(1, 2, 3)])).map
        (fun r => (r.1.distance, r.1.sum, r.1.adjacent_vertices, r.2))
      = some ([2147483647, 3, 0], 0, 2, some 0) := by
  decide!

/-! ## The random graph generator -/

theorem mcBody_def {fl : ℚ → ℚ} (density weightLO weightHI : ℚ) (i : ℕ) (st : Graph × Rng)
    (j : ℕ) :
    mcBody fl density weightLO weightHI i st j =
      if fl ((st.2.stream st.2.pos : ℚ) / (RAND_MAX : ℚ)) ≤ density then
        (addEdge st.1 i j
          (fl (weightLO + fl (fl (weightHI - weightLO) *
            fl ((st.2.stream (st.2.pos + 1) : ℚ) / (RAND_MAX : ℚ))))),
          { stream := st.2.stream, pos := st.2.pos + 1 + 1 })
      else (st.1, { stream := st.2.stream, pos := st.2.pos + 1 }) := rfl

theorem foldl_preserves {α β : Type} (P : α → Prop) (f : α → β → α)
    (h : ∀ a b, P a → P (f a b)) (l : List β) (a : α) (ha : P a) : P (l.foldl f a) := by
  induction l generalizing a with
  | nil => exact ha
  | cons b l ih => exact ih (f a b) (h a b ha)

theorem foldl_flatMap_eq {α β γ : Type} (f : γ → β → γ) (g : α → List β) (l : List α) (a : γ) :
    (l.flatMap g).foldl f a = l.foldl (fun a1 x => (g x).foldl f a1) a := by
  induction l generalizing a with
  | nil => rfl
  | cons x l ih => rw [List.flatMap_cons, List.foldl_append, List.foldl_cons, ih]

theorem mem_specPairs (n : ℕ) (p : ℕ × ℕ) :
    p ∈ specPairs n ↔ 1 ≤ p.1 ∧ p.1 < p.2 ∧ p.2 ≤ n := by
  unfold specPairs
  simp only [List.mem_flatMap, List.mem_map, List.mem_range'_1]
  constructor
  · rintro ⟨i, hi, j, hj, rfl⟩
    simp only
    omega
  · rintro ⟨h1, h2, h3⟩
    exact ⟨p.1, by omega, p.2, by omega, rfl⟩

theorem specPairs_sorted (n : ℕ) : (specPairs n).Sorted pairLT := by
  unfold specPairs List.Sorted
  rw [List.pairwise_flatMap]
  constructor
  · intro i _
    rw [List.pairwise_map]
    exact (List.pairwise_lt_range' (i + 1) (n - i)).imp (fun h => Or.inr ⟨rfl, h⟩)
  · refine (List.pairwise_lt_range' 1 n).imp ?_
    intro a b hab x hx y hy
    rw [List.mem_map] at hx hy
    obtain ⟨_, _, rfl⟩ := hx
    obtain ⟨_, _, rfl⟩ := hy
    exact Or.inl hab

theorem monteCarlo_eq_specGenerate {fl : ℚ → ℚ} (density weightLO weightHI : ℚ) (st : Graph × Rng) :
    monteCarloSimulation fl density weightLO weightHI st
      = specGenerate fl 50 density weightLO weightHI st := by
  unfold monteCarloSimulation specGenerate specPairs
  rw [foldl_flatMap_eq]
  simp only [List.foldl_map]

theorem addEdge_adj_other (g : Graph) (u v : ℕ) (w : ℚ) (x : ℕ) (hu : x ≠ u) (hv : x ≠ v) :
    (addEdge g u v w).adj x = g.adj x := by
  unfold Graph.adj
  rw [addEdge_edge, getD_set_ne _ _ _ (Ne.symm hv), getD_set_ne _ _ _ (Ne.symm hu)]

theorem foldl_preserves_mem {α β : Type} (P : α → Prop) (f : α → β → α) (l : List β)
    (h : ∀ a, ∀ b ∈ l, P a → P (f a b)) (a : α) (ha : P a) : P (l.foldl f a) := by
  induction l generalizing a with
  | nil => exact ha
  | cons b l ih =>
    exact ih (fun a1 b1 hb1 => h a1 b1 (List.mem_cons_of_mem _ hb1)) (f a b)
      (h a b (List.mem_cons_self _ _) ha)

/-- The loops of `monteCarloSimulation` never touch the adjacency list of a vertex above 50. -/
theorem monteCarlo_adj_above {fl : ℚ → ℚ} (density weightLO weightHI : ℚ) (st : Graph × Rng)
    (x : ℕ) (hx : 50 < x) :
    (monteCarloSimulation fl density weightLO weightHI st).1.adj x = st.1.adj x := by
  unfold monteCarloSimulation
  refine foldl_preserves_mem (fun a : Graph × Rng => a.1.adj x = st.1.adj x) _ _ ?_ st rfl
  intro a i hi ha
  refine foldl_preserves_mem (fun b : Graph × Rng => b.1.adj x = st.1.adj x) _ _ ?_ a ha
  intro b j hj hb
  rw [List.mem_range'_1] at hi hj
  rw [mcBody_def]
  split_ifs
  · show (addEdge b.1 i j _).adj x = st.1.adj x
    rw [addEdge_adj_other _ _ _ _ _ (by omega) (by omega)]
    exact hb
  · exact hb

/-! ## The fixed point, the divisor and the sentinel -/

/-- C20. After dijkstra(s) on a graph built on a fresh Graph(V) with non-negative weights, for
every source s in 1..V, dijkstra(s) returns and the distance table is a fixed point of
relaxation: for every vertex u and every adjacency entry (v, w) of u,
distance[v] ≤ distance[u] + w, the sum being the double sum that the relaxation test
computes. -/
theorem dijkstra_fixed_point (fl : ℚ → ℚ) (hfl : Rounding fl) (V : ℕ)
    (es : List (ℕ × ℕ × ℚ)) (s n : ℕ)
    (hv : ValidEdges V es) (hnn : NonNeg es) (hs : 1 ≤ s ∧ s ≤ V)
    (hn : fuelBound (build V es) ≤ n) :
    ∃ r, dijkstra fl n s (build V es) = some r ∧
      ∀ u, ∀ e ∈ r.1.adj u, r.1.dist e.2 ≤ fl (r.1.dist u + e.1) := by
  obtain ⟨g2, h1, _, _, _, _, h6, _⟩ := dijkstra_loop_result hfl s (build V es)
    (build_Ready V es hv) (by rw [build_V]; exact hs.2) (build_nonnegFrom V es hnn s) n hn
  refine ⟨averageDistance fl g2, dijkstra_eq n s _ g2 h1, ?_⟩
  intro u e he
  unfold Graph.adj at he
  rw [averageDistance_edge] at he
  rw [averageDistance_dist, averageDistance_dist]
  exact h6 u (build_nonneg V es hnn u) e he

theorem dijkstra_fixed_point_witness :
    (ValidEdges 3 triangle ∧ NonNeg triangle) ∧
      ∃ r, dijkstra roundDouble 8 1 (build 3 triangle) = some r ∧
        ∀ u, ∀ e ∈ r.1.adj u, r.1.dist e.2 ≤ roundDouble (r.1.dist u + e.1) :=
  ⟨⟨by decide, by decide!⟩,
    dijkstra_fixed_point roundDouble roundDouble_rounding 3 triangle 1 8 (by decide)
      (by decide!) ⟨by decide, by decide⟩ (by decide!)⟩

/-- C19. For every V ≥ 1 and every distance table, the divisor used by averageDistance equals
1 + the number of vertices i in 2..V with distance[i] ≠ MAX_DISTANCE, hence is at least 1 and
the division is never by zero: the quotient sum/adjacent_vertices is returned; when every vertex
in 2..V is at the sentinel the function returns exactly 0. -/
theorem averageDistance_divisor (fl : ℚ → ℚ) (hfl : Rounding fl) (g : Graph) (hV : 1 ≤ g.V) :
    (averageDistance fl g).1.adjacent_vertices =
        1 + ((List.range' 2 (g.V - 1)).countP
          (fun i => decide (g.dist i ≠ g.MAX_DISTANCE)) : ℕ) ∧
      1 ≤ (averageDistance fl g).1.adjacent_vertices ∧
      (averageDistance fl g).2 =
        some (fl ((averageDistance fl g).1.sum /
          ((averageDistance fl g).1.adjacent_vertices : ℚ))) ∧
      ((∀ i, 2 ≤ i → i ≤ g.V → g.dist i = g.MAX_DISTANCE) →
        (averageDistance fl g).2 = some 0) := by
  obtain ⟨_, _, _, _, _, h6, _⟩ := @avgLoop_spec fl g
  have hlen : (List.range' 2 (g.V - 1)).countP (fun i => decide (g.dist i = g.MAX_DISTANCE)) +
      (List.range' 2 (g.V - 1)).countP (fun i => decide (g.dist i ≠ g.MAX_DISTANCE)) =
        g.V - 1 := by
    have h := List.length_eq_countP_add_countP
      (fun i => decide (g.dist i = g.MAX_DISTANCE)) (List.range' 2 (g.V - 1))
    rw [List.length_range'] at h
    have h2 : (List.range' 2 (g.V - 1)).countP (fun i => decide (g.dist i ≠ g.MAX_DISTANCE)) =
        (List.range' 2 (g.V - 1)).countP
          (fun a => decide ¬decide (g.dist a = g.MAX_DISTANCE) = true) := by
      apply List.countP_congr
      intro x _
      simp
    rw [h2]
    exact h.symm
  have hdiv : (averageDistance fl g).1.adjacent_vertices =
      1 + ((List.range' 2 (g.V - 1)).countP
        (fun i => decide (g.dist i ≠ g.MAX_DISTANCE)) : ℕ) := by
    show (avgLoop fl g).adjacent_vertices = _
    rw [h6]
    omega
  exact ⟨hdiv, (averageDistance_some g hV).1, (averageDistance_some g hV).2,
    averageDistance_all_max hfl g hV⟩

theorem averageDistance_divisor_witness :
    1 ≤ (build 3 triangle).V ∧
      ((averageDistance roundDouble (build 3 triangle)).1.adjacent_vertices =
        1 + ((List.range' 2 ((build 3 triangle).V - 1)).countP
          (fun i => decide ((build 3 triangle).dist i ≠ (build 3 triangle).MAX_DISTANCE)) : ℕ) ∧
      1 ≤ (averageDistance roundDouble (build 3 triangle)).1.adjacent_vertices ∧
      (averageDistance roundDouble (build 3 triangle)).2 =
        some (roundDouble ((averageDistance roundDouble (build 3 triangle)).1.sum /
          ((averageDistance roundDouble (build 3 triangle)).1.adjacent_vertices : ℚ))) ∧
      ((∀ i, 2 ≤ i → i ≤ (build 3 triangle).V →
          (build 3 triangle).dist i = (build 3 triangle).MAX_DISTANCE) →
        (averageDistance roundDouble (build 3 triangle)).2 = some 0)) :=
  ⟨by decide, averageDistance_divisor roundDouble roundDouble_rounding (build 3 triangle)
    (by decide)⟩

/-- C18 (amended). For every graph built on a fresh Graph(V) with non-negative weights and every
source s in 1..V, dijkstra(s) returns and each vertex v has distance[v] = min(MAX_DISTANCE,
δ(s, v)), where δ(s, v) is the least weight of a path from s to v, the weight of a path being
the sum of its edge weights as dijkstra adds it, in double and edge by edge from s on: the
distance is the least element of the set made of the sentinel MAX_DISTANCE = INT_MAX and of
these path weights. In particular a vertex all of whose paths weigh at least INT_MAX keeps the
sentinel, and averageDistance counts it with the unreachable ones: adjacent_vertices is V minus
the number of vertices of 2..V at the sentinel, and only the others are summed. -/
theorem dijkstra_min_sentinel (fl : ℚ → ℚ) (hfl : Rounding fl) (V : ℕ)
    (es : List (ℕ × ℕ × ℚ)) (s n : ℕ)
    (hv : ValidEdges V es) (hnn : NonNeg es) (hs : 1 ≤ s ∧ s ≤ V)
    (hn : fuelBound (build V es) ≤ n) :
    ∃ r, dijkstra fl n s (build V es) = some r ∧ r.1.MAX_DISTANCE = (INT_MAX : ℚ) ∧
      (∀ v, v ≤ V →
        IsLeast (insert r.1.MAX_DISTANCE (pathWeights fl (build V es).edge s v)) (r.1.dist v)) ∧
      (∀ v, v ≤ V → (∀ c ∈ pathWeights fl (build V es).edge s v, (INT_MAX : ℚ) ≤ c) →
        r.1.dist v = r.1.MAX_DISTANCE) ∧
      r.1.adjacent_vertices = (V : ℤ) -
        ((List.range' 2 (V - 1)).countP (fun i => decide (r.1.dist i = r.1.MAX_DISTANCE)) : ℕ) ∧
      r.1.sum = sumFrom fl 0 (((List.range' 2 (V - 1)).filter
        (fun i => decide (r.1.dist i ≠ r.1.MAX_DISTANCE))).map r.1.dist) := by
  have hr := build_Ready V es hv
  obtain ⟨g2, h1, _, h3, _, h5, _, h7, h8⟩ := dijkstra_loop_result hfl s (build V es) hr
    (by rw [build_V]; exact hs.2) (build_nonnegFrom V es hnn s) n hn
  have hmax : (averageDistance fl g2).1.MAX_DISTANCE = (INT_MAX : ℚ) := by
    rw [averageDistance_MAX, h3.2.2]
    exact hr.max
  have hd : (averageDistance fl g2).1.dist = g2.dist := funext (averageDistance_dist g2)
  have hleast : ∀ v, v ≤ V →
      IsLeast (insert (INT_MAX : ℚ) (pathWeights fl (build V es).edge s v)) (g2.dist v) := by
    intro v hvV
    constructor
    · by_cases hne : g2.dist v = (INT_MAX : ℚ)
      · exact Or.inl hne
      · exact Or.inr (h8 v (by rw [build_V]; exact hvV) hne)
    · intro b hb
      rcases hb with rfl | ⟨l, hl⟩
      · exact h5 v
      · exact h7 v b l hl
  refine ⟨averageDistance fl g2, dijkstra_eq n s _ g2 h1, hmax, ?_, ?_, ?_, ?_⟩
  · intro v hvV
    rw [hmax, hd]
    exact hleast v hvV
  · intro v hvV hall
    rw [hmax, hd]
    rcases (hleast v hvV).1 with h | ⟨l, hl⟩
    · exact h
    · exact le_antisymm (h5 v) (hall _ ⟨l, hl⟩)
  · have h6 := (@avgLoop_spec fl g2).2.2.2.2.2.1
    rw [h3.2.1, build_V, h3.2.2, hr.max] at h6
    rw [hmax, hd]
    exact h6
  · have h6 := (@avgLoop_spec fl g2).2.2.2.2.2.2
    rw [h3.2.1, build_V, h3.2.2, hr.max] at h6
    rw [hmax, hd]
    exact h6

theorem dijkstra_min_sentinel_witness :
    (ValidEdges 2 heavy ∧ NonNeg heavy) ∧
      ∃ r, dijkstra roundDouble 4 1 (build 2 heavy) = some r ∧
        r.1.MAX_DISTANCE = (INT_MAX : ℚ) ∧
        (∀ v, v ≤ 2 →
          IsLeast (insert r.1.MAX_DISTANCE (pathWeights roundDouble (build 2 heavy).edge 1 v))
            (r.1.dist v)) ∧
        (∀ v, v ≤ 2 →
          (∀ c ∈ pathWeights roundDouble (build 2 heavy).edge 1 v, (INT_MAX : ℚ) ≤ c) →
          r.1.dist v = r.1.MAX_DISTANCE) ∧
        r.1.adjacent_vertices = ((2 : ℕ) : ℤ) -
          ((List.range' 2 (2 - 1)).countP
            (fun i => decide (r.1.dist i = r.1.MAX_DISTANCE)) : ℕ) ∧
        r.1.sum = sumFrom roundDouble 0 (((List.range' 2 (2 - 1)).filter
          (fun i => decide (r.1.dist i ≠ r.1.MAX_DISTANCE))).map r.1.dist) :=
  ⟨⟨by decide, by decide!⟩,
    dijkstra_min_sentinel roundDouble roundDouble_rounding 2 heavy 1 4 (by decide) (by decide!)
      ⟨by decide, by decide⟩ (by decide!)⟩

/-- C18 (counterexample). On the graph with the edges 1–2 of weight INT_MAX − 1 and 2–3 of
weight 1 − 2^-24 (two doubles, both non-negative), the only simple path from 1 to 3 weighs
INT_MAX − 2^-24, so the true shortest-path weight δ(1, 3) is below INT_MAX; yet dijkstra(1)
leaves distance[3] at MAX_DISTANCE = INT_MAX, which is not min(MAX_DISTANCE, δ(1, 3)), and
averageDistance counts vertex 3 with the unreachable ones (adjacent_vertices = 3 − 1). -/
theorem dijkstra_min_sentinel_counterexample :
    ValidEdges 3 belowSentinel ∧ NonNeg belowSentinel ∧
      (∀ e ∈ belowSentinel, roundDouble e.2.2 = e.2.2) ∧
      Path id (build 3 belowSentinel).edge 1 3
        (id (id (0 + 2147483646) + (1 - 1 / 16777216))) [3, 2, 1] ∧
      id (id (0 + (2147483646 : ℚ)) + (1 - 1 / 16777216)) < 2147483647 ∧
      ∃ r, dijkstra roundDouble (fuelBound (build 3 belowSentinel)) 1 (build 3 belowSentinel)
          = some r ∧
        r.1.MAX_DISTANCE = 2147483647 ∧ r.1.dist 3 = 2147483647 ∧ r.1.adjacent_vertices = 2 ∧
        ¬ IsLeast (insert r.1.MAX_DISTANCE (pathWeights id (build 3 belowSentinel).edge 1 3))
          (r.1.dist 3) := by
  have hp : Path id (build 3 belowSentinel).edge 1 3
      (id (id (0 + 2147483646) + (1 - 1 / 16777216))) [3, 2, 1] :=
    Path.snoc (Path.snoc Path.nil (by decide!)) (by decide!)
  have hlt : id (id (0 + (2147483646 : ℚ)) + (1 - 1 / 16777216)) < 2147483647 := by
    simp only [id]; norm_num
  refine ⟨by decide, by decide!, by decide!, hp, hlt, ?_⟩
  have h : ∃ r, dijkstra roundDouble (fuelBound (build 3 belowSentinel)) 1
      (build 3 belowSentinel) = some r ∧ r.1.MAX_DISTANCE = 2147483647 ∧
      r.1.dist 3 = 2147483647 ∧ r.1.adjacent_vertices = 2 := by decide!
  obtain ⟨r, h1, h2, h3, h4⟩ := h
  refine ⟨r, h1, h2, h3, h4, ?_⟩
  rw [h3]
  intro hl
  have := hl.2 (Or.inr ⟨_, hp⟩)
  linarith

/-! ## The run of the loop, iteration by iteration -/

theorem relax_write {fl : ℚ → ℚ} (v : ℕ) (g : Graph) (e : ii) :
    (relax fl v g e).distance = g.distance ∨
      ((relax fl v g e).distance = g.distance.set e.2 (fl (g.dist v + e.1)) ∧
        fl (g.dist v + e.1) < g.dist e.2) := by
  rw [relax_def]
  split_ifs with h
  · exact Or.inr ⟨rfl, h⟩
  · exact Or.inl rfl

theorem relax_mono {fl : ℚ → ℚ}
    (v : ℕ) (g : Graph) (e : ii) (x : ℕ) : (relax fl v g e).dist x ≤ g.dist x := by
  rcases relax_write v g e with h | ⟨h, hlt⟩
  · unfold Graph.dist
    rw [h]
  · unfold Graph.dist at hlt ⊢
    rw [h]
    by_cases hx : e.2 = x
    · by_cases hl : e.2 < g.distance.length
      · rw [← hx, getD_set_self _ _ _ _ hl]
        exact le_of_lt hlt
      · rw [List.set_eq_of_length_le (not_lt.mp hl)]
    · rw [getD_set_ne _ _ _ hx]

theorem foldl_relax_mono {fl : ℚ → ℚ} (v : ℕ) (l : List ii) (g : Graph) (x : ℕ) :
    (l.foldl (relax fl v) g).dist x ≤ g.dist x := by
  induction l generalizing g with
  | nil => exact le_refl _
  | cons e l ih =>
    rw [List.foldl_cons]
    exact le_trans (ih (relax fl v g e)) (relax_mono v g e x)

theorem loopBody_mono {fl : ℚ → ℚ}
    (g : Graph) (top : ii) (x : ℕ) : (loopBody fl g top).dist x ≤ g.dist x := by
  rw [loopBody_def]
  split_ifs
  · exact foldl_relax_mono _ _ _ x
  · exact le_refl _

theorem whileSteps_nil {fl : ℚ → ℚ} (k : ℕ) (g : Graph) (h : g.Q = []) : whileSteps fl k g = g := by
  cases k with
  | zero => rfl
  | succ k =>
    unfold whileSteps
    rw [h]

theorem whileSteps_cons {fl : ℚ → ℚ} (k : ℕ) (g : Graph) (top : ii) (rest : List ii)
    (h : g.Q = top :: rest) :
    whileSteps fl (k + 1) g = whileSteps fl k (loopBody fl { g with Q := rest } top) := by
  rw [whileSteps]
  rw [h]

theorem whileSteps_add {fl : ℚ → ℚ} (a b : ℕ) (g : Graph) :
    whileSteps fl (a + b) g = whileSteps fl b (whileSteps fl a g) := by
  induction a generalizing g with
  | zero => rw [Nat.zero_add]; rfl
  | succ a ih =>
    cases hq : g.Q with
    | nil => rw [whileSteps_nil _ g hq, whileSteps_nil _ g hq, whileSteps_nil _ g hq]
    | cons top rest =>
      rw [show a + 1 + b = (a + b) + 1 by omega, whileSteps_cons _ g top rest hq,
        whileSteps_cons _ g top rest hq, ih]

theorem whileSteps_one_mono {fl : ℚ → ℚ}
    (g : Graph) (x : ℕ) : (whileSteps fl 1 g).dist x ≤ g.dist x := by
  cases hq : g.Q with
  | nil => rw [whileSteps_nil _ g hq]
  | cons top rest =>
    rw [whileSteps_cons 0 g top rest hq]
    exact loopBody_mono _ top x

theorem whileSteps_mono {fl : ℚ → ℚ} (g : Graph) (k m : ℕ) (x : ℕ) :
    (whileSteps fl (k + m) g).dist x ≤ (whileSteps fl k g).dist x := by
  induction m with
  | zero => exact le_refl _
  | succ m ih =>
    rw [show k + (m + 1) = (k + m) + 1 by omega, whileSteps_add (k + m) 1]
    exact le_trans (whileSteps_one_mono _ x) ih

theorem whileLoop_eq_whileSteps {fl : ℚ → ℚ}
    (n : ℕ) (g g2 : Graph) (h : whileLoop fl n g = some g2) :
    g2 = whileSteps fl n g ∧ ∀ k, n ≤ k → whileSteps fl k g = g2 := by
  induction n generalizing g with
  | zero => simp [whileLoop] at h
  | succ n ih =>
    unfold whileLoop at h
    cases hq : g.Q with
    | nil =>
      rw [hq] at h
      simp only [Option.some.injEq] at h
      subst h
      exact ⟨(whileSteps_nil _ g hq).symm, fun k _ => whileSteps_nil k g hq⟩
    | cons top rest =>
      rw [hq] at h
      obtain ⟨h1, h2⟩ := ih _ h
      refine ⟨by rw [whileSteps_cons n g top rest hq]; exact h1, ?_⟩
      intro k hk
      obtain ⟨k2, rfl⟩ : ∃ k2, k = k2 + 1 := ⟨k - 1, by omega⟩
      rw [whileSteps_cons k2 g top rest hq]
      exact h2 k2 (by omega)

/-- C15. Monotonicity of relaxation: every write to a vertex's recorded distance by the
relaxation step of dijkstra stores a value strictly smaller than the value it replaces, so each
entry of the distance table is non-increasing over the course of the run: the table after j
iterations of the loop is entrywise below the table after k ≤ j iterations, and the table
dijkstra ends with is the one after its last iteration. -/
theorem relaxation_monotone (fl : ℚ → ℚ) (g : Graph) (v : ℕ) (e : ii) (k j x : ℕ)
    (hkj : k ≤ j) :

    ((relax fl v g e).distance = g.distance ∨
      ((relax fl v g e).distance = g.distance.set e.2 (fl (g.dist v + e.1)) ∧
        fl (g.dist v + e.1) < g.dist e.2)) ∧
    (relax fl v g e).dist x ≤ g.dist x ∧
    (whileSteps fl j g).dist x ≤ (whileSteps fl k g).dist x ∧
    (∀ n g2, whileLoop fl n g = some g2 →
      g2 = whileSteps fl n g ∧ g2.dist x ≤ (whileSteps fl k g).dist x) := by
  refine ⟨relax_write v g e, relax_mono v g e x, ?_, ?_⟩
  · obtain ⟨m, rfl⟩ : ∃ m, j = k + m := ⟨j - k, by omega⟩
    exact whileSteps_mono g k m x
  · intro n g2 h
    obtain ⟨h1, h2⟩ := whileLoop_eq_whileSteps n g g2 h
    refine ⟨h1, ?_⟩
    have h3 := @whileSteps_mono fl g k n x
    rw [h2 (k + n) (by omega)] at h3
    exact h3

theorem relaxation_monotone_witness :
    (0 : ℕ) ≤ 1 ∧
      (((relax roundDouble 1 (dijkstraInit 1 (build 3 triangle)) (1, 2)).distance =
          (dijkstraInit 1 (build 3 triangle)).distance ∨
        ((relax roundDouble 1 (dijkstraInit 1 (build 3 triangle)) (1, 2)).distance =
            (dijkstraInit 1 (build 3 triangle)).distance.set 2
              (roundDouble ((dijkstraInit 1 (build 3 triangle)).dist 1 + 1)) ∧
          roundDouble ((dijkstraInit 1 (build 3 triangle)).dist 1 + 1) <
            (dijkstraInit 1 (build 3 triangle)).dist 2)) ∧
      (relax roundDouble 1 (dijkstraInit 1 (build 3 triangle)) (1, 2)).dist 2 ≤
        (dijkstraInit 1 (build 3 triangle)).dist 2 ∧
      (whileSteps roundDouble 1 (dijkstraInit 1 (build 3 triangle))).dist 2 ≤
        (whileSteps roundDouble 0 (dijkstraInit 1 (build 3 triangle))).dist 2 ∧
      (∀ n g2, whileLoop roundDouble n (dijkstraInit 1 (build 3 triangle)) = some g2 →
        g2 = whileSteps roundDouble n (dijkstraInit 1 (build 3 triangle)) ∧
          g2.dist 2 ≤ (whileSteps roundDouble 0 (dijkstraInit 1 (build 3 triangle))).dist 2)) :=
  ⟨by decide,
    relaxation_monotone roundDouble (dijkstraInit 1 (build 3 triangle)) 1 (1, 2) 0 1 2
      (by decide)⟩

/-! ## Edge symmetry, self-loops and parallel edges -/

theorem addEdge_adj (g : Graph) (u v : ℕ) (w : ℚ) (x : ℕ) (hu : u < g.edge.length)
    (hv : v < g.edge.length) :
    (addEdge g u v w).adj x =
      g.adj x ++ (if x = u then [(w, v)] else []) ++ (if x = v then [(w, u)] else []) := by
  unfold Graph.adj
  rw [addEdge_edge]
  have hv1 : v < (g.edge.set u (g.edge.getD u [] ++ [(w, v)])).length := by
    rw [List.length_set]; exact hv
  by_cases hxv : x = v
  · subst hxv
    rw [getD_set_self _ _ _ _ hv1, if_pos rfl]
    by_cases hxu : x = u
    · subst hxu
      rw [getD_set_self _ _ _ _ hu, if_pos rfl]
    · rw [getD_set_ne _ _ _ (Ne.symm hxu), if_neg hxu, List.append_nil]
  · rw [getD_set_ne _ _ _ (Ne.symm hxv), if_neg hxv, List.append_nil]
    by_cases hxu : x = u
    · subst hxu
      rw [getD_set_self _ _ _ _ hu, if_pos rfl]
    · rw [getD_set_ne _ _ _ (Ne.symm hxu), if_neg hxu, List.append_nil]

theorem count_ite_singleton (c : Prop) [Decidable c] (a b : ii) :
    (if c then [a] else []).count b = if c ∧ a = b then 1 else 0 := by
  by_cases hc : c
  · rw [if_pos hc]
    by_cases hab : a = b
    · rw [if_pos ⟨hc, hab⟩, hab]
      simp
    · rw [if_neg (fun h => hab h.2)]
      exact List.count_eq_zero.mpr (by simpa using Ne.symm hab)
  · rw [if_neg hc, if_neg (fun h => hc h.1)]
    rfl

theorem addEdge_Symmetric (g : Graph) (u v : ℕ) (w : ℚ) (hg : Symmetric g)
    (hu : u < g.edge.length) (hv : v < g.edge.length) : Symmetric (addEdge g u v w) := by
  intro a b w2
  rw [addEdge_adj g u v w a hu hv, addEdge_adj g u v w b hu hv]
  simp only [List.count_append, count_ite_singleton, Prod.mk.injEq]
  rw [hg a b w2]
  have e1 : (a = u ∧ w = w2 ∧ v = b) ↔ (b = v ∧ w = w2 ∧ u = a) := by
    constructor <;> rintro ⟨h1, h2, h3⟩ <;> exact ⟨h3.symm, h2, h1.symm⟩
  have e2 : (a = v ∧ w = w2 ∧ u = b) ↔ (b = u ∧ w = w2 ∧ v = a) := by
    constructor <;> rintro ⟨h1, h2, h3⟩ <;> exact ⟨h3.symm, h2, h1.symm⟩
  simp only [e1, e2]
  omega

theorem ctor_Symmetric (V : ℕ) : Symmetric (Graph.ctor V) := by
  intro a b w
  rw [ctor_adj, ctor_adj]
  rfl

theorem foldl_addEdge_Symmetric (es : List (ℕ × ℕ × ℚ)) (g : Graph) (hg : Symmetric g)
    (hr : ∀ e ∈ es, e.1 < g.edge.length ∧ e.2.1 < g.edge.length) :
    Symmetric (es.foldl (fun g e => addEdge g e.1 e.2.1 e.2.2) g) := by
  induction es generalizing g with
  | nil => exact hg
  | cons t es ih =>
    rw [List.foldl_cons]
    have ht := hr t (List.mem_cons_self _ _)
    apply ih _ (addEdge_Symmetric g _ _ _ hg ht.1 ht.2)
    intro e he
    rw [addEdge_length]
    exact hr e (List.mem_cons_of_mem _ he)

theorem build_length (V : ℕ) (es : List (ℕ × ℕ × ℚ)) : (build V es).edge.length = V + 1 := by
  unfold build
  rw [(foldl_addEdge_fields es (Graph.ctor V)).2.2.2.2]
  simp [Graph.ctor]

theorem build_Symmetric (V : ℕ) (es : List (ℕ × ℕ × ℚ)) (hv : ValidEdges V es) :
    Symmetric (build V es) := by
  apply foldl_addEdge_Symmetric es _ (ctor_Symmetric V)
  intro e he
  have h := hv e he
  simp only [Graph.ctor, List.length_replicate]
  omega

theorem mcBody_length {fl : ℚ → ℚ}
    (density weightLO weightHI : ℚ) (i : ℕ) (st : Graph × Rng) (j : ℕ) :
    (mcBody fl density weightLO weightHI i st j).1.edge.length = st.1.edge.length := by
  rw [mcBody_def]
  split_ifs
  · exact addEdge_length _ _ _ _
  · rfl

theorem mcBody_stream {fl : ℚ → ℚ}
    (density weightLO weightHI : ℚ) (i : ℕ) (st : Graph × Rng) (j : ℕ) :
    (mcBody fl density weightLO weightHI i st j).2.stream = st.2.stream := by
  rw [mcBody_def]
  split_ifs <;> rfl

theorem monteCarlo_flat {fl : ℚ → ℚ} (density weightLO weightHI : ℚ) (st : Graph × Rng) :
    monteCarloSimulation fl density weightLO weightHI st =
      (specPairs 50).foldl (fun a p => mcBody fl density weightLO weightHI p.1 a p.2) st :=
  monteCarlo_eq_specGenerate density weightLO weightHI st

theorem monteCarlo_Symmetric {fl : ℚ → ℚ} (density weightLO weightHI : ℚ) (st : Graph × Rng)
    (hg : Symmetric st.1) (hl : 50 < st.1.edge.length) :
    Symmetric (monteCarloSimulation fl density weightLO weightHI st).1 := by
  rw [monteCarlo_flat]
  refine (foldl_preserves_mem
    (fun a : Graph × Rng => Symmetric a.1 ∧ 50 < a.1.edge.length) _ _ ?_ st ⟨hg, hl⟩).1
  intro a p hp ⟨h1, h2⟩
  rw [mem_specPairs] at hp
  refine ⟨?_, by rw [mcBody_length]; exact h2⟩
  rw [mcBody_def]
  split_ifs
  · exact addEdge_Symmetric _ _ _ _ h1 (by omega) (by omega)
  · exact h1

/-- C11. Edge symmetry is an invariant of the graph: starting from a fresh Graph(V), after any
sequence of addEdge calls on vertices of 1..V, and after monteCarloSimulation on the result when
the graph has at least 50 vertices, the adjacency list of u contains the entry (v, w) exactly as
many times as the adjacency list of v contains the entry (u, w), for all u, v and w. -/
theorem edge_symmetry (fl : ℚ → ℚ) (V : ℕ) (es : List (ℕ × ℕ × ℚ))
    (density weightLO weightHI : ℚ) (r : Rng) (hv : ValidEdges V es) :
    (∀ (u v : ℕ) (w : ℚ), ((build V es).adj u).count (w, v) = ((build V es).adj v).count (w, u)) ∧
      (50 ≤ V → ∀ (u v : ℕ) (w : ℚ),
        ((monteCarloSimulation fl density weightLO weightHI (build V es, r)).1.adj u).count (w, v) =
          ((monteCarloSimulation fl density weightLO weightHI (build V es, r)).1.adj v).count
            (w, u)) :=
  ⟨build_Symmetric V es hv, fun hV =>
    monteCarlo_Symmetric density weightLO weightHI (build V es, r) (build_Symmetric V es hv)
      (by rw [build_length]; omega)⟩

theorem edge_symmetry_witness :
    ValidEdges 50 canonical ∧
      ((∀ (u v : ℕ) (w : ℚ),
        ((build 50 canonical).adj u).count (w, v) = ((build 50 canonical).adj v).count (w, u)) ∧
      (50 ≤ 50 → ∀ (u v : ℕ) (w : ℚ),
        ((monteCarloSimulation roundDouble (1 / 5) 1 10
            (build 50 canonical, zeroDraws)).1.adj u).count (w, v) =
          ((monteCarloSimulation roundDouble (1 / 5) 1 10
            (build 50 canonical, zeroDraws)).1.adj v).count (w, u))) :=
  ⟨by decide, edge_symmetry roundDouble 50 canonical (1 / 5) 1 10 zeroDraws (by decide)⟩

theorem mcBody_simple {fl : ℚ → ℚ} (density weightLO weightHI : ℚ) (done : List (ℕ × ℕ)) (p : ℕ × ℕ)
    (st : Graph × Rng) (hp : p.1 < p.2 ∧ p.2 < st.1.edge.length)
    (hd : ∀ q ∈ done, q.1 < q.2) (hnew : p ∉ done)
    (h1 : ∀ x, ∀ e ∈ st.1.adj x, (x, e.2) ∈ done ∨ (e.2, x) ∈ done)
    (h2 : ∀ x, ((st.1.adj x).map Prod.snd).Nodup) :
    (∀ x, ∀ e ∈ (mcBody fl density weightLO weightHI p.1 st p.2).1.adj x,
        (x, e.2) ∈ done ++ [p] ∨ (e.2, x) ∈ done ++ [p]) ∧
      ∀ x, (((mcBody fl density weightLO weightHI p.1 st p.2).1.adj x).map Prod.snd).Nodup := by
  have hrev : (p.2, p.1) ∉ done := by
    intro h
    have := hd _ h
    simp only at this
    omega
  rw [mcBody_def]
  split_ifs
  · simp only
    constructor
    · intro x e he
      rw [addEdge_adj _ _ _ _ _ (by omega) hp.2, List.mem_append, List.mem_append] at he
      rcases he with (he | he) | he
      · rcases h1 x e he with h | h
        · exact Or.inl (List.mem_append_left _ h)
        · exact Or.inr (List.mem_append_left _ h)
      · by_cases hx : x = p.1
        · rw [if_pos hx, List.mem_singleton] at he
          left
          rw [he, hx]
          exact List.mem_append_right _ (List.mem_singleton.mpr rfl)
        · rw [if_neg hx] at he
          exact absurd he (List.not_mem_nil _)
      · by_cases hx : x = p.2
        · rw [if_pos hx, List.mem_singleton] at he
          right
          rw [he, hx]
          exact List.mem_append_right _ (List.mem_singleton.mpr rfl)
        · rw [if_neg hx] at he
          exact absurd he (List.not_mem_nil _)
    · intro x
      rw [addEdge_adj _ _ _ _ _ (by omega) hp.2, List.map_append, List.map_append]
      by_cases hx1 : x = p.1
      · have hx2 : x ≠ p.2 := by omega
        rw [if_pos hx1, if_neg hx2, List.map_nil, List.append_nil, List.map_singleton]
        rw [List.nodup_append]
        refine ⟨h2 x, List.nodup_singleton _, ?_⟩
        intro a ha hb
        rw [List.mem_singleton] at hb
        rw [List.mem_map] at ha
        obtain ⟨e, he, rfl⟩ := ha
        rcases h1 x e he with h | h
        · rw [hb, hx1] at h
          exact hnew h
        · rw [hb, hx1] at h
          exact hrev h
      · rw [if_neg hx1, List.map_nil, List.append_nil]
        by_cases hx2 : x = p.2
        · rw [if_pos hx2, List.map_singleton, List.nodup_append]
          refine ⟨h2 x, List.nodup_singleton _, ?_⟩
          intro a ha hb
          rw [List.mem_singleton] at hb
          rw [List.mem_map] at ha
          obtain ⟨e, he, rfl⟩ := ha
          rcases h1 x e he with h | h
          · rw [hb, hx2] at h
            exact hrev h
          · rw [hb, hx2] at h
            exact hnew h
        · rw [if_neg hx2, List.map_nil, List.append_nil]
          exact h2 x
  · simp only
    refine ⟨?_, h2⟩
    intro x e he
    rcases h1 x e he with h | h
    · exact Or.inl (List.mem_append_left _ h)
    · exact Or.inr (List.mem_append_left _ h)

theorem foldl_mcBody_simple {fl : ℚ → ℚ} (density weightLO weightHI : ℚ) (todo : List (ℕ × ℕ)) :
    ∀ (done : List (ℕ × ℕ)) (st : Graph × Rng), (done ++ todo).Nodup →
      (∀ q ∈ done ++ todo, q.1 < q.2 ∧ q.2 < st.1.edge.length) →
      (∀ x, ∀ e ∈ st.1.adj x, (x, e.2) ∈ done ∨ (e.2, x) ∈ done) →
      (∀ x, ((st.1.adj x).map Prod.snd).Nodup) →
      (∀ x,
        ∀ e ∈ (todo.foldl (fun a p => mcBody fl density weightLO weightHI p.1 a p.2) st).1.adj x,
          (x, e.2) ∈ done ++ todo ∨ (e.2, x) ∈ done ++ todo) ∧
        ∀ x, (((todo.foldl (fun a p => mcBody fl density weightLO weightHI p.1 a p.2) st).1.adj
          x).map Prod.snd).Nodup := by
  induction todo with
  | nil =>
    intro done st _ _ h1 h2
    rw [List.append_nil]
    exact ⟨h1, h2⟩
  | cons p todo ih =>
    intro done st hn hr h1 h2
    rw [List.foldl_cons]
    have hp := hr p (List.mem_append_right _ (List.mem_cons_self _ _))
    have hnew : p ∉ done := by
      intro h
      exact (List.nodup_append.mp hn).2.2 h (List.mem_cons_self _ _) 
    obtain ⟨k1, k2⟩ := mcBody_simple density weightLO weightHI done p st hp
      (fun q hq => (hr q (List.mem_append_left _ hq)).1) hnew h1 h2
    have happ : done ++ p :: todo = (done ++ [p]) ++ todo := by simp
    rw [happ] at hn hr ⊢
    apply ih (done ++ [p]) _ hn _ k1 k2
    intro q hq
    rw [mcBody_length]
    exact hr q hq

theorem specPairs_nodup (n : ℕ) : (specPairs n).Nodup := by
  have h := specPairs_sorted n
  unfold List.Sorted at h
  refine h.imp ?_
  intro a b hab heq
  rw [heq] at hab
  unfold pairLT at hab
  omega

/-- C12. For every density, weight range and sequence of draws, the graph produced by
monteCarloSimulation on a fresh graph of at least 50 vertices has no self-loop (no vertex
appears in its own adjacency list) and no parallel edge (no vertex appears more than once in
another vertex's adjacency list). -/
theorem monteCarlo_simple_graph (fl : ℚ → ℚ) (V : ℕ) (density weightLO weightHI : ℚ) (r : Rng)
    (hV : 50 ≤ V) :
    (∀ x, ∀ e ∈ (monteCarloSimulation fl density weightLO weightHI (Graph.ctor V, r)).1.adj x,
        e.2 ≠ x) ∧
      ∀ x, (((monteCarloSimulation fl density weightLO weightHI (Graph.ctor V, r)).1.adj x).map
        Prod.snd).Nodup := by
  rw [monteCarlo_flat]
  have hlen : (Graph.ctor V).edge.length = V + 1 := by simp [Graph.ctor]
  obtain ⟨h1, h2⟩ := foldl_mcBody_simple density weightLO weightHI (specPairs 50) []
    (Graph.ctor V, r) (by rw [List.nil_append]; exact specPairs_nodup 50)
    (by
      intro q hq
      rw [List.nil_append, mem_specPairs] at hq
      show q.1 < q.2 ∧ q.2 < (Graph.ctor V).edge.length
      rw [hlen]
      omega)
    (by
      intro x e he
      rw [show (Graph.ctor V, r).1.adj x = [] from ctor_adj V x] at he
      exact absurd he (List.not_mem_nil _))
    (by
      intro x
      rw [show (Graph.ctor V, r).1.adj x = [] from ctor_adj V x]
      exact List.nodup_nil)
  refine ⟨?_, h2⟩
  intro x e he heq
  rw [List.nil_append] at h1
  rcases h1 x e he with h | h
  · rw [mem_specPairs] at h
    simp only at h
    omega
  · rw [mem_specPairs] at h
    simp only at h
    omega

theorem monteCarlo_simple_graph_witness :
    (50 : ℕ) ≤ 50 ∧
      ((∀ x, ∀ e ∈ (monteCarloSimulation roundDouble (1 / 5) 1 10
          (Graph.ctor 50, { stream := fun _ => 0, pos := 0 })).1.adj x, e.2 ≠ x) ∧
      ∀ x, (((monteCarloSimulation roundDouble (1 / 5) 1 10
          (Graph.ctor 50, { stream := fun _ => 0, pos := 0 })).1.adj x).map Prod.snd).Nodup) :=
  ⟨by decide,
    monteCarlo_simple_graph roundDouble 50 (1 / 5) 1 10 { stream := fun _ => 0, pos := 0 }
      (by decide)⟩

/-! ## The draws consumed by the generator -/

theorem entries_eq_sum (g : Graph) :
    entries g = ∑ x in Finset.range g.edge.length, (g.adj x).length := by
  unfold entries Graph.adj
  rw [sum_range_getD]

theorem entries_addEdge (g : Graph) (u v : ℕ) (w : ℚ) (hu : u < g.edge.length)
    (hv : v < g.edge.length) : entries (addEdge g u v w) = entries g + 2 := by
  rw [entries_eq_sum, entries_eq_sum, addEdge_length]
  have h : ∀ x, ((addEdge g u v w).adj x).length =
      (g.adj x).length + (if x = u then 1 else 0) + (if x = v then 1 else 0) := by
    intro x
    rw [addEdge_adj g u v w x hu hv, List.length_append, List.length_append]
    split_ifs <;> rfl
  simp only [h, Finset.sum_add_distrib, Finset.sum_ite_eq', Finset.mem_range, hu, hv, if_true]

theorem specPairs_length : (specPairs 50).length = 1225 := by
  unfold specPairs
  rw [List.length_flatMap]
  simp only [Function.comp_def, List.length_map, List.length_range']
  rfl

theorem mcBody_draws {fl : ℚ → ℚ} (density weightLO weightHI : ℚ) (i j : ℕ) (st : Graph × Rng)
    (hi : i < st.1.edge.length) (hj : j < st.1.edge.length) :
    2 * (mcBody fl density weightLO weightHI i st j).2.pos + entries st.1 =
        2 * st.2.pos + entries (mcBody fl density weightLO weightHI i st j).1 + 2 ∧
      st.2.pos + 1 ≤ (mcBody fl density weightLO weightHI i st j).2.pos ∧
      (mcBody fl density weightLO weightHI i st j).2.pos ≤ st.2.pos + 2 := by
  rw [mcBody_def]
  split_ifs
  · simp only
    rw [entries_addEdge _ _ _ _ hi hj]
    omega
  · simp only
    omega

theorem foldl_mcBody_draws {fl : ℚ → ℚ} (density weightLO weightHI : ℚ) (l : List (ℕ × ℕ))
    (st : Graph × Rng)
    (hl : ∀ p ∈ l, p.1 < st.1.edge.length ∧ p.2 < st.1.edge.length) :
    2 * (l.foldl (fun a p => mcBody fl density weightLO weightHI p.1 a p.2) st).2.pos +
        entries st.1 =
        2 * st.2.pos +
          entries (l.foldl (fun a p => mcBody fl density weightLO weightHI p.1 a p.2) st).1 +
          2 * l.length ∧
      st.2.pos + l.length ≤
        (l.foldl (fun a p => mcBody fl density weightLO weightHI p.1 a p.2) st).2.pos ∧
      (l.foldl (fun a p => mcBody fl density weightLO weightHI p.1 a p.2) st).2.pos ≤
        st.2.pos + 2 * l.length := by
  induction l generalizing st with
  | nil => simp
  | cons p l ih =>
    rw [List.foldl_cons, List.length_cons]
    have hp := hl p (List.mem_cons_self _ _)
    obtain ⟨h1, h2, h3⟩ := @mcBody_draws fl density weightLO weightHI p.1 p.2 st hp.1 hp.2
    obtain ⟨k1, k2, k3⟩ := ih (mcBody fl density weightLO weightHI p.1 st p.2) (by
      intro q hq
      rw [mcBody_length]
      exact hl q (List.mem_cons_of_mem _ hq))
    omega

theorem ctor_entries (V : ℕ) : entries (Graph.ctor V) = 0 := by
  rw [entries_eq_sum]
  apply Finset.sum_eq_zero
  intro x _
  rw [ctor_adj]
  rfl

/-- C13 (amended). One call of monteCarloSimulation on a fresh graph of at least 50 vertices
consumes exactly 1225 draws plus one draw per edge added (the generated graph holds two
adjacency entries per added edge): one draw per candidate pair 1 ≤ i < j ≤ 50 and a second one
for the weight of each accepted edge, hence between 1225 and 2450 draws. -/
theorem monteCarlo_draws (fl : ℚ → ℚ) (V : ℕ) (density weightLO weightHI : ℚ) (r : Rng)
    (hV : 50 ≤ V) :
    2 * (monteCarloSimulation fl density weightLO weightHI (Graph.ctor V, r)).2.pos =
        2 * (r.pos + 1225) +
          entries (monteCarloSimulation fl density weightLO weightHI (Graph.ctor V, r)).1 ∧
      r.pos + 1225 ≤ (monteCarloSimulation fl density weightLO weightHI (Graph.ctor V, r)).2.pos ∧
      (monteCarloSimulation fl density weightLO weightHI (Graph.ctor V, r)).2.pos ≤
        r.pos + 2450 := by
  rw [monteCarlo_flat]
  have hlen : (Graph.ctor V).edge.length = V + 1 := by simp [Graph.ctor]
  obtain ⟨h1, h2, h3⟩ := @foldl_mcBody_draws fl density weightLO weightHI (specPairs 50)

    (Graph.ctor V, r) (by
      intro p hp
      rw [mem_specPairs] at hp
      show p.1 < (Graph.ctor V).edge.length ∧ p.2 < (Graph.ctor V).edge.length
      rw [hlen]
      omega)
  rw [specPairs_length] at h1 h2 h3
  have h0 : entries (Graph.ctor V, r).1 = 0 := ctor_entries V
  have hp : (Graph.ctor V, r).2.pos = r.pos := rfl
  rw [h0, hp] at h1
  rw [hp] at h2 h3
  omega

theorem monteCarlo_draws_witness :
    (50 : ℕ) ≤ 50 ∧
      (2 * (monteCarloSimulation roundDouble (1 / 5) 1 10 (Graph.ctor 50, zeroDraws)).2.pos =
        2 * (zeroDraws.pos + 1225) +
          entries (monteCarloSimulation roundDouble (1 / 5) 1 10 (Graph.ctor 50, zeroDraws)).1 ∧
      zeroDraws.pos + 1225 ≤
        (monteCarloSimulation roundDouble (1 / 5) 1 10 (Graph.ctor 50, zeroDraws)).2.pos ∧
      (monteCarloSimulation roundDouble (1 / 5) 1 10 (Graph.ctor 50, zeroDraws)).2.pos ≤
        zeroDraws.pos + 2450) :=
  ⟨by decide, monteCarlo_draws roundDouble 50 (1 / 5) 1 10 zeroDraws (by decide)⟩

theorem foldl_mcBody_all_accept {fl : ℚ → ℚ} (density weightLO weightHI : ℚ) (l : List (ℕ × ℕ))
    (st : Graph × Rng)
    (hacc : ∀ k, fl ((st.2.stream k : ℚ) / (RAND_MAX : ℚ)) ≤ density) :
    (l.foldl (fun a p => mcBody fl density weightLO weightHI p.1 a p.2) st).2.pos =
      st.2.pos + 2 * l.length := by
  induction l generalizing st with
  | nil => rfl
  | cons p l ih =>
    rw [List.foldl_cons, List.length_cons]
    have hs := @mcBody_stream fl density weightLO weightHI p.1 st p.2

    rw [ih (mcBody fl density weightLO weightHI p.1 st p.2) (by rw [hs]; exact hacc)]
    rw [mcBody_def, if_pos (hacc _)]
    simp only
    omega

/-- C13 (counterexample). On a fresh graph of 50 vertices, with density 1 and every value of
rand() equal to 0, every candidate pair is accepted and one call of monteCarloSimulation
consumes 2450 draws, not 50·(50−1)/2 = 1225. -/
theorem monteCarlo_draws_counterexample :
    (monteCarloSimulation roundDouble 1 1 10 (Graph.ctor 50, zeroDraws)).2.pos =
        zeroDraws.pos + 2450 ∧
      50 * (50 - 1) / 2 = 1225 := by
  refine ⟨?_, by decide⟩
  have hacc : ∀ k : ℕ,
      roundDouble ((((Graph.ctor 50, zeroDraws).2.stream k : ℕ) : ℚ) / (RAND_MAX : ℚ)) ≤ 1 :=
    fun _ => by
      show roundDouble (((0 : ℕ) : ℚ) / (RAND_MAX : ℚ)) ≤ 1
      rw [Nat.cast_zero, zero_div, roundDouble_rounding.zero]
      exact zero_le_one
  have h := foldl_mcBody_all_accept 1 1 10 (specPairs 50) (Graph.ctor 50, zeroDraws) hacc
  rw [specPairs_length] at h
  rw [monteCarlo_flat]
  exact h

/-! ## Density zero -/

theorem foldl_mcBody_none_accept {fl : ℚ → ℚ} (density weightLO weightHI : ℚ) (l : List (ℕ × ℕ))
    (st : Graph × Rng)
    (hrej : ∀ k, ¬ fl ((st.2.stream k : ℚ) / (RAND_MAX : ℚ)) ≤ density) :
    (l.foldl (fun a p => mcBody fl density weightLO weightHI p.1 a p.2) st).1 = st.1 := by
  induction l generalizing st with
  | nil => rfl
  | cons p l ih =>
    rw [List.foldl_cons]
    have hs := @mcBody_stream fl density weightLO weightHI p.1 st p.2

    rw [ih (mcBody fl density weightLO weightHI p.1 st p.2) (by rw [hs]; exact hrej)]
    rw [mcBody_def, if_neg (hrej _)]

/-- A positive value of `rand()` gives a positive `double` quotient `rand()/RAND_MAX`: the
quotient is at least `2^-31`, which is a double. -/
theorem positive_draw_rejected {fl : ℚ → ℚ} (hfl : Rounding fl) (y : ℕ) (hy : 0 < y) :
    ¬ fl ((y : ℚ) / (RAND_MAX : ℚ)) ≤ 0 := by
  have hy2 : (1 : ℚ) ≤ (y : ℚ) := by exact_mod_cast hy
  have hd := hfl.dyadic 1 (-31) (by norm_num) (by norm_num) (by norm_num)
  have hle : ((1 : ℤ) : ℚ) * (2 : ℚ) ^ (-31 : ℤ) ≤ (y : ℚ) / (RAND_MAX : ℚ) := by
    unfold RAND_MAX
    rw [le_div_iff₀ (by norm_num)]
    norm_num
    linarith
  have hm := hfl.mono _ _ hle
  rw [hd] at hm
  have hpos : (0 : ℚ) < ((1 : ℤ) : ℚ) * (2 : ℚ) ^ (-31 : ℤ) := by norm_num
  exact not_le.mpr (lt_of_lt_of_le hpos hm)

/-- C14 (amended). For density = 0.0 and every sequence of random draws in which rand() never
returns 0, monteCarloSimulation on a fresh graph (of 50 vertices, or of any other size) adds no
edge: the graph is left as the constructor made it, edgeless, and every vertex other than the
source is unreachable from the source. -/
theorem monteCarlo_density_zero (fl : ℚ → ℚ) (hfl : Rounding fl) (V : ℕ)
    (weightLO weightHI : ℚ) (r : Rng) (hr : ∀ k, 0 < r.stream k) :
    (monteCarloSimulation fl 0 weightLO weightHI (Graph.ctor V, r)).1 = Graph.ctor V ∧
      (∀ u, (monteCarloSimulation fl 0 weightLO weightHI (Graph.ctor V, r)).1.adj u = []) ∧
      ∀ s v, v ≠ s →
        ¬ Reachable (monteCarloSimulation fl 0 weightLO weightHI (Graph.ctor V, r)).1.edge s v := by
  have h : (monteCarloSimulation fl 0 weightLO weightHI (Graph.ctor V, r)).1 = Graph.ctor V := by
    rw [monteCarlo_flat]
    exact foldl_mcBody_none_accept 0 weightLO weightHI (specPairs 50) (Graph.ctor V, r)
      (fun k => positive_draw_rejected hfl _ (hr k))
  rw [h]
  refine ⟨rfl, ctor_adj V, ?_⟩
  rintro s v hv ⟨c, l, hp⟩
  exact hv (no_edge_path _ s (ctor_adj V s) v c l hp)

theorem monteCarlo_density_zero_witness :
    (∀ k, 0 < oneDraws.stream k) ∧
      ((monteCarloSimulation roundDouble 0 1 10 (Graph.ctor 50, oneDraws)).1 = Graph.ctor 50 ∧
      (∀ u, (monteCarloSimulation roundDouble 0 1 10 (Graph.ctor 50, oneDraws)).1.adj u = []) ∧
      ∀ s v, v ≠ s →
        ¬ Reachable
          (monteCarloSimulation roundDouble 0 1 10 (Graph.ctor 50, oneDraws)).1.edge s v) :=
  ⟨fun _ => Nat.one_pos,
    monteCarlo_density_zero roundDouble roundDouble_rounding 50 1 10 oneDraws
      (fun _ => Nat.one_pos)⟩

theorem addEdge_adj_grows (g : Graph) (u v : ℕ) (w : ℚ) (x : ℕ) (e : ii)
    (hu : u < g.edge.length) (hv : v < g.edge.length) (he : e ∈ g.adj x) :
    e ∈ (addEdge g u v w).adj x := by
  rw [addEdge_adj g u v w x hu hv]
  exact List.mem_append_left _ (List.mem_append_left _ he)

theorem addEdge_adj_new (g : Graph) (u v : ℕ) (w : ℚ) (hu : u < g.edge.length)
    (hv : v < g.edge.length) : (w, v) ∈ (addEdge g u v w).adj u := by
  rw [addEdge_adj g u v w u hu hv, if_pos rfl]
  exact List.mem_append_left _ (List.mem_append_right _ (List.mem_singleton.mpr rfl))

theorem mcBody_adj_grows {fl : ℚ → ℚ} (density weightLO weightHI : ℚ) (i j : ℕ) (st : Graph × Rng)
    (hi : i < st.1.edge.length) (hj : j < st.1.edge.length) (x : ℕ) (e : ii)
    (he : e ∈ st.1.adj x) : e ∈ (mcBody fl density weightLO weightHI i st j).1.adj x := by
  rw [mcBody_def]
  split_ifs
  · exact addEdge_adj_grows _ _ _ _ _ _ hi hj he
  · exact he

theorem foldl_mcBody_adj_grows {fl : ℚ → ℚ} (density weightLO weightHI : ℚ) (l : List (ℕ × ℕ))
    (st : Graph × Rng) (hl : ∀ p ∈ l, p.1 < st.1.edge.length ∧ p.2 < st.1.edge.length)
    (x : ℕ) (e : ii) (he : e ∈ st.1.adj x) :
    e ∈ (l.foldl (fun a p => mcBody fl density weightLO weightHI p.1 a p.2) st).1.adj x := by
  induction l generalizing st with
  | nil => exact he
  | cons p l ih =>
    rw [List.foldl_cons]
    have hp := hl p (List.mem_cons_self _ _)
    apply ih
    · intro q hq
      rw [mcBody_length]
      exact hl q (List.mem_cons_of_mem _ hq)
    · exact mcBody_adj_grows density weightLO weightHI p.1 p.2 st hp.1 hp.2 x e he

theorem foldl_mcBody_all_accept_edge {fl : ℚ → ℚ} (density weightLO weightHI : ℚ) (l : List (ℕ × ℕ))
    (st : Graph × Rng) (hl : ∀ p ∈ l, p.1 < st.1.edge.length ∧ p.2 < st.1.edge.length)
    (hacc : ∀ k, fl ((st.2.stream k : ℚ) / (RAND_MAX : ℚ)) ≤ density) (p : ℕ × ℕ) (hp : p ∈ l) :
    ∃ w, (w, p.2) ∈
      (l.foldl (fun a q => mcBody fl density weightLO weightHI q.1 a q.2) st).1.adj p.1 := by
  induction l generalizing st with
  | nil => exact absurd hp (List.not_mem_nil _)
  | cons q l ih =>
    rw [List.foldl_cons]
    have hq := hl q (List.mem_cons_self _ _)
    have hl2 : ∀ p2 ∈ l, p2.1 < (mcBody fl density weightLO weightHI q.1 st q.2).1.edge.length ∧
        p2.2 < (mcBody fl density weightLO weightHI q.1 st q.2).1.edge.length := by
      intro p2 hp2
      rw [mcBody_length]
      exact hl p2 (List.mem_cons_of_mem _ hp2)
    rcases List.mem_cons.mp hp with rfl | hp
    · have hin : ∃ w, (w, p.2) ∈ (mcBody fl density weightLO weightHI p.1 st p.2).1.adj p.1 := by
        rw [mcBody_def, if_pos (hacc _)]
        exact ⟨_, addEdge_adj_new _ _ _ _ hq.1 hq.2⟩
      obtain ⟨w, hw⟩ := hin
      exact ⟨w, foldl_mcBody_adj_grows density weightLO weightHI l _ hl2 _ _ hw⟩
    · exact ih _ hl2 (by rw [mcBody_stream]; exact hacc) hp

/-- C14 (counterexample). For vertexCount = 50 and density = 0.0, when every value of rand() is
0 every draw is 0 ≤ density: monteCarloSimulation adds the edge 1–2 (and every other candidate
edge), so vertex 2 is reachable from vertex 1. -/
theorem monteCarlo_density_zero_counterexample :
    (∃ w, (w, 2) ∈ (monteCarloSimulation roundDouble 0 1 10 (Graph.ctor 50, zeroDraws)).1.adj 1) ∧
      Reachable
        (monteCarloSimulation roundDouble 0 1 10 (Graph.ctor 50, zeroDraws)).1.edge 1 2 := by

  have hacc : ∀ k : ℕ,
      roundDouble ((((Graph.ctor 50, zeroDraws).2.stream k : ℕ) : ℚ) / (RAND_MAX : ℚ)) ≤ 0 :=
    fun _ => by
      show roundDouble (((0 : ℕ) : ℚ) / (RAND_MAX : ℚ)) ≤ 0
      rw [Nat.cast_zero, zero_div, roundDouble_rounding.zero]
  have hl : ∀ p ∈ specPairs 50, p.1 < (Graph.ctor 50, zeroDraws).1.edge.length ∧
      p.2 < (Graph.ctor 50, zeroDraws).1.edge.length := by
    intro p hp
    rw [mem_specPairs] at hp
    have hlen : (Graph.ctor 50, zeroDraws).1.edge.length = 51 := by simp [Graph.ctor]
    rw [hlen]
    omega
  obtain ⟨w, hw⟩ := foldl_mcBody_all_accept_edge 0 1 10 (specPairs 50) (Graph.ctor 50, zeroDraws)
    hl hacc (1, 2) ((mem_specPairs 50 (1, 2)).mpr (by decide))
  rw [monteCarlo_flat]
  exact ⟨⟨w, hw⟩, ⟨id (0 + w), [2, 1], Path.snoc Path.nil hw⟩⟩


/-! ## The pairs considered by the generator -/

theorem foldl_mcBody_length {fl : ℚ → ℚ} (density weightLO weightHI : ℚ) (l : List (ℕ × ℕ))
    (st : Graph × Rng) :
    (l.foldl (fun a p => mcBody fl density weightLO weightHI p.1 a p.2) st).1.edge.length =
      st.1.edge.length := by
  induction l generalizing st with
  | nil => rfl
  | cons p l ih => rw [List.foldl_cons, ih, mcBody_length]

/-- An accepted pair: the entry added to `edge[i]` carries the weight computed from the second
draw. -/
theorem mcBody_accept_entry {fl : ℚ → ℚ} (density weightLO weightHI : ℚ) (p : ℕ × ℕ)
    (a : Graph × Rng) (hp : p.1 < a.1.edge.length ∧ p.2 < a.1.edge.length)
    (hacc : fl ((nextDraw a.2 : ℚ) / (RAND_MAX : ℚ)) ≤ density) :
    (fl (weightLO + fl (fl (weightHI - weightLO) *
        fl ((a.2.stream (a.2.pos + 1) : ℚ) / (RAND_MAX : ℚ)))), p.2) ∈
      (mcBody fl density weightLO weightHI p.1 a p.2).1.adj p.1 := by
  unfold nextDraw at hacc
  rw [mcBody_def, if_pos hacc]
  exact addEdge_adj_new _ _ _ _ hp.1 hp.2

/-- The entry added for an accepted pair is still there when the loops end. -/
theorem foldl_mcBody_accepted {fl : ℚ → ℚ} (density weightLO weightHI : ℚ)
    (l1 l2 : List (ℕ × ℕ)) (p : ℕ × ℕ) (st : Graph × Rng)
    (hl : ∀ q ∈ l1 ++ p :: l2, q.1 < st.1.edge.length ∧ q.2 < st.1.edge.length)
    (hacc : fl ((nextDraw
      (l1.foldl (fun a q => mcBody fl density weightLO weightHI q.1 a q.2) st).2 : ℚ) /
        (RAND_MAX : ℚ)) ≤ density) :
    ∃ w, (w, p.2) ∈
      ((l1 ++ p :: l2).foldl (fun a q => mcBody fl density weightLO weightHI q.1 a q.2)
        st).1.adj p.1 := by
  rw [List.foldl_append, List.foldl_cons]
  have hlen := @foldl_mcBody_length fl density weightLO weightHI l1 st
  have hp := hl p (List.mem_append_right _ (List.mem_cons_self _ _))
  have h1 := mcBody_accept_entry density weightLO weightHI p _ (by rw [hlen]; exact hp) hacc
  refine ⟨_, foldl_mcBody_adj_grows density weightLO weightHI l2 _ ?_ _ _ h1⟩
  intro q hq
  rw [mcBody_length, hlen]
  exact hl q (List.mem_append_right _ (List.mem_cons_of_mem _ hq))

/-- A rejected pair of a fresh graph is not an edge when the loops end: no other pair puts the
same neighbour into the adjacency list. -/
theorem foldl_mcBody_rejected {fl : ℚ → ℚ} (density weightLO weightHI : ℚ)
    (l1 l2 : List (ℕ × ℕ)) (p : ℕ × ℕ) (V : ℕ) (r : Rng)
    (hn : (l1 ++ p :: l2).Nodup) (hl : ∀ q ∈ l1 ++ p :: l2, q.1 < q.2 ∧ q.2 < V + 1)
    (hrej : ¬ fl ((nextDraw
      (l1.foldl (fun a q => mcBody fl density weightLO weightHI q.1 a q.2)
        (Graph.ctor V, r)).2 : ℚ) / (RAND_MAX : ℚ)) ≤ density) (w : ℚ) :
    (w, p.2) ∉
      ((l1 ++ p :: l2).foldl (fun a q => mcBody fl density weightLO weightHI q.1 a q.2)
        (Graph.ctor V, r)).1.adj p.1 := by
  have hlen0 : (Graph.ctor V, r).1.edge.length = V + 1 := by simp [Graph.ctor]
  have hn1 : l1.Nodup := (List.nodup_append.mp hn).1
  have hn12 : (l1 ++ l2).Nodup := by
    refine hn.sublist ?_
    exact List.Sublist.append_left (List.sublist_cons_self p l2) l1
  have hpn : p ∉ l1 ++ l2 := by
    intro hmem
    rcases List.mem_append.mp hmem with h | h
    · exact (List.nodup_append.mp hn).2.2 h (List.mem_cons_self _ _)
    · exact (List.nodup_cons.mp (List.nodup_append.mp hn).2.1).1 h
  unfold nextDraw at hrej
  obtain ⟨k1, k2⟩ := @foldl_mcBody_simple fl density weightLO weightHI l1 [] (Graph.ctor V, r)
    (by rw [List.nil_append]; exact hn1)
    (by
      intro q hq
      rw [List.nil_append] at hq
      rw [hlen0]
      exact hl q (List.mem_append_left _ hq))
    (by
      intro x e he
      rw [show (Graph.ctor V, r).1.adj x = [] from ctor_adj V x] at he
      exact absurd he (List.not_mem_nil _))
    (by
      intro x
      rw [show (Graph.ctor V, r).1.adj x = [] from ctor_adj V x]
      exact List.nodup_nil)
  rw [List.nil_append] at k1
  rw [List.foldl_append, List.foldl_cons]
  have hb : (mcBody fl density weightLO weightHI p.1
      (l1.foldl (fun a q => mcBody fl density weightLO weightHI q.1 a q.2) (Graph.ctor V, r))
      p.2).1 =
      (l1.foldl (fun a q => mcBody fl density weightLO weightHI q.1 a q.2)
        (Graph.ctor V, r)).1 := by
    rw [mcBody_def, if_neg hrej]
  obtain ⟨m1, _⟩ := @foldl_mcBody_simple fl density weightLO weightHI l2 l1
    (mcBody fl density weightLO weightHI p.1
      (l1.foldl (fun a q => mcBody fl density weightLO weightHI q.1 a q.2) (Graph.ctor V, r))
      p.2) hn12
    (by
      intro q hq
      rw [mcBody_length, foldl_mcBody_length, hlen0]
      rcases List.mem_append.mp hq with h | h
      · exact hl q (List.mem_append_left _ h)
      · exact hl q (List.mem_append_right _ (List.mem_cons_of_mem _ h)))
    (by rw [hb]; exact k1)
    (by rw [hb]; exact k2)
  intro hmem
  have hp := hl p (List.mem_append_right _ (List.mem_cons_self _ _))
  rcases m1 p.1 (w, p.2) hmem with h | h
  · exact hpn h
  · have hq : (p.2, p.1) ∈ l1 ++ p :: l2 := by
      rcases List.mem_append.mp h with h2 | h2
      · exact List.mem_append_left _ h2
      · exact List.mem_append_right _ (List.mem_cons_of_mem _ h2)
    have := (hl _ hq).1
    simp only at this
    omega

/-- C9 (amended). For a graph constructed with vertexCount ≥ 50 vertices,
monteCarloSimulation(density, weightLO, weightHI) considers exactly the unordered pairs (i, j)
with 1 ≤ i < j ≤ 50, each once and in lexicographic order, and adds the edge i–j exactly when
the pair's draw, the double quotient rand()/RAND_MAX computed when the loops reach the pair, is
≤ density: the run is the fold of the loop body over the list of these pairs, and for every pair
p of the list, with l1 the pairs before it, the generated graph has an entry for p.2 in the
adjacency list of p.1 if and only if the draw made after the pairs of l1 is ≤ density. -/
theorem monteCarlo_pairs (fl : ℚ → ℚ) (V : ℕ) (density weightLO weightHI : ℚ) (r : Rng)
    (hV : 50 ≤ V) :
    monteCarloSimulation fl density weightLO weightHI (Graph.ctor V, r)
        = (specPairs 50).foldl (fun a p => mcBody fl density weightLO weightHI p.1 a p.2)
          (Graph.ctor V, r) ∧
      (∀ p, p ∈ specPairs 50 ↔ 1 ≤ p.1 ∧ p.1 < p.2 ∧ p.2 ≤ 50) ∧
      (specPairs 50).Sorted pairLT ∧
      ∀ (l1 l2 : List (ℕ × ℕ)) (p : ℕ × ℕ), specPairs 50 = l1 ++ p :: l2 →
        ((∃ w, (w, p.2) ∈
            (monteCarloSimulation fl density weightLO weightHI (Graph.ctor V, r)).1.adj p.1) ↔
          fl ((nextDraw
            (l1.foldl (fun a q => mcBody fl density weightLO weightHI q.1 a q.2)
              (Graph.ctor V, r)).2 : ℚ) / (RAND_MAX : ℚ)) ≤ density) := by
  refine ⟨monteCarlo_flat density weightLO weightHI _, mem_specPairs 50, specPairs_sorted 50, ?_⟩
  intro l1 l2 p hsplit
  have hlen0 : (Graph.ctor V, r).1.edge.length = V + 1 := by simp [Graph.ctor]
  have hmem : ∀ q ∈ l1 ++ p :: l2, 1 ≤ q.1 ∧ q.1 < q.2 ∧ q.2 ≤ 50 := by
    intro q hq
    rw [← hsplit] at hq
    exact (mem_specPairs 50 q).mp hq
  rw [monteCarlo_flat, hsplit]
  constructor
  · rintro ⟨w, hw⟩
    by_contra hrej
    refine foldl_mcBody_rejected density weightLO weightHI l1 l2 p V r ?_ ?_ hrej w hw
    · rw [← hsplit]; exact specPairs_nodup 50
    · intro q hq
      have := hmem q hq
      omega
  · intro hacc
    refine foldl_mcBody_accepted density weightLO weightHI l1 l2 p _ ?_ hacc
    intro q hq
    have := hmem q hq
    rw [hlen0]
    omega

theorem monteCarlo_pairs_witness :
    (50 : ℕ) ≤ 50 ∧
      (monteCarloSimulation roundDouble (roundDouble (1 / 5)) 1 10 (Graph.ctor 50, zeroDraws)
        = (specPairs 50).foldl
          (fun a p => mcBody roundDouble (roundDouble (1 / 5)) 1 10 p.1 a p.2)
          (Graph.ctor 50, zeroDraws) ∧
      (∀ p, p ∈ specPairs 50 ↔ 1 ≤ p.1 ∧ p.1 < p.2 ∧ p.2 ≤ 50) ∧
      (specPairs 50).Sorted pairLT ∧
      ∀ (l1 l2 : List (ℕ × ℕ)) (p : ℕ × ℕ), specPairs 50 = l1 ++ p :: l2 →
        ((∃ w, (w, p.2) ∈
            (monteCarloSimulation roundDouble (roundDouble (1 / 5)) 1 10
              (Graph.ctor 50, zeroDraws)).1.adj p.1) ↔
          roundDouble ((nextDraw
            (l1.foldl (fun a q => mcBody roundDouble (roundDouble (1 / 5)) 1 10 q.1 a q.2)
              (Graph.ctor 50, zeroDraws)).2 : ℚ) / (RAND_MAX : ℚ)) ≤ roundDouble (1 / 5))) :=
  ⟨by decide,
    monteCarlo_pairs roundDouble 50 (roundDouble (1 / 5)) 1 10 zeroDraws (by decide)⟩

/-- C9 (counterexample). On a fresh graph of 51 vertices, with density 1 and every value of
rand() equal to 0, the pair (1, 51) is an unordered pair with 1 ≤ i < j ≤ vertexCount and every
draw is ≤ density, yet after monteCarloSimulation the adjacency list of vertex 51 is empty: the
edge 1–51 was not added, the pairs (i, 51) are never considered. -/
theorem monteCarlo_pairs_counterexample :
    ((1 : ℕ) ≤ 1 ∧ 1 < 51 ∧ 51 ≤ (Graph.ctor 51).V) ∧
      (∀ k : ℕ, roundDouble ((zeroDraws.stream k : ℚ) / (RAND_MAX : ℚ)) ≤ 1) ∧
      (Graph.ctor 51).edge.length = 52 ∧
      (monteCarloSimulation roundDouble 1 1 10 (Graph.ctor 51, zeroDraws)).1.adj 51 = [] := by
  refine ⟨by decide, fun k => ?_, by decide, ?_⟩
  · show roundDouble (((0 : ℕ) : ℚ) / (RAND_MAX : ℚ)) ≤ 1
    rw [Nat.cast_zero, zero_div, roundDouble_rounding.zero]
    exact zero_le_one
  · rw [monteCarlo_adj_above 1 1 10 _ 51 (by decide)]
    exact ctor_adj 51 51

/-! ## The range of the weights -/

/-- C10 (the code at the failing input). With weightLO = 0.3 and weightHI = 0.9 (the doubles
nearest to 3/10 and 9/10), density 1 and a random source whose every value is RAND_MAX, every
draw rand()/RAND_MAX is 1, in [0,1], and monteCarloSimulation on a fresh graph of 50 vertices
adds the edge 1–2 with the weight 0.3 + (0.9 − 0.3)·1 computed in double, which is
4053239664633447·2^-52 = 0.9000000000000001, above weightHI. -/
theorem monteCarlo_weight_overshoot :
    roundDouble (3 / 10) ≤ roundDouble (9 / 10) ∧
      (∀ k, roundDouble ((maxDraws.stream k : ℚ) / (RAND_MAX : ℚ)) = 1) ∧
      ((4053239664633447 / 4503599627370496 : ℚ), 2) ∈
        (monteCarloSimulation roundDouble 1 (roundDouble (3 / 10)) (roundDouble (9 / 10))
          (Graph.ctor 50, maxDraws)).1.adj 1 ∧
      roundDouble (9 / 10) < 4053239664633447 / 4503599627370496 := by
  have hone : ∀ k, roundDouble ((maxDraws.stream k : ℚ) / (RAND_MAX : ℚ)) = 1 := by
    intro k
    show roundDouble (((RAND_MAX : ℕ) : ℚ) / (RAND_MAX : ℚ)) = 1
    decide!
  refine ⟨by decide!, hone, ?_, by decide!⟩
  obtain ⟨tl, htl⟩ : ∃ tl, specPairs 50 = (1, 2) :: tl := ⟨_, rfl⟩
  rw [monteCarlo_flat, htl, List.foldl_cons]
  have hlen : (Graph.ctor 50, maxDraws).1.edge.length = 51 := by simp [Graph.ctor]
  have hall : ∀ q ∈ specPairs 50, q.1 < 51 ∧ q.2 < 51 := by
    intro q hq
    rw [mem_specPairs] at hq
    omega
  have h1 := @mcBody_accept_entry roundDouble 1 (roundDouble (3 / 10)) (roundDouble (9 / 10))
    (1, 2) (Graph.ctor 50, maxDraws) (by rw [hlen]; exact ⟨by decide, by decide⟩)
    (by rw [show roundDouble ((nextDraw (Graph.ctor 50, maxDraws).2 : ℚ) / (RAND_MAX : ℚ)) = 1
      from hone 0])
  have hw : roundDouble (roundDouble (3 / 10) + roundDouble (roundDouble
      (roundDouble (9 / 10) - roundDouble (3 / 10)) *
        roundDouble (((Graph.ctor 50, maxDraws).2.stream ((Graph.ctor 50, maxDraws).2.pos + 1) : ℚ)
          / (RAND_MAX : ℚ)))) = 4053239664633447 / 4503599627370496 := by
    show roundDouble (roundDouble (3 / 10) + roundDouble (roundDouble
      (roundDouble (9 / 10) - roundDouble (3 / 10)) *
        roundDouble (((RAND_MAX : ℕ) : ℚ) / (RAND_MAX : ℚ)))) = _
    decide!
  rw [hw] at h1
  refine foldl_mcBody_adj_grows 1 (roundDouble (3 / 10)) (roundDouble (9 / 10)) tl _ ?_ _ _ h1
  intro q hq
  rw [mcBody_length, hlen]
  exact hall q (by rw [htl]; exact List.mem_cons_of_mem _ hq)

/-! ## Each vertex is scanned once, at its final distance -/

theorem relax_PInv_done {fl : ℚ → ℚ} (hfl : Rounding fl) (s v : ℕ) (c : ℚ) (U : Finset ℕ)
    (g : Graph) (e : ii)
    (hp : PInv fl s v c U g) (he : e ∈ g.adj v) (x : ℕ) (hx : x < g.edge.length) (hxU : x ∉ U) :
    (relax fl v g e).dist x = g.dist x := by
  by_cases h : g.dist e.2 > fl (g.dist v + e.1)
  · have hin : e.2 < g.edge.length := hp.ginv.nb v e he
    have hlt : e.2 < g.distance.length := by rw [hp.ginv.dlen]; exact hin
    rw [relax_dist v g e h hlt x]
    have hne : x ≠ e.2 := by
      intro hxe
      have h1 := hp.t2 x hx hxU
      have h2 : g.dist v ≤ fl (g.dist v + e.1) :=
        hfl.le_add (hp.ginv.rep v) (hp.nn v hp.rv e he)
      have h3 := hp.dv
      rw [hxe] at h1
      linarith
    rw [if_neg hne]
  · rw [relax_skip v g e h]

theorem foldl_relax_PInv_done {fl : ℚ → ℚ} (hfl : Rounding fl) (s v : ℕ) (c : ℚ)
    (U : Finset ℕ) (l : List ii) (g : Graph)
    (hp : PInv fl s v c U g) (hv : v < g.edge.length) (hl : ∀ e ∈ l, e ∈ g.adj v) (x : ℕ)
    (hx : x < g.edge.length) (hxU : x ∉ U) : (l.foldl (relax fl v) g).dist x = g.dist x := by
  induction l generalizing g with
  | nil => rfl
  | cons a l ih =>
    rw [List.foldl_cons]
    have ha := hl a (List.mem_cons_self _ _)
    obtain ⟨h1, _⟩ := relax_PInv hfl s v c U g a hp hv ha
    rw [ih (relax fl v g a) h1 (by rw [relax_edge]; exact hv)
      (fun e he => by rw [relax_adj]; exact hl e (List.mem_cons_of_mem _ he))
      (by rw [relax_edge]; exact hx)]
    exact relax_PInv_done hfl s v c U g a hp ha x hx hxU

theorem pop_PInv {fl : ℚ → ℚ} (s : ℕ) (U : Finset ℕ) (g : Graph) (top : ii) (rest : List ii)
    (hg : NInv fl s U g) (hq : g.Q = top :: rest) (h : top.1 ≤ g.dist top.2) :
    top.2 ∈ U ∧ top.2 < g.edge.length ∧
      PInv fl s top.2 top.1 (U.erase top.2) { g with Q := rest } := by
  have htop : top ∈ g.Q := by rw [hq]; exact List.mem_cons_self _ _
  have hsub : ∀ e ∈ rest, e ∈ g.Q := fun e he => by rw [hq]; exact List.mem_cons_of_mem _ he
  have hsorted : (top :: rest).Sorted iiLE := hq ▸ hg.sorted
  have hnodup : (top :: rest).Nodup := hq ▸ hg.nodup
  have hc : g.dist top.2 = top.1 := le_antisymm (hg.ginv.t1 top htop) h
  have hvU : top.2 ∈ U := by
    rcases hg.t3 top htop with h3 | h3
    · exact h3
    · linarith
  have hrv : Reachable g.edge s top.2 := by
    have hne : g.dist top.2 ≠ (INT_MAX : ℚ) := by
      rw [hc]; exact ne_of_lt (hg.ginv.t1s top htop)
    obtain ⟨l, hl⟩ := hg.ginv.w top.2 (hg.ginv.qv top htop) hne
    exact hl.reachable
  refine ⟨hvU, hg.ginv.qv top htop, pop_GInv s g top rest hg.ginv hq, hg.nn, hrv, hg.pos,
    hg.src, hsorted.of_cons, hnodup.of_cons, hc, ?_, ?_, ?_, ?_⟩
  · intro e he
    have hr : iiLE top e := List.rel_of_sorted_cons hsorted e he
    unfold iiLE at hr
    rcases hr with hr | ⟨hr, _⟩
    · exact le_of_lt hr
    · exact le_of_eq hr
  · intro u hu hnU
    by_cases huv : u = top.2
    · rw [huv]; exact le_of_eq hc
    · exact hg.t2 u hu (fun hin => hnU (Finset.mem_erase.mpr ⟨huv, hin⟩)) top htop
  · intro e he
    by_cases hev : e.2 = top.2
    · right
      have hle : g.dist e.2 ≤ e.1 := hg.ginv.t1 e (hsub e he)
      have hne : e.1 ≠ top.1 := by
        intro heq
        have : e = top := Prod.ext heq hev
        rw [this] at he
        exact (List.nodup_cons.mp hnodup).1 he
      rw [hev, hc] at hle
      rw [show ({ g with Q := rest } : Graph).dist e.2 = g.dist e.2 from rfl, hev, hc]
      exact lt_of_le_of_ne hle (Ne.symm hne)
    · rcases hg.t3 e (hsub e he) with h3 | h3
      · exact Or.inl (Finset.mem_erase.mpr ⟨hev, h3⟩)
      · exact Or.inr h3
  · intro u huv hnu
    rcases hg.j u hnu with hj | hj
    · left
      rw [hq] at hj
      rcases List.mem_cons.mp hj with hj | hj
      · exact absurd (congrArg Prod.snd hj) huv
      · exact hj
    · exact Or.inr hj

/-- One iteration of the loop, with the set of unscanned vertices made explicit: a current
entry removes its vertex from the set, a stale one leaves the set and the table alone; the
distances of the vertices outside the new set are untouched. -/
theorem loopBody_scan {fl : ℚ → ℚ} (hfl : Rounding fl) (s : ℕ) (U : Finset ℕ) (g : Graph)
    (top : ii) (rest : List ii) (hg : NInv fl s U g) (hq : g.Q = top :: rest) :
    ∃ U2, NInv fl s U2 (loopBody fl { g with Q := rest } top) ∧ U2 ⊆ U ∧
      (top.1 ≤ g.dist top.2 → top.2 ∉ U2) ∧
      ∀ x, x < g.edge.length → x ∉ U2 →
        (loopBody fl { g with Q := rest } top).dist x = g.dist x := by
  by_cases h0 : top.1 ≤ ({ g with Q := rest } : Graph).dist top.2
  · have h : top.1 ≤ g.dist top.2 := h0
    obtain ⟨_, hv, hP⟩ := pop_PInv s U g top rest hg hq h
    obtain ⟨k1, _, _, k4⟩ := foldl_relax_PInv hfl s top.2 top.1 (U.erase top.2)
      (({ g with Q := rest } : Graph).adj top.2) { g with Q := rest } hP hv (fun e he => he)
    refine ⟨U.erase top.2, ?_, Finset.erase_subset _ _, fun _ => Finset.not_mem_erase _ _, ?_⟩
    · rw [loopBody_def, if_pos h0]
      refine ⟨k1.ginv, k1.nn, k1.pos, k1.src, k1.sorted, k1.nodup, ?_, k1.t3, ?_⟩
      · intro u hu hnU e he
        exact le_trans (k1.t2 u hu hnU) (k1.m e he)
      · intro u hnu
        by_cases huv : u = top.2
        · right
          intro e he
          unfold Graph.adj at he
          rw [foldl_relax_edge, huv] at he
          rw [huv, k1.dv]
          exact k4 e he
        · exact k1.j u huv hnu
    · intro x hx hxU
      rw [loopBody_def, if_pos h0]
      exact foldl_relax_PInv_done hfl s top.2 top.1 (U.erase top.2) _ _ hP hv (fun e he => he)
        x hx hxU
  · have h : ¬ top.1 ≤ g.dist top.2 := h0
    have hsub : ∀ e ∈ rest, e ∈ g.Q := fun e he => by rw [hq]; exact List.mem_cons_of_mem _ he
    have hsorted : (top :: rest).Sorted iiLE := hq ▸ hg.sorted
    have hnodup : (top :: rest).Nodup := hq ▸ hg.nodup
    refine ⟨U, ?_, Finset.Subset.refl _, fun hh => absurd hh h, ?_⟩
    · rw [loopBody_def, if_neg h0]
      refine ⟨pop_GInv s g top rest hg.ginv hq, hg.nn, hg.pos, hg.src, hsorted.of_cons,
        hnodup.of_cons, ?_, ?_, ?_⟩
      · intro u hu hnU e he
        exact hg.t2 u hu hnU e (hsub e he)
      · intro e he
        exact hg.t3 e (hsub e he)
      · intro u hnu
        rcases hg.j u hnu with hj | hj
        · left
          rw [hq] at hj
          rcases List.mem_cons.mp hj with hj | hj
          · exfalso
            apply h
            rw [← hj]
          · exact hj
        · exact Or.inr hj
    · intro x _ _
      rw [loopBody_def, if_neg h0]
      rfl

theorem scans_cons (g : Graph) (top : ii) (rest : List ii) (hq : g.Q = top :: rest) :
    scans g = if top.1 ≤ g.dist top.2 then some top.2 else none := by
  unfold scans
  rw [hq]

theorem scans_nil (g : Graph) (hq : g.Q = []) : scans g = none := by
  unfold scans
  rw [hq]

theorem NInv.not_scans {fl : ℚ → ℚ} {s : ℕ} {U : Finset ℕ} {g : Graph} (hg : NInv fl s U g) (x : ℕ)
    (hxU : x ∉ U) : scans g ≠ some x := by
  cases hq : g.Q with
  | nil => rw [scans_nil g hq]; exact fun h => Option.noConfusion h
  | cons top rest =>
    rw [scans_cons g top rest hq]
    split_ifs with h
    · intro heq
      have hx : top.2 = x := Option.some.inj heq
      have htop : top ∈ g.Q := by rw [hq]; exact List.mem_cons_self _ _
      rcases hg.t3 top htop with h3 | h3
      · rw [hx] at h3
        exact hxU h3
      · linarith
    · exact fun h => Option.noConfusion h

/-- A vertex outside the set of unscanned vertices is never scanned again and keeps its
distance, however many iterations follow. -/
theorem done_forever {fl : ℚ → ℚ} (hfl : Rounding fl) (s : ℕ) (x : ℕ) (m : ℕ) :
    ∀ (U : Finset ℕ) (g : Graph), NInv fl s U g →
    x < g.edge.length → x ∉ U →
    scans (whileSteps fl m g) ≠ some x ∧ (whileSteps fl m g).dist x = g.dist x := by
  induction m with
  | zero =>
    intro U g hg _ hxU
    exact ⟨hg.not_scans x hxU, rfl⟩
  | succ m ih =>
    intro U g hg hx hxU
    cases hq : g.Q with
    | nil =>
      rw [whileSteps_nil _ g hq]
      exact ⟨hg.not_scans x hxU, rfl⟩
    | cons top rest =>
      rw [whileSteps_cons m g top rest hq]
      obtain ⟨U2, h1, h2, _, h4⟩ := loopBody_scan hfl s U g top rest hg hq
      have hxU2 : x ∉ U2 := fun h => hxU (h2 h)
      obtain ⟨k1, k2⟩ := ih U2 _ h1 (by rw [loopBody_edge]; exact hx) hxU2
      exact ⟨k1, by rw [k2, h4 x hx hxU2]⟩

theorem whileSteps_NInv {fl : ℚ → ℚ} (hfl : Rounding fl) (s : ℕ) (k : ℕ) :
    ∀ (U : Finset ℕ) (g : Graph), NInv fl s U g →
    ∃ U2, NInv fl s U2 (whileSteps fl k g) ∧ (whileSteps fl k g).edge = g.edge := by
  induction k with
  | zero => exact fun U g hg => ⟨U, hg, rfl⟩
  | succ k ih =>
    intro U g hg
    cases hq : g.Q with
    | nil =>
      rw [whileSteps_nil _ g hq]
      exact ⟨U, hg, rfl⟩
    | cons top rest =>
      rw [whileSteps_cons k g top rest hq]
      obtain ⟨U2, h1, _⟩ := loopBody_scan hfl s U g top rest hg hq
      obtain ⟨U3, k1, k2⟩ := ih U2 _ h1
      exact ⟨U3, k1, by rw [k2, loopBody_edge]⟩

/-- C17. In any run of dijkstra(s), s in 1..V, on a graph built on a fresh Graph(V) with
non-negative weights, each vertex passes the staleness check d <= distance[v] (and so has its
neighbours scanned) at most once, and at that moment its recorded distance is final: when the
iteration after k iterations scans v, no later iteration scans v, the distance of v is the same
after every later iteration, and it is the distance dijkstra ends with. -/
theorem dijkstra_scans_once (fl : ℚ → ℚ) (hfl : Rounding fl) (V : ℕ)
    (es : List (ℕ × ℕ × ℚ)) (s k v : ℕ)
    (hv : ValidEdges V es) (hnn : NonNeg es) (hs : 1 ≤ s ∧ s ≤ V)
    (hscan : scans (whileSteps fl k (dijkstraInit s (build V es))) = some v) :
    (∀ j, k < j → scans (whileSteps fl j (dijkstraInit s (build V es))) ≠ some v) ∧
      (∀ j, k ≤ j → (whileSteps fl j (dijkstraInit s (build V es))).dist v =
        (whileSteps fl k (dijkstraInit s (build V es))).dist v) ∧
      ∀ n r, dijkstra fl n s (build V es) = some r →
        r.1.dist v = (whileSteps fl k (dijkstraInit s (build V es))).dist v := by
  have hr := build_Ready V es hv
  obtain ⟨h0, _⟩ := init_NInv hfl s (build V es) hr (by rw [build_V]; exact hs.2)
    (build_nonnegFrom V es hnn s)
  obtain ⟨U, hU, _⟩ := whileSteps_NInv hfl s k _ _ h0
  -- the state after k iterations and the entry it pops
  cases hq : (whileSteps fl k (dijkstraInit s (build V es))).Q with
  | nil =>
    rw [scans_nil _ hq] at hscan
    exact Option.noConfusion hscan
  | cons top rest =>
    rw [scans_cons _ top rest hq] at hscan
    by_cases hcur : top.1 ≤ (whileSteps fl k (dijkstraInit s (build V es))).dist top.2
    · rw [if_pos hcur] at hscan
      have hvt : top.2 = v := Option.some.inj hscan
      have hvlen : v < (whileSteps fl k (dijkstraInit s (build V es))).edge.length := by
        rw [← hvt]
        exact hU.ginv.qv top (by rw [hq]; exact List.mem_cons_self _ _)
      obtain ⟨U2, h1, _, h3, h4⟩ := loopBody_scan hfl s U _ top rest hU hq
      have hvU2 : v ∉ U2 := by rw [← hvt]; exact h3 hcur
      have hstep : ∀ m, whileSteps fl (k + 1 + m) (dijkstraInit s (build V es)) =
          whileSteps fl m (loopBody fl
            { whileSteps fl k (dijkstraInit s (build V es)) with Q := rest } top) := by

        intro m
        rw [show k + 1 + m = k + (1 + m) by omega, whileSteps_add k (1 + m),
          show 1 + m = m + 1 by omega, whileSteps_cons m _ top rest hq]
      have hlater : ∀ j, k < j →
          scans (whileSteps fl j (dijkstraInit s (build V es))) ≠ some v ∧
          (whileSteps fl j (dijkstraInit s (build V es))).dist v =
            (whileSteps fl k (dijkstraInit s (build V es))).dist v := by
        intro j hj
        obtain ⟨m, rfl⟩ : ∃ m, j = k + 1 + m := ⟨j - k - 1, by omega⟩
        rw [hstep m]
        obtain ⟨k1, k2⟩ := done_forever hfl s v m U2 _ h1 (by rw [loopBody_edge]; exact hvlen)
          hvU2

        exact ⟨k1, by rw [k2, h4 v hvlen hvU2]⟩
      have hall : ∀ j, k ≤ j → (whileSteps fl j (dijkstraInit s (build V es))).dist v =
          (whileSteps fl k (dijkstraInit s (build V es))).dist v := by
        intro j hj
        rcases Nat.eq_or_lt_of_le hj with rfl | hlt
        · rfl
        · exact (hlater j hlt).2
      refine ⟨fun j hj => (hlater j hj).1, hall, ?_⟩
      intro n r hd
      unfold dijkstra at hd
      cases hw : whileLoop fl n (dijkstraInit s (build V es)) with
      | none => rw [hw] at hd; simp at hd
      | some g2 =>
        rw [hw] at hd
        simp only [Option.map_some', Option.some.injEq] at hd
        subst hd
        rw [averageDistance_dist]
        obtain ⟨_, h6⟩ := whileLoop_eq_whileSteps n _ g2 hw
        rw [← h6 (n + k) (by omega)]
        exact hall (n + k) (by omega)
    · rw [if_neg hcur] at hscan
      exact Option.noConfusion hscan

theorem dijkstra_scans_once_witness :
    (ValidEdges 3 triangle ∧ NonNeg triangle ∧
        scans (whileSteps roundDouble 1 (dijkstraInit 1 (build 3 triangle))) = some 2) ∧
      ((∀ j, 1 < j →
        scans (whileSteps roundDouble j (dijkstraInit 1 (build 3 triangle))) ≠ some 2) ∧
      (∀ j, 1 ≤ j → (whileSteps roundDouble j (dijkstraInit 1 (build 3 triangle))).dist 2 =
        (whileSteps roundDouble 1 (dijkstraInit 1 (build 3 triangle))).dist 2) ∧
      ∀ n r, dijkstra roundDouble n 1 (build 3 triangle) = some r →
        r.1.dist 2 = (whileSteps roundDouble 1 (dijkstraInit 1 (build 3 triangle))).dist 2) :=
  ⟨⟨by decide, by decide!, by decide!⟩,
    dijkstra_scans_once roundDouble roundDouble_rounding 3 triangle 1 1 2 (by decide)
      (by decide!) ⟨by decide, by decide⟩ (by decide!)⟩

/-! ## Negative weights -/

/-- A negative edge at the source does not keep the loop running for ever: with the single edge
1–2 of weight −2^1023 the double sums overflow to −∞, the queue is empty after 4 pops, and
dijkstra(1) returns with both distances, the sum and the quotient at −∞. -/
theorem negative_overflow_run :
    whileLoop roundDouble 4 (dijkstraInit 1 (build 2 [(1, 2, -(pow2 1023))])) = none ∧
      (dijkstra roundDouble 5 1 (build 2 [(1, 2, -(pow2 1023))])).map
          (fun r => (r.1.distance, r.1.sum, r.1.adjacent_vertices, r.2))
        = some ([2147483647, -(pow2 1100), -(pow2 1100)], -(pow2 1100), 2,
          some (-(pow2 1100))) := by
  decide!

end Week3
